import Mathlib

/-!
# SpeechTrain: CTC forced alignment and GOP scoring

A shallow embedding of `native_module/src/Align.cpp` (`calculateGOP`) together with
the parts of `ModelRunner` and `Phonemizer.h` it reads, of the tokenizer
`Phonemizer::cleanAndTokenizeIPA` (`Phonemizer.cpp`), of the downmix and log-softmax
steps of `ModelRunner.cpp`, and of the overall score of `api.cpp`.

Conventions of the embedding

* `float` values are exact rationals (`ℚ`): comparisons, sums and means are the
  ideal ones, rounding is not modelled.  `NEG_INF` is the source constant `-1e9f`.
* `int` and `size_t` values are unbounded integers (`Int`); wrap-around of
  `T * S` is not modelled.
* `std::vector` is a `List`; `operator[]` is `vecGet` / `vecSet`, which answer
  `none` outside the bounds.  A function that indexes a vector therefore lives in
  `Option`, and `none` stands for the undefined behaviour (or the allocation
  failure) of the C++ program.
* `std::map<std::string, int>` is an association list read with `List.lookup`.
* Writes to `std::cerr` are not modelled.
-/

namespace SpeechTrain

/-! ## Vectors and loops -/

/-- Read `v[i]` with a bounds check. -/
def vecGet {α : Type} (v : List α) (i : Int) : Option α :=
  if i < 0 then none else v[i.toNat]?

/-- Write `v[i] = x` with a bounds check. -/
def vecSet {α : Type} (v : List α) (i : Int) (x : α) : Option (List α) :=
  if 0 ≤ i ∧ i.toNat < v.length then some (v.set i.toNat x) else none

/-- Loop `for (i = lo; ...; ++i) body` running `n` iterations from `i`. -/
def forUp {σ : Type} (body : Int → σ → Option σ) : Nat → Int → σ → Option σ
  | 0, _, st => some st
  | n + 1, i, st => (body i st).bind (forUp body n (i + 1))

/-- Loop `for (i = hi; ...; --i) body` running `n` iterations from `i`. -/
def forDown {σ : Type} (body : Int → σ → Option σ) : Nat → Int → σ → Option σ
  | 0, _, st => some st
  | n + 1, i, st => (body i st).bind (forDown body n (i - 1))

/-! ## Data model (`Phonemizer.h`, `ModelRunner.h`, `Align.h`) -/

/-- Source constant `NEG_INF = -1e9f`. -/
def NEG_INF : ℚ := -1000000000

/-- Source constant `THRESHOLD_GOOD = -2.5f`. -/
def THRESHOLD_GOOD : ℚ := -5 / 2

/-- Record `PhonemeDetail` of `Phonemizer.h`. -/
structure PhonemeDetail where
  ipa : String
  token_id : Int
  score : ℚ
  is_good : Bool
  start_frame : Int
  end_frame : Int
  deriving DecidableEq

/-- Record `WordAnalysis` of `Phonemizer.h`. -/
structure WordAnalysis where
  word : String
  clean_word : String
  raw_ipa : String
  phonemes : List String
  details : List PhonemeDetail
  word_score : ℚ
  deriving DecidableEq

/-- Record `TargetMap` of `Align.cpp`. -/
structure TargetMap where
  word_idx : Int
  phoneme_idx : Int
  token_id : Int
  text : String
  deriving DecidableEq

/-- The fields of `ModelRunner` read by the aligner. -/
structure ModelRunner where
  token_to_id : List (String × Int)
  output_log_probs : List ℚ
  time_steps : Int
  vocab_size : Int
  deriving DecidableEq

namespace ModelRunner

/-- Accessor `ModelRunner::getTimeSteps`. -/
def getTimeSteps (r : ModelRunner) : Int := r.time_steps

/-- Accessor `ModelRunner::getVocabSize`. -/
def getVocabSize (r : ModelRunner) : Int := r.vocab_size

/-- Method `ModelRunner::getLogProb`; `none` is a read past the end of
`output_log_probs`. -/
def getLogProb (r : ModelRunner) (time_step token_id : Int) : Option ℚ :=
  if time_step < 0 ∨ time_step ≥ r.time_steps ∨ token_id < 0 ∨ token_id ≥ r.vocab_size then
    some NEG_INF
  else
    vecGet r.output_log_probs (time_step * r.vocab_size + token_id)

/-- Method `ModelRunner::getTokenId`. -/
def getTokenId (r : ModelRunner) (token : String) : Int :=
  match r.token_to_id.lookup token with
  | some id => id
  | none => -1

end ModelRunner

/-! ## `calculateGOP`, step by step -/

/-- Inner loop of step 1: the phonemes of word `w_i`, from index `p_i` on. -/
def flattenPhonemes (runner : ModelRunner) (w_i : Int) :
    List String → Int → List TargetMap → List TargetMap
  | [], _, flat_targets => flat_targets
  | p_text :: rest, p_i, flat_targets =>
    let tid := runner.getTokenId p_text
    if tid ≠ -1 then
      flattenPhonemes runner w_i rest (p_i + 1) (flat_targets ++ [⟨w_i, p_i, tid, p_text⟩])
    else
      flattenPhonemes runner w_i rest (p_i + 1) flat_targets

/-- Outer loop of step 1: clears `details` and `word_score` of every word and
collects the flat targets. -/
def flattenWords (runner : ModelRunner) :
    List WordAnalysis → Int → List TargetMap → List WordAnalysis × List TargetMap
  | [], _, flat_targets => ([], flat_targets)
  | w :: rest, w_i, flat_targets =>
    let w1 := { w with details := [], word_score := 0 }
    let flat1 := flattenPhonemes runner w_i w.phonemes 0 flat_targets
    let res := flattenWords runner rest (w_i + 1) flat1
    (w1 :: res.1, res.2)

/-- Step 2: the CTC extended states `[b, A, b, B, b]`. -/
def buildExtendedStates (flat_targets : List TargetMap) (blank_idx : Int) : List Int :=
  flat_targets.foldl (fun ext t => ext ++ [blank_idx, t.token_id]) [] ++ [blank_idx]

/-- Body of the two nested loops of step 3, for frame `t` and state `s`. -/
def viterbiCell (runner : ModelRunner) (extended_states : List Int) (blank_idx S t s : Int)
    (tab : List ℚ × List Int) : Option (List ℚ × List Int) := do
  let current_token ← vecGet extended_states s
  let current_prob ← runner.getLogProb t current_token
  let m0 : ℚ × Int := (NEG_INF, -1)
  -- 1. Stay (s -> s)
  let d_stay ← vecGet tab.1 ((t - 1) * S + s)
  let m1 : ℚ × Int := if d_stay > NEG_INF ∧ d_stay > m0.1 then (d_stay, s) else m0
  -- 2. Transition (s-1 -> s)
  let m2 : ℚ × Int ←
    if s > 0 then do
      let d_step ← vecGet tab.1 ((t - 1) * S + (s - 1))
      pure (if d_step > NEG_INF ∧ d_step > m1.1 then (d_step, s - 1) else m1)
    else pure m1
  -- 3. Skip Blank (s-2 -> s)
  let m3 : ℚ × Int ←
    if s > 1 ∧ current_token ≠ blank_idx then do
      let e1 ← vecGet extended_states (s - 1)
      if e1 = blank_idx then do
        let e2 ← vecGet extended_states (s - 2)
        if e2 ≠ current_token then do
          let d_skip ← vecGet tab.1 ((t - 1) * S + (s - 2))
          pure (if d_skip > NEG_INF ∧ d_skip > m2.1 then (d_skip, s - 2) else m2)
        else pure m2
      else pure m2
    else pure m2
  if m3.2 ≠ -1 then do
    let dp ← vecSet tab.1 (t * S + s) (m3.1 + current_prob)
    let backtrack ← vecSet tab.2 (t * S + s) m3.2
    pure (dp, backtrack)
  else pure tab

/-- Step 3: allocation of the tables, initialisation of frame 0 and the forward
recurrence.  Returns `(dp, backtrack)`. -/
def viterbiForward (runner : ModelRunner) (extended_states : List Int) (blank_idx T S : Int) :
    Option (List ℚ × List Int) := do
  if T * S < 0 then none
  let dp : List ℚ := List.replicate (T * S).toNat NEG_INF
  let backtrack : List Int := List.replicate (T * S).toNat (-1)
  let s0 ← vecGet extended_states 0
  let prob0 ← runner.getLogProb 0 s0
  let dp ← vecSet dp 0 prob0
  let dp ←
    if S > 1 then do
      let s1 ← vecGet extended_states 1
      let prob1 ← runner.getLogProb 0 s1
      vecSet dp 1 prob1
    else pure dp
  forUp (fun t tab => forUp (viterbiCell runner extended_states blank_idx S t) S.toNat 0 tab)
    (T - 1).toNat 1 (dp, backtrack)

/-- Choice of the terminal state in step 4: `none` when the alignment is broken. -/
def chooseTerminal (dp : List ℚ) (T S : Int) : Option (Option Int) := do
  let score_blank ← vecGet dp ((T - 1) * S + (S - 1))
  let score_last ← if S > 1 then vecGet dp ((T - 1) * S + (S - 2)) else pure NEG_INF
  let current_s : Int := if score_blank > score_last then S - 1 else S - 2
  if current_s < 0 then pure none
  else do
    let d ← vecGet dp ((T - 1) * S + current_s)
    if d ≤ NEG_INF then pure none else pure (some current_s)

/-- Backtracking loop of step 4, from the terminal state `current_s`. -/
def backtrackPath (backtrack : List Int) (T S current_s : Int) : Option (List Int) := do
  if T < 0 then none
  let path_states : List Int := List.replicate T.toNat 0
  let res ← forDown
    (fun t (st : List Int × Int) => do
      let path ← vecSet st.1 t st.2
      let prev ← vecGet backtrack (t * S + st.2)
      pure (path, prev))
    T.toNat (T - 1) (path_states, current_s)
  pure res.1

/-- Inner loop of step 5: the span `(start_t, end_t, sum_log_prob, count)` of the
state `target_state_s` along the path. -/
def scanTarget (runner : ModelRunner) (path_states : List Int) (T target_state_s token_id : Int) :
    Option (Int × Int × ℚ × Int) :=
  forUp
    (fun t (st : Int × Int × ℚ × Int) => do
      let p ← vecGet path_states t
      if p = target_state_s then do
        let lp ← runner.getLogProb t token_id
        pure (if st.1 = -1 then t else st.1, t, st.2.2.1 + lp, st.2.2.2 + 1)
      else pure st)
    T.toNat 0 (-1, -1, 0, 0)

/-- The `PhonemeDetail` built in step 5 for flat target `i`. -/
def makeDetail (runner : ModelRunner) (path_states : List Int) (T : Int) (i : Int)
    (target : TargetMap) : Option PhonemeDetail := do
  let target_state_s := i * 2 + 1
  let sp ← scanTarget runner path_states T target_state_s target.token_id
  let score : ℚ := if sp.2.2.2 > 0 then sp.2.2.1 / (sp.2.2.2 : ℚ) else -10
  pure { ipa := target.text, token_id := target.token_id, score := score,
         is_good := decide (score > THRESHOLD_GOOD), start_frame := sp.1, end_frame := sp.2.1 }

/-- Statement `words[idx].details.push_back(detail)`. -/
def pushDetail (words : List WordAnalysis) (idx : Int) (detail : PhonemeDetail) :
    Option (List WordAnalysis) := do
  let w ← vecGet words idx
  vecSet words idx { w with details := w.details ++ [detail] }

/-- Step 5: one detail per flat target, appended to the word it belongs to. -/
def fillDetails (runner : ModelRunner) (path_states : List Int) (T : Int) :
    List TargetMap → Int → List WordAnalysis → Option (List WordAnalysis)
  | [], _, words => some words
  | target :: rest, i, words => do
    let detail ← makeDetail runner path_states T i target
    let words ← pushDetail words target.word_idx detail
    fillDetails runner path_states T rest (i + 1) words

/-- Inner loop of step 6: `(total, valid)` over the details with `score > -9`. -/
def sumValid (details : List PhonemeDetail) : ℚ × Int :=
  details.foldl (fun acc d => if d.score > -9 then (acc.1 + d.score, acc.2 + 1) else acc) (0, 0)

/-- Step 6 for one word. -/
def scoreWord (w : WordAnalysis) : WordAnalysis :=
  if w.details.isEmpty then { w with word_score := -10 }
  else
    let tv := sumValid w.details
    if tv.2 > 0 then { w with word_score := tv.1 / (tv.2 : ℚ) }
    else { w with word_score := -10 }

/-- Steps 2 to 4: the decoded path for the flat targets, `some none` when the
alignment is broken. -/
def alignPath (runner : ModelRunner) (flat_targets : List TargetMap) (blank_idx : Int) :
    Option (Option (List Int)) := do
  let extended_states := buildExtendedStates flat_targets blank_idx
  let T := runner.getTimeSteps
  let S : Int := extended_states.length
  let tab ← viterbiForward runner extended_states blank_idx T S
  match ← chooseTerminal tab.1 T S with
  | none => pure none
  | some current_s => do
    let path ← backtrackPath tab.2 T S current_s
    pure (some path)

/-- Function `calculateGOP` of `Align.cpp`: the returned flag and the word list as
the call leaves it. -/
def calculateGOP (runner : ModelRunner) (words : List WordAnalysis) (blank_idx : Int) :
    Option (Bool × List WordAnalysis) := do
  if words.isEmpty then pure (false, words)
  else
    let fl := flattenWords runner words 0 []
    let words := fl.1
    let flat_targets := fl.2
    if flat_targets.isEmpty then pure (false, words)
    else
      match ← alignPath runner flat_targets blank_idx with
      | none => pure (false, words)
      | some path_states => do
        let words ← fillDetails runner path_states runner.getTimeSteps flat_targets 0 words
        pure (true, words.map scoreWord)

/-! ## `SpeechEngine::Analyze` (`api.cpp`): the overall score -/

/-- Overall score computed by `SpeechEngine::Analyze` (`api.cpp`) from the scored words:
the accumulation over the words and the final division. -/
def overallScore (ws : List WordAnalysis) : ℚ :=
  let acc : ℚ × Int := ws.foldl
    (fun acc w => if w.word_score > -10 then (acc.1 + w.word_score, acc.2 + 1) else acc) (0, 0)
  if acc.2 > 0 then acc.1 / (acc.2 : ℚ) else -10


/-! ## `Phonemizer::cleanAndTokenizeIPA` (`Phonemizer.cpp`)

In the tokenizer a `std::string` is its sequence of bytes (`List Nat`, every byte below
256), `size_t` is `Nat`, and the vocabulary `std::map<std::string, int>` is an association
list keyed by byte strings.  The two `while`/`for` loops over a byte offset run on a fuel
counter; `none` means that the fuel ran out before the loop condition failed. -/

/-- Method `std::string::substr(pos, len)`. -/
def substr (s : List Nat) (pos len : Nat) : List Nat := (s.drop pos).take len

/-- Function `isIgnoredChar`, with the string literals of the source read as UTF-8: the
bytes of U+02C8, U+02CC, space, underscore and U+00A0. -/
def isIgnoredChar (s : List Nat) : Bool :=
  s == [0xCB, 0x88] || s == [0xCB, 0x8C] || s == [0x20] || s == [0x5F] || s == [0xC2, 0xA0]

/-- The `char_len` computed from the leading byte in the pre-cleaning loop. -/
def cleanCharLen (c : Nat) : Nat :=
  if c &&& 0x80 = 0 then 1
  else if c &&& 0xE0 = 0xC0 then 2
  else if c &&& 0xF0 = 0xE0 then 3
  else if c &&& 0xF8 = 0xF0 then 4
  else 1

/-- The `char_len` computed from the leading byte when no token matches. -/
def skipCharLen (c : Nat) : Nat :=
  if c &&& 0xE0 = 0xC0 then 2
  else if c &&& 0xF0 = 0xE0 then 3
  else if c &&& 0xF8 = 0xF0 then 4
  else 1

/-- First step of `cleanAndTokenizeIPA`: the pre-cleaning loop from offset `i`, with the
cleaned string built so far. -/
def preCleanLoop (raw_ipa : List Nat) : Nat → Nat → List Nat → Option (List Nat)
  | 0, i, clean_str => if i < raw_ipa.length then none else some clean_str
  | fuel + 1, i, clean_str =>
    if i < raw_ipa.length then
      let c := raw_ipa.getD i 0
      let char_len := cleanCharLen c
      if i + char_len > raw_ipa.length then some clean_str
      else
        let symbol := substr raw_ipa i char_len
        let clean_str := if !isIgnoredChar symbol then clean_str ++ symbol else clean_str
        preCleanLoop raw_ipa fuel (i + char_len) clean_str
    else some clean_str

/-- Inner `for` loop of the second step: the longest `len`, from `len` down to 1, for which
`clean_str.substr(i, len)` is a vocabulary key. -/
def findMatch (vocab : List (List Nat × Int)) (clean_str : List Nat) (i : Nat) :
    Nat → Option Nat
  | 0 => none
  | len + 1 =>
    if (vocab.lookup (substr clean_str i (len + 1))).isSome then some (len + 1)
    else findMatch vocab clean_str i len

/-- Second step of `cleanAndTokenizeIPA`: the greatest-match loop from offset `i`, with the
tokens emitted so far. -/
def tokenizeLoop (vocab : List (List Nat × Int)) (clean_str : List Nat) :
    Nat → Nat → List (List Nat) → Option (List (List Nat))
  | 0, i, tokens => if i < clean_str.length then none else some tokens
  | fuel + 1, i, tokens =>
    if i < clean_str.length then
      let max_try_len := if i + 8 > clean_str.length then clean_str.length - i else 8
      match findMatch vocab clean_str i max_try_len with
      | some len =>
        tokenizeLoop vocab clean_str fuel (i + len) (tokens ++ [substr clean_str i len])
      | none =>
        let c := clean_str.getD i 0
        let char_len := skipCharLen c
        tokenizeLoop vocab clean_str fuel (i + char_len) tokens
    else some tokens

/-- The intermediate cleaned string of `cleanAndTokenizeIPA`. -/
def cleanIPA (raw_ipa : List Nat) : Option (List Nat) :=
  preCleanLoop raw_ipa raw_ipa.length 0 []

/-- Method `Phonemizer::cleanAndTokenizeIPA`. -/
def cleanAndTokenizeIPA (vocab : List (List Nat × Int)) (raw_ipa : List Nat) :
    Option (List (List Nat)) := do
  let clean_str ← cleanIPA raw_ipa
  tokenizeLoop vocab clean_str clean_str.length 0 []

/-! ## `ModelRunner::loadAudio` and `ModelRunner::mixToMono` (`ModelRunner.cpp`)

The member `audio` is passed in and handed back.  The unsigned `channels`, `total_frames`
and `input_size` are natural numbers. -/

/-- Method `ModelRunner::mixToMono`; `none` is a read, a write or an `erase` past the end
of `audio`. -/
def mixToMono (audio : List ℚ) (channels total_frames : Nat) : Option (List ℚ) :=
  if channels = 1 then some audio
  else do
    let audio ← forUp (fun i audio => do
        let sum ← forUp (fun c sum => do
            let x ← vecGet audio (i * (channels : Int) + c)
            some (sum + x)) channels 0 (0 : ℚ)
        vecSet audio i (sum / (channels : ℚ))) total_frames 0 audio
    if total_frames ≤ audio.length then some (audio.take total_frames) else none

/-- The first two statements of `ModelRunner::loadAudio`: the member `audio` after
`audio.assign(input, input + input_size)` and `mixToMono(channels, input_size)`, where
`input` is the caller's buffer.  Resampling and normalisation are not modelled. -/
def loadAudio (input : List ℚ) (input_size channels : Nat) : Option (List ℚ) :=
  if input_size ≤ input.length then mixToMono (input.take input_size) channels input_size
  else none

/-- The raw-PCM branch of `SpeechEngine::Analyze` (`api.cpp`):
`loadAudio(pcmData.Data(), pcmData.ElementLength(), sampleRate, channels)`. -/
def analyzeRawLoad (pcmData : List ℚ) (channels : Nat) : Option (List ℚ) :=
  loadAudio pcmData pcmData.length channels

/-- The WAV branch of `SpeechEngine::Analyze` (`api.cpp`): `loadAudio(pData, tf, r, c)`
with `tf` the frame count reported by the WAV reader for the `tf * c` samples `pData`. -/
def analyzeWavLoad (pData : List ℚ) (c tf : Nat) : Option (List ℚ) :=
  loadAudio pData tf c

/-! ## `ModelRunner::computeLogSoftmax` (`ModelRunner.cpp`)

The function is written over any ordered field `K` with the two functions `exp` and `log`
as parameters, so that it can be read over the real numbers.  The initial
`max_val = -infinity` is `none`. -/

/-- Step A of `computeLogSoftmax`: the maximum of the frame starting at `base`. -/
def frameMax {K : Type} [LinearOrderedField K] (data : List K) (base : Int)
    (vocab_size : Int) : Option (Option K) :=
  forUp (fun v (max_val : Option K) => do
      let x ← vecGet data (base + v)
      match max_val with
      | none => some (some x)
      | some m => if x > m then some (some x) else some (some m))
    vocab_size.toNat 0 none

/-- Step B of `computeLogSoftmax`: the sum of `exp(frame_data[v] - max_val)`. -/
def frameSumExp {K : Type} [LinearOrderedField K] (exp : K → K) (data : List K) (base : Int)
    (vocab_size : Int) (max_val : Option K) : Option K :=
  forUp (fun v (sum_exp : K) => do
      let x ← vecGet data (base + v)
      let m ← max_val
      some (sum_exp + exp (x - m)))
    vocab_size.toNat 0 0

/-- Step D of `computeLogSoftmax`: the in-place update of the frame. -/
def frameUpdate {K : Type} [LinearOrderedField K] (data : List K) (base : Int)
    (vocab_size : Int) (max_val : Option K) (log_sum_exp : K) : Option (List K) :=
  forUp (fun v (data : List K) => do
      let x ← vecGet data (base + v)
      let m ← max_val
      vecSet data (base + v) ((x - m) - log_sum_exp))
    vocab_size.toNat 0 data

/-- Method `ModelRunner::computeLogSoftmax` on the member `output_log_probs`. -/
def computeLogSoftmax {K : Type} [LinearOrderedField K] (exp log : K → K)
    (output_log_probs : List K) (time_steps vocab_size : Int) : Option (List K) :=
  forUp (fun t (data : List K) => do
      let base := t * vocab_size
      let max_val ← frameMax data base vocab_size
      let sum_exp ← frameSumExp exp data base vocab_size max_val
      let log_sum_exp := log sum_exp
      frameUpdate data base vocab_size max_val log_sum_exp)
    time_steps.toNat 0 output_log_probs
/-! ## Notions used to state and prove the properties -/

/-- Class invariant of `ModelRunner` after `runInference`: the emission matrix holds
`time_steps * vocab_size` entries. -/
def ModelRunner.WellFormed (r : ModelRunner) : Prop :=
  (r.output_log_probs.length : Int) = r.time_steps * r.vocab_size

instance (r : ModelRunner) : Decidable r.WellFormed := by
  unfold ModelRunner.WellFormed; infer_instance

/-- The value `getLogProb` returns (`0` where the read would leave the matrix). -/
def logProb (r : ModelRunner) (t id : Int) : ℚ := (r.getLogProb t id).getD 0

/-- Token of extended state `s` (`0` outside the state list). -/
def stateToken (ext : List Int) (s : Int) : Int := (vecGet ext s).getD 0

/-- Entry `dp[t * S + s]` (`NEG_INF` outside the table). -/
def dpAt (dp : List ℚ) (S t s : Int) : ℚ := (vecGet dp (t * S + s)).getD NEG_INF

/-- Entry `backtrack[t * S + s]` (`-1` outside the table). -/
def backAt (bt : List Int) (S t s : Int) : Int := (vecGet bt (t * S + s)).getD (-1)

/-- One candidate predecessor: taken when its score is finite and beats the best so far. -/
def relax (d : ℚ) (p : Int) (m : ℚ × Int) : ℚ × Int :=
  if d > NEG_INF ∧ d > m.1 then (d, p) else m

/-- Guard of the skip-blank transition into state `s`. -/
def SkipOk (ext : List Int) (blank_idx s : Int) : Prop :=
  s > 1 ∧ stateToken ext s ≠ blank_idx ∧ stateToken ext (s - 1) = blank_idx ∧
    stateToken ext (s - 2) ≠ stateToken ext s

instance (ext : List Int) (blank_idx s : Int) : Decidable (SkipOk ext blank_idx s) := by
  unfold SkipOk; infer_instance

/-- The pair `(max_score, best_prev)` the loop body reaches for state `s`, as a function of
the previous row. -/
def bestPrev (ext : List Int) (blank_idx : Int) (row : Int → ℚ) (s : Int) : ℚ × Int :=
  let m1 := relax (row s) s (NEG_INF, -1)
  let m2 := if s > 0 then relax (row (s - 1)) (s - 1) m1 else m1
  if SkipOk ext blank_idx s then relax (row (s - 2)) (s - 2) m2 else m2

/-- State of the tables once rows `< t` are complete and row `t` holds its columns `< s`. -/
structure FwdInv (r : ModelRunner) (ext : List Int) (blank_idx T S t s : Int)
    (tab : List ℚ × List Int) : Prop where
  len_dp : (tab.1.length : Int) = T * S
  len_bt : (tab.2.length : Int) = T * S
  row0_0 : dpAt tab.1 S 0 0 = logProb r 0 (stateToken ext 0)
  row0_1 : dpAt tab.1 S 0 1 = logProb r 0 (stateToken ext 1)
  row0_rest : ∀ s', 2 ≤ s' → s' < S → dpAt tab.1 S 0 s' = NEG_INF
  done : ∀ t' s', 1 ≤ t' → 0 ≤ s' → s' < S → (t' < t ∨ (t' = t ∧ s' < s)) →
    dpAt tab.1 S t' s' =
        (if (bestPrev ext blank_idx (fun p => dpAt tab.1 S (t' - 1) p) s').2 ≠ -1 then
          (bestPrev ext blank_idx (fun p => dpAt tab.1 S (t' - 1) p) s').1 +
            logProb r t' (stateToken ext s')
        else NEG_INF) ∧
      backAt tab.2 S t' s' = (bestPrev ext blank_idx (fun p => dpAt tab.1 S (t' - 1) p) s').2
  todo : ∀ t' s', 0 ≤ s' → s' < S → (t < t' ∨ (t' = t ∧ s ≤ s')) →
    dpAt tab.1 S t' s' = NEG_INF ∧ backAt tab.2 S t' s' = -1

/-- An allowed move of the CTC lattice from state `p` to state `s`: stay, step, or
skip-blank. -/
def Move (ext : List Int) (blank_idx p s : Int) : Prop :=
  s = p ∨ s = p + 1 ∨
    (s = p + 2 ∧ stateToken ext s ≠ blank_idx ∧ stateToken ext (s - 1) = blank_idx ∧
      stateToken ext (s - 2) ≠ stateToken ext s)

instance (ext : List Int) (blank_idx p s : Int) : Decidable (Move ext blank_idx p s) := by
  unfold Move; infer_instance

/-- Summary of a candidate pair: either nothing was taken, or the pair names a finite
entry of the row reached by an allowed move, and in both cases it dominates the finite
entries seen so far. -/
def PairOk (ext : List Int) (blank_idx : Int) (row : Int → ℚ) (s : Int) (m : ℚ × Int) : Prop :=
  NEG_INF ≤ m.1 ∧
  ((m.2 = -1 ∧ m.1 = NEG_INF) ∨
    (0 ≤ m.2 ∧ Move ext blank_idx m.2 s ∧ m.1 = row m.2 ∧ row m.2 > NEG_INF))

/-- Entry `path_states[t]` (`0` outside the path). -/
def pathAt (path : List Int) (t : Int) : Int := (vecGet path t).getD 0

/-- State of the backtracking loop when frame `t` is the next one to fill. -/
structure BackInv (dp : List ℚ) (bt : List Int) (T S cur0 t : Int) (st : List Int × Int) :
    Prop where
  len : (st.1.length : Int) = T
  cur_ok : 0 ≤ t → 0 ≤ st.2 ∧ st.2 < S ∧ dpAt dp S t st.2 > NEG_INF
  filled : ∀ t', t < t' → t' < T →
    0 ≤ pathAt st.1 t' ∧ pathAt st.1 t' < S ∧ dpAt dp S t' (pathAt st.1 t') > NEG_INF
  link : ∀ t', t + 1 < t' → t' < T → backAt bt S t' (pathAt st.1 t') = pathAt st.1 (t' - 1)
  link_cur : t + 1 < T → backAt bt S (t + 1) (pathAt st.1 (t + 1)) = st.2
  last : t + 1 < T → pathAt st.1 (T - 1) = cur0
  first : t + 1 = T → st.2 = cur0

/-- What the backtracking loop delivers: a path of `T` states with finite scores, linked
by the backtrack table, ending in `cur0`. -/
structure PathSpec (dp : List ℚ) (bt : List Int) (T S cur0 : Int) (path : List Int) : Prop where
  len : (path.length : Int) = T
  valid : ∀ t, 0 ≤ t → t < T →
    0 ≤ pathAt path t ∧ pathAt path t < S ∧ dpAt dp S t (pathAt path t) > NEG_INF
  link : ∀ t, 1 ≤ t → t < T → backAt bt S t (pathAt path t) = pathAt path (t - 1)
  last : pathAt path (T - 1) = cur0

/-- An admissible CTC path over `T` frames and `S` states: it starts in state 0 or 1, ends
in state `S-2` or `S-1`, and every step is an allowed move. -/
structure Admissible (ext : List Int) (blank_idx T S : Int) (q : List Int) : Prop where
  len : (q.length : Int) = T
  start : pathAt q 0 = 0 ∨ pathAt q 0 = 1
  finish : pathAt q (T - 1) = S - 2 ∨ pathAt q (T - 1) = S - 1
  move : ∀ t, 1 ≤ t → t < T → Move ext blank_idx (pathAt q (t - 1)) (pathAt q t)

/-- Total log-probability of the first `k` frames of a path:
`sum_{t < k} log_prob(t, states[path[t]])`. -/
def prefixScore (r : ModelRunner) (ext : List Int) (q : List Int) (k : Nat) : ℚ :=
  ∑ t in Finset.range k, logProb r (t : Int) (stateToken ext (pathAt q t))

/-- Total log-probability of a path. -/
def pathScore (r : ModelRunner) (ext : List Int) (q : List Int) : ℚ :=
  prefixScore r ext q q.length

/-- Frames `u` with `0 ≤ u < t` that the path spends in state `s`. -/
def framesBefore (path : List Int) (s t : Int) : Finset Int :=
  (Finset.Ico 0 t).filter (fun u => pathAt path u = s)

/-- State of the scanning loop of step 5 before frame `t`. -/
structure ScanInv (r : ModelRunner) (path : List Int) (s token_id t : Int)
    (st : Int × Int × ℚ × Int) : Prop where
  count : st.2.2.2 = (framesBefore path s t).card
  sum : st.2.2.1 = ∑ u in framesBefore path s t, logProb r u token_id
  none : framesBefore path s t = ∅ → st.1 = -1 ∧ st.2.1 = -1
  some : (framesBefore path s t).Nonempty →
    st.1 ∈ framesBefore path s t ∧ st.2.1 ∈ framesBefore path s t ∧
      ∀ u ∈ framesBefore path s t, st.1 ≤ u ∧ u ≤ st.2.1

/-- The detail step 5 builds for flat target `i`, as a function of the decoded path. -/
def detailOf (r : ModelRunner) (path : List Int) (T i : Int) (tg : TargetMap) : PhonemeDetail :=
  (makeDetail r path T i tg).getD ⟨"", 0, 0, false, 0, 0⟩

/-- The details of consecutive flat targets, the first of which has flat index `i`. -/
def detailsOf (r : ModelRunner) (path : List Int) (T : Int) : List TargetMap → Int → List PhonemeDetail
  | [], _ => []
  | tg :: rest, i => detailOf r path T i tg :: detailsOf r path T rest (i + 1)

/-- What step 5 writes into a detail, in terms of the frames of its state. -/
structure DetailSpec (r : ModelRunner) (path : List Int) (T i : Int) (tg : TargetMap)
    (d : PhonemeDetail) : Prop where
  ipa : d.ipa = tg.text
  token_id : d.token_id = tg.token_id
  is_good : d.is_good = decide (d.score > THRESHOLD_GOOD)
  none : framesBefore path (i * 2 + 1) T = ∅ →
    d.score = -10 ∧ d.start_frame = -1 ∧ d.end_frame = -1
  some : (framesBefore path (i * 2 + 1) T).Nonempty →
    d.score = (∑ u in framesBefore path (i * 2 + 1) T, logProb r u tg.token_id) /
        ((framesBefore path (i * 2 + 1) T).card : ℚ) ∧
      d.start_frame ∈ framesBefore path (i * 2 + 1) T ∧
      d.end_frame ∈ framesBefore path (i * 2 + 1) T ∧
      ∀ u ∈ framesBefore path (i * 2 + 1) T, d.start_frame ≤ u ∧ u ≤ d.end_frame

/-- The flat targets contributed by word number `w_i`. -/
def wordTargets (r : ModelRunner) (w_i : Int) (w : WordAnalysis) : List TargetMap :=
  flattenPhonemes r w_i w.phonemes 0 []

/-- The flat target list built by step 1. -/
def flatTargets (r : ModelRunner) (ws : List WordAnalysis) : List TargetMap :=
  (flattenWords r ws 0 []).2

/-- The word list after step 5: every word holds the details of its own targets.  The
first word has index `w_i` and its first target has flat index `i`. -/
def filledWords (r : ModelRunner) (path : List Int) (T : Int) :
    List WordAnalysis → Int → Int → List WordAnalysis
  | [], _, _ => []
  | w :: rest, w_i, i =>
    { w with details := detailsOf r path T (wordTargets r w_i w) i, word_score := 0 } ::
      filledWords r path T rest (w_i + 1) (i + (wordTargets r w_i w).length)

/-- The word list a call leaves behind when it returns `false` after step 1. -/
def clearedWords (ws : List WordAnalysis) : List WordAnalysis :=
  ws.map (fun w => { w with details := [], word_score := 0 })

/-- Data-model invariant of the vocabulary: identifiers are non-negative. -/
def VocabValid (r : ModelRunner) : Prop := ∀ e ∈ r.token_to_id, 0 ≤ e.2

instance (r : ModelRunner) : Decidable (VocabValid r) := by
  unfold VocabValid; infer_instance

/-! ## Sample inputs -/

/-- Vocabulary `<blank>`, `a`, `b` and a `5 x 3` emission on which `a` wins frames 0 and 1
and `b` wins frames 2 to 4. -/
def sampleRunner : ModelRunner :=
  ModelRunner.mk [("<blank>", 0), ("a", 1), ("b", 2)]
    [-3, -1, -4, -3, -1, -4, -3, -4, -1, -3, -4, -1, -3, -4, -1] 5 3

/-- Three words: `a` (with a stale detail), the unknown phoneme `q`, and `b`. -/
def sampleWords : List WordAnalysis :=
  [WordAnalysis.mk "A," "A" "a" ["a"] [PhonemeDetail.mk "x" 7 (-1) true 3 4] (-2),
   WordAnalysis.mk "Q" "Q" "q" ["q"] [] 0,
   WordAnalysis.mk "B." "B" "b" ["b"] [] 0]

/-- The words after `calculateGOP sampleRunner sampleWords 0`. -/
def sampleResult : List WordAnalysis :=
  [WordAnalysis.mk "A," "A" "a" ["a"] [PhonemeDetail.mk "a" 1 (-1) true 0 1] (-1),
   WordAnalysis.mk "Q" "Q" "q" ["q"] [] (-10),
   WordAnalysis.mk "B." "B" "b" ["b"] [PhonemeDetail.mk "b" 2 (-1) true 2 4] (-1)]

/-- Vocabulary `<blank>`, `a` and a `3 x 2` emission. -/
def repeatRunner : ModelRunner :=
  ModelRunner.mk [("<blank>", 0), ("a", 1)] [-1, -1, -1, -1, -1, -1] 3 2

/-- One word with the reference `[a, a]`. -/
def repeatWords : List WordAnalysis := [WordAnalysis.mk "aa" "aa" "aa" ["a", "a"] [] 0]

/-- The words after `calculateGOP repeatRunner repeatWords 0`. -/
def repeatResult : List WordAnalysis :=
  [WordAnalysis.mk "aa" "aa" "aa" ["a", "a"]
    [PhonemeDetail.mk "a" 1 (-1) true 0 0, PhonemeDetail.mk "a" 1 (-1) true 2 2] (-1)]

/-- Vocabulary `<blank>`, `a` and a `1 x 2` emission giving `a` the log-probability `-10`. -/
def lowRunner : ModelRunner := ModelRunner.mk [("<blank>", 0), ("a", 1)] [-1, -10] 1 2

/-- One word with the reference `[a]`. -/
def lowWords : List WordAnalysis := [WordAnalysis.mk "a" "a" "a" ["a"] [] 0]

/-- The words after `calculateGOP lowRunner lowWords 0`. -/
def lowResult : List WordAnalysis :=
  [WordAnalysis.mk "a" "a" "a" ["a"] [PhonemeDetail.mk "a" 1 (-10) false 0 0] (-10)]

/-- Vocabulary `<blank>`, `a` and a `2 x 2` emission. -/
def pairRunner : ModelRunner := ModelRunner.mk [("<blank>", 0), ("a", 1)] [-2, -1, -1, -3] 2 2

/-- The words after `calculateGOP pairRunner lowWords 0`. -/
def pairResult : List WordAnalysis :=
  [WordAnalysis.mk "a" "a" "a" ["a"] [PhonemeDetail.mk "a" 1 (-1) true 0 0] (-1)]

/-- Vocabulary `<blank>`, `a` and a `5 x 2` emission that favours the blank on the even
frames and `a` on the odd frames. -/
def squareRunner : ModelRunner :=
  ModelRunner.mk [("<blank>", 0), ("a", 1)] [-1, -3, -3, -1, -1, -3, -3, -1, -1, -3] 5 2

/-- The words after `calculateGOP squareRunner repeatWords 0`. -/
def squareResult : List WordAnalysis :=
  [WordAnalysis.mk "aa" "aa" "aa" ["a", "a"]
    [PhonemeDetail.mk "a" 1 (-1) true 1 1, PhonemeDetail.mk "a" 1 (-1) true 3 3] (-1)]

/-- Tables of `viterbiForward repeatRunner [0, 1, 0] 0 2 3`: every emission is `-1`, so the
stay and step candidates of state 1 tie at frame 1. -/
def tieTable : List ℚ × List Int :=
  ([-1, -1, -1000000000, -2, -2, -2], [-1, -1, -1, 0, 1, 1])


/-! ## UTF-8 (specification side of the tokenizer claims) -/

/-- UTF-8 bytes of the code point `cp`. -/
def utf8EncodeCodepoint (cp : Nat) : List Nat :=
  if cp < 0x80 then [cp]
  else if cp < 0x800 then [0xC0 + cp / 64, 0x80 + cp % 64]
  else if cp < 0x10000 then [0xE0 + cp / 4096, 0x80 + cp / 64 % 64, 0x80 + cp % 64]
  else [0xF0 + cp / 262144, 0x80 + cp / 4096 % 64, 0x80 + cp / 64 % 64, 0x80 + cp % 64]

/-- UTF-8 bytes of a sequence of code points. -/
def utf8Encode (s : List Char) : List Nat :=
  (s.map (fun c => utf8EncodeCodepoint c.toNat)).flatten

/-- The five code points the pre-cleaning step drops: U+02C8, U+02CC, space, underscore
and U+00A0. -/
def isIgnoredCodepoint (c : Char) : Bool :=
  c.toNat = 0x2C8 || c.toNat = 0x2CC || c.toNat = 0x20 || c.toNat = 0x5F || c.toNat = 0xA0
/-- "No ambiguous prefixes": at every token start, no vocabulary key that is a prefix of
the remaining concatenation is longer than the token that starts there. -/
def NoAmbiguousPrefix (vocab : List (List Nat × Int)) (ts : List (List Nat)) : Prop :=
  ∀ suf ∈ ts.tails, ∀ kv ∈ vocab, kv.1 <+: suf.flatten → kv.1.length ≤ (suf.headD []).length

instance (vocab : List (List Nat × Int)) (ts : List (List Nat)) :
    Decidable (NoAmbiguousPrefix vocab ts) := by
  unfold NoAmbiguousPrefix; infer_instance

/-- Vocabulary with the keys "e", "ɪ" and "eɪ". -/
def diphthongVocab : List (List Nat × Int) :=
  [([0x65], 1), ([0xC9, 0xAA], 2), ([0x65, 0xC9, 0xAA], 3)]

/-- Vocabulary with the keys "ˈ" and "a". -/
def stressVocab : List (List Nat × Int) := [([0xCB, 0x88], 5), ([0x61], 1)]

/-- The largest entry of a frame (`0` for the empty frame). -/
def rowMax {K : Type} [LinearOrderedField K] (row : List K) : K :=
  row.foldl max (row.headD 0)

/-- Log-softmax of one frame as the specification words it: every entry `x` becomes
`(x - m) - log (Σ_j exp (x_j - m))` with `m` the largest entry of the frame. -/
def logSoftmaxRow {K : Type} [LinearOrderedField K] (exp log : K → K) (row : List K) :
    List K :=
  row.map (fun x => (x - rowMax row) - log ((row.map (fun y => exp (y - rowMax row))).sum))

/-- The first `n` per-frame means of an interleaved buffer with `channels` channels: entry
`i` is the arithmetic mean of the samples `i*channels .. i*channels + channels - 1`. -/
def frameMeans (audio : List ℚ) (channels n : Nat) : List ℚ :=
  (List.range n).map (fun i => ((audio.drop (i * channels)).take channels).sum / (channels : ℚ))

/-- An emission with no frame: `T = 0`, `V = 2`. -/
def emptyRunner : ModelRunner := ModelRunner.mk [("<blank>", 0), ("a", 1)] [] 0 2

/-- One iteration of the greatest-match loop at offset `i`: the offset it moves to and the
tokens it emits (one token on a match, none when the codepoint is skipped). -/
def tokenizeStep (vocab : List (List Nat × Int)) (clean_str : List Nat) (i : Nat) :
    Nat × List (List Nat) :=
  match findMatch vocab clean_str i
      (if i + 8 > clean_str.length then clean_str.length - i else 8) with
  | some len => (i + len, [substr clean_str i len])
  | none => (i + skipCharLen (clean_str.getD i 0), [])

/-- The values taken by the scan offset `i` of the greatest-match loop, from `i` on, the
value on which the loop ends included. -/
def scanOffsets (vocab : List (List Nat × Int)) (clean_str : List Nat) : Nat → Nat → List Nat
  | 0, i => [i]
  | fuel + 1, i =>
    if i < clean_str.length then
      i :: scanOffsets vocab clean_str fuel (tokenizeStep vocab clean_str i).1
    else [i]

/-- Offset `i` is a codepoint boundary of the UTF-8 encoding of `cs`: the encodings of the
first `n` code points of `cs` take `i` bytes, for some `n`. -/
def IsBoundary (cs : List Char) (i : Nat) : Prop :=
  ∃ n, n ≤ cs.length ∧ (utf8Encode (cs.take n)).length = i

/-! ## Vectors, loops and flat indices: basic facts -/

section vec
variable {α : Type}

theorem vecGet_none_of_neg (v : List α) (i : Int) (h : i < 0) : vecGet v i = none := by
  simp [vecGet, h]

theorem vecGet_isSome (v : List α) (i : Int) (h0 : 0 ≤ i) (h1 : i < v.length) :
    ∃ x, vecGet v i = some x := by
  have h2 : i.toNat < v.length := by omega
  exact ⟨v[i.toNat], by simp [vecGet, not_lt.mpr h0, List.getElem?_eq_getElem h2]⟩

theorem vecGet_some_bounds (v : List α) (i : Int) (x : α) (h : vecGet v i = some x) :
    0 ≤ i ∧ i < v.length := by
  unfold vecGet at h
  split at h
  · simp at h
  · rename_i h0
    have := List.getElem?_eq_some_iff.mp h
    obtain ⟨h1, _⟩ := this
    omega

theorem vecSet_isSome (v : List α) (i : Int) (x : α) (h0 : 0 ≤ i) (h1 : i < v.length) :
    vecSet v i x = some (v.set i.toNat x) := by
  have h2 : i.toNat < v.length := by omega
  simp [vecSet, h0, h2]

theorem vecSet_length (v w : List α) (i : Int) (x : α) (h : vecSet v i x = some w) :
    w.length = v.length := by
  unfold vecSet at h
  split at h
  · simp at h; subst h; simp
  · simp at h

theorem vecSet_bounds (v w : List α) (i : Int) (x : α) (h : vecSet v i x = some w) :
    0 ≤ i ∧ i < v.length := by
  unfold vecSet at h
  split at h
  · rename_i hh; omega
  · simp at h

theorem vecGet_vecSet_same (v w : List α) (i : Int) (x : α) (h : vecSet v i x = some w) :
    vecGet w i = some x := by
  unfold vecSet at h
  split at h
  · rename_i hh
    simp at h; subst h
    simp [vecGet, not_lt.mpr hh.1, hh.2]
  · simp at h

theorem vecGet_vecSet_other (v w : List α) (i j : Int) (x : α) (h : vecSet v i x = some w)
    (hij : j ≠ i) : vecGet w j = vecGet v j := by
  unfold vecSet at h
  split at h
  · rename_i hh
    simp at h; subst h
    unfold vecGet
    split
    · rfl
    · rename_i hj
      have : i.toNat ≠ j.toNat := by omega
      simp [List.getElem?_set_ne this]
  · simp at h

theorem vecGet_replicate (n : Nat) (a : α) (i : Int) (h0 : 0 ≤ i) (h1 : i < n) :
    vecGet (List.replicate n a) i = some a := by
  have h2 : i.toNat < n := by omega
  simp [vecGet, not_lt.mpr h0, h2, List.getElem?_replicate]

end vec

section loops
variable {σ : Type}

theorem forUp_inv (body : Int → σ → Option σ) (J : Int → σ → Prop) :
    ∀ (n : Nat) (i : Int) (st : σ), J i st →
      (∀ k st, i ≤ k → k < i + n → J k st → ∃ st', body k st = some st' ∧ J (k + 1) st') →
      ∃ st', forUp body n i st = some st' ∧ J (i + n) st' := by
  intro n
  induction n with
  | zero => intro i st h _; exact ⟨st, rfl, by simpa using h⟩
  | succ n ih =>
    intro i st h hstep
    obtain ⟨st1, h1, hJ1⟩ := hstep i st (le_refl _) (by omega) h
    obtain ⟨st2, h2, hJ2⟩ := ih (i + 1) st1 hJ1 (fun k st hk hk' hJ => hstep k st (by omega) (by omega) hJ)
    refine ⟨st2, ?_, ?_⟩
    · simp [forUp, h1, h2]
    · have : i + ((n + 1 : Nat) : Int) = i + 1 + n := by push_cast; ring
      rw [this]; exact hJ2

theorem forDown_inv (body : Int → σ → Option σ) (J : Int → σ → Prop) :
    ∀ (n : Nat) (i : Int) (st : σ), J i st →
      (∀ k st, k ≤ i → i - n < k → J k st → ∃ st', body k st = some st' ∧ J (k - 1) st') →
      ∃ st', forDown body n i st = some st' ∧ J (i - n) st' := by
  intro n
  induction n with
  | zero => intro i st h _; exact ⟨st, rfl, by simpa using h⟩
  | succ n ih =>
    intro i st h hstep
    obtain ⟨st1, h1, hJ1⟩ := hstep i st (le_refl _) (by omega) h
    obtain ⟨st2, h2, hJ2⟩ := ih (i - 1) st1 hJ1 (fun k st hk hk' hJ => hstep k st (by omega) (by omega) hJ)
    refine ⟨st2, ?_, ?_⟩
    · simp [forDown, h1, h2]
    · have : i - ((n + 1 : Nat) : Int) = i - 1 - n := by push_cast; ring
      rw [this]; exact hJ2

end loops

theorem flat_bounds (T S t s : Int) (ht0 : 0 ≤ t) (ht : t < T) (hs0 : 0 ≤ s) (hs : s < S) :
    0 ≤ t * S + s ∧ t * S + s < T * S := by
  have h1 : 0 ≤ t * S := mul_nonneg ht0 (by omega)
  have h2 : (t + 1) * S ≤ T * S := Int.mul_le_mul_of_nonneg_right (by omega) (by omega)
  have h3 : (t + 1) * S = t * S + S := by ring
  omega

theorem flat_inj (S t s t' s' : Int) (hs0 : 0 ≤ s) (hs : s < S) (hs0' : 0 ≤ s') (hs' : s' < S)
    (h : t * S + s = t' * S + s') : t = t' ∧ s = s' := by
  have key : ∀ a b : Int, a < b → a * S + S ≤ b * S := by
    intro a b hab
    have h2 : (a + 1) * S ≤ b * S := Int.mul_le_mul_of_nonneg_right (by omega) (by omega)
    have h3 : (a + 1) * S = a * S + S := by ring
    omega
  rcases lt_trichotomy t t' with hlt | heq | hgt
  · have := key t t' hlt; omega
  · subst heq; omega
  · have := key t' t hgt; omega

/-! ## The emission matrix and the tables as total functions -/

theorem vecGet_eq_getD {α : Type} (v : List α) (i : Int) (d : α) (h0 : 0 ≤ i)
    (h1 : i < v.length) : vecGet v i = some ((vecGet v i).getD d) := by
  obtain ⟨x, hx⟩ := vecGet_isSome v i h0 h1
  simp [hx]

theorem getLogProb_eq (r : ModelRunner) (hwf : r.WellFormed) (t id : Int) :
    r.getLogProb t id = some (logProb r t id) := by
  unfold logProb
  by_cases h : t < 0 ∨ t ≥ r.time_steps ∨ id < 0 ∨ id ≥ r.vocab_size
  · simp [ModelRunner.getLogProb, h]
  · have h' : ¬ (t < 0 ∨ t ≥ r.time_steps ∨ id < 0 ∨ id ≥ r.vocab_size) := h
    push_neg at h
    obtain ⟨h1, h2, h3, h4⟩ := h
    have hb := flat_bounds r.time_steps r.vocab_size t id h1 h2 h3 h4
    unfold ModelRunner.WellFormed at hwf
    obtain ⟨x, hx⟩ := vecGet_isSome r.output_log_probs (t * r.vocab_size + id) hb.1 (by omega)
    simp [ModelRunner.getLogProb, h', hx]

theorem stateToken_eq (ext : List Int) (s : Int) (h0 : 0 ≤ s) (h1 : s < ext.length) :
    vecGet ext s = some (stateToken ext s) := vecGet_eq_getD ext s 0 h0 h1

theorem dpAt_eq (dp : List ℚ) (T S t s : Int) (hlen : (dp.length : Int) = T * S)
    (ht0 : 0 ≤ t) (ht : t < T) (hs0 : 0 ≤ s) (hs : s < S) :
    vecGet dp (t * S + s) = some (dpAt dp S t s) := by
  have hb := flat_bounds T S t s ht0 ht hs0 hs
  exact vecGet_eq_getD dp _ NEG_INF hb.1 (by omega)

theorem backAt_eq (bt : List Int) (T S t s : Int) (hlen : (bt.length : Int) = T * S)
    (ht0 : 0 ≤ t) (ht : t < T) (hs0 : 0 ≤ s) (hs : s < S) :
    vecGet bt (t * S + s) = some (backAt bt S t s) := by
  have hb := flat_bounds T S t s ht0 ht hs0 hs
  exact vecGet_eq_getD bt _ (-1) hb.1 (by omega)

/-! ## One cell of the recurrence -/

theorem viterbiCell_eq (r : ModelRunner) (hwf : r.WellFormed) (ext : List Int)
    (blank_idx T S t s : Int) (dp : List ℚ) (bt : List Int)
    (hS : (ext.length : Int) = S) (hdp : (dp.length : Int) = T * S)
    (hbt : (bt.length : Int) = T * S) (ht1 : 1 ≤ t) (ht : t < T) (hs0 : 0 ≤ s) (hs : s < S) :
    viterbiCell r ext blank_idx S t s (dp, bt) =
      (let m := bestPrev ext blank_idx (fun p => dpAt dp S (t - 1) p) s
       if m.2 ≠ -1 then
         some (dp.set (t * S + s).toNat (m.1 + logProb r t (stateToken ext s)),
               bt.set (t * S + s).toNat m.2)
       else some (dp, bt)) := by
  have hb := flat_bounds T S t s (by omega) ht hs0 hs
  have e0 := stateToken_eq ext s hs0 (by omega)
  have d0 := dpAt_eq dp T S (t - 1) s hdp (by omega) (by omega) hs0 hs
  have w1 : ∀ x : ℚ, vecSet dp (t * S + s) x = some (dp.set (t * S + s).toNat x) :=
    fun x => vecSet_isSome dp _ x hb.1 (by omega)
  have w2 : ∀ x : Int, vecSet bt (t * S + s) x = some (bt.set (t * S + s).toNat x) :=
    fun x => vecSet_isSome bt _ x hb.1 (by omega)
  unfold viterbiCell bestPrev
  simp only [e0, getLogProb_eq r hwf, d0, Option.bind_eq_bind, Option.some_bind, Option.pure_def,
    bind_pure_comp]
  by_cases h0 : s > 0
  · have d1 := dpAt_eq dp T S (t - 1) (s - 1) hdp (by omega) (by omega) (by omega) (by omega)
    have e1 := stateToken_eq ext (s - 1) (by omega) (by omega)
    by_cases h1 : s > 1
    · have d2 := dpAt_eq dp T S (t - 1) (s - 2) hdp (by omega) (by omega) (by omega) (by omega)
      have e2 := stateToken_eq ext (s - 2) (by omega) (by omega)
      simp only [h0, h1, d1, d2, e1, e2, SkipOk, relax, if_true, true_and, Option.some_bind,
        Option.map_some', Option.bind_eq_bind, Option.pure_def]
      by_cases c1 : stateToken ext s = blank_idx
      · simp [c1, w1, w2]
      · by_cases c2 : stateToken ext (s - 1) = blank_idx
        · by_cases c3 : stateToken ext (s - 2) = stateToken ext s
          · simp [c1, c2, c3, w1, w2]
          · simp [c1, c2, c3, w1, w2, d2]
        · simp [c1, c2, w1, w2]
    · simp only [h0, h1, d1, e1, SkipOk, relax, if_true, false_and, if_false, Option.some_bind,
        Option.map_some', Option.bind_eq_bind, Option.pure_def, w1, w2]
  · simp only [h0, SkipOk, relax, if_false, Option.some_bind,
        Option.map_some', Option.bind_eq_bind, Option.pure_def, w1, w2]
    have h1 : ¬ s > 1 := by omega
    simp only [h1, false_and, if_false, Option.some_bind, Option.map_some', w1, w2]

theorem bestPrev_congr (ext : List Int) (blank_idx : Int) (row row' : Int → ℚ) (s : Int)
    (h0 : row s = row' s) (h1 : s > 0 → row (s - 1) = row' (s - 1))
    (h2 : s > 1 → row (s - 2) = row' (s - 2)) :
    bestPrev ext blank_idx row s = bestPrev ext blank_idx row' s := by
  unfold bestPrev
  by_cases c0 : s > 0
  · by_cases c1 : SkipOk ext blank_idx s
    · have c2 : s > 1 := c1.1
      simp [c0, c1, h0, h1 c0, h2 c2]
    · simp [c0, c1, h0, h1 c0]
  · have c1 : ¬ SkipOk ext blank_idx s := fun h => c0 (by have := h.1; omega)
    simp [c0, c1, h0]

theorem dpAt_set (dp : List ℚ) (T S t s t' s' : Int) (x : ℚ) (hlen : (dp.length : Int) = T * S)
    (ht0 : 0 ≤ t) (ht : t < T) (hs0 : 0 ≤ s) (hs : s < S) (hs0' : 0 ≤ s') (hs' : s' < S) :
    dpAt (dp.set (t * S + s).toNat x) S t' s' = if t' = t ∧ s' = s then x else dpAt dp S t' s' := by
  have hb := flat_bounds T S t s ht0 ht hs0 hs
  have hset := vecSet_isSome dp (t * S + s) x hb.1 (by omega)
  by_cases h : t' = t ∧ s' = s
  · obtain ⟨rfl, rfl⟩ := h
    simp [dpAt, vecGet_vecSet_same _ _ _ _ hset]
  · have hne : t' * S + s' ≠ t * S + s := fun e => h (flat_inj S t' s' t s hs0' hs' hs0 hs e)
    simp [dpAt, vecGet_vecSet_other _ _ _ _ _ hset hne, h]

theorem backAt_set (bt : List Int) (T S t s t' s' : Int) (x : Int)
    (hlen : (bt.length : Int) = T * S)
    (ht0 : 0 ≤ t) (ht : t < T) (hs0 : 0 ≤ s) (hs : s < S) (hs0' : 0 ≤ s') (hs' : s' < S) :
    backAt (bt.set (t * S + s).toNat x) S t' s' =
      if t' = t ∧ s' = s then x else backAt bt S t' s' := by
  have hb := flat_bounds T S t s ht0 ht hs0 hs
  have hset := vecSet_isSome bt (t * S + s) x hb.1 (by omega)
  by_cases h : t' = t ∧ s' = s
  · obtain ⟨rfl, rfl⟩ := h
    simp [backAt, vecGet_vecSet_same _ _ _ _ hset]
  · have hne : t' * S + s' ≠ t * S + s := fun e => h (flat_inj S t' s' t s hs0' hs' hs0 hs e)
    simp [backAt, vecGet_vecSet_other _ _ _ _ _ hset hne, h]

/-! ## The forward pass -/

theorem fwd_step (r : ModelRunner) (hwf : r.WellFormed) (ext : List Int)
    (blank_idx T S t s : Int) (tab : List ℚ × List Int) (hS : (ext.length : Int) = S)
    (hS2 : 2 ≤ S) (ht1 : 1 ≤ t) (ht : t < T) (hs0 : 0 ≤ s) (hs : s < S)
    (inv : FwdInv r ext blank_idx T S t s tab) :
    ∃ tab', viterbiCell r ext blank_idx S t s tab = some tab' ∧
      FwdInv r ext blank_idx T S t (s + 1) tab' := by
  obtain ⟨dp, bt⟩ := tab
  have hcell := viterbiCell_eq r hwf ext blank_idx T S t s dp bt hS inv.len_dp inv.len_bt
    ht1 ht hs0 hs
  simp only at hcell
  by_cases hm : (bestPrev ext blank_idx (fun p => dpAt dp S (t - 1) p) s).2 ≠ -1
  · rw [if_pos hm] at hcell
    refine ⟨_, hcell, ?_⟩
    have hD : ∀ t' s', 0 ≤ s' → s' < S → dpAt (dp.set (t * S + s).toNat
        ((bestPrev ext blank_idx (fun p => dpAt dp S (t - 1) p) s).1 +
          logProb r t (stateToken ext s))) S t' s' =
        if t' = t ∧ s' = s then ((bestPrev ext blank_idx (fun p => dpAt dp S (t - 1) p) s).1 +
          logProb r t (stateToken ext s)) else dpAt dp S t' s' :=
      fun t' s' h0 h1 => dpAt_set dp T S t s t' s' _ inv.len_dp (by omega) ht hs0 hs h0 h1
    have hB : ∀ t' s', 0 ≤ s' → s' < S → backAt (bt.set (t * S + s).toNat
        (bestPrev ext blank_idx (fun p => dpAt dp S (t - 1) p) s).2) S t' s' =
        if t' = t ∧ s' = s then (bestPrev ext blank_idx (fun p => dpAt dp S (t - 1) p) s).2
        else backAt bt S t' s' :=
      fun t' s' h0 h1 => backAt_set bt T S t s t' s' _ inv.len_bt (by omega) ht hs0 hs h0 h1
    have hprev : ∀ t' s', 0 ≤ s' → s' < S → t' ≤ t →
        bestPrev ext blank_idx (fun p => dpAt (dp.set (t * S + s).toNat
          ((bestPrev ext blank_idx (fun p => dpAt dp S (t - 1) p) s).1 +
            logProb r t (stateToken ext s))) S (t' - 1) p) s' =
        bestPrev ext blank_idx (fun p => dpAt dp S (t' - 1) p) s' := by
      intro t' s' h0 h1 hle
      apply bestPrev_congr
      · show dpAt _ S (t' - 1) s' = dpAt dp S (t' - 1) s'
        rw [hD _ _ h0 h1, if_neg (by omega)]
      · intro h
        show dpAt _ S (t' - 1) (s' - 1) = dpAt dp S (t' - 1) (s' - 1)
        rw [hD _ _ (by omega) (by omega), if_neg (by omega)]
      · intro h
        show dpAt _ S (t' - 1) (s' - 2) = dpAt dp S (t' - 1) (s' - 2)
        rw [hD _ _ (by omega) (by omega), if_neg (by omega)]
    constructor
    · simp [inv.len_dp]
    · simp [inv.len_bt]
    · simp only; rw [hD _ _ (by omega) (by omega), if_neg (by omega)]; exact inv.row0_0
    · simp only; rw [hD _ _ (by omega) (by omega), if_neg (by omega)]; exact inv.row0_1
    · intro s' h2 h3; simp only; rw [hD _ _ (by omega) h3, if_neg (by omega)]
      exact inv.row0_rest s' h2 h3
    · intro t' s' h1 h2 h3 h4
      simp only
      rw [hprev t' s' h2 h3 (by omega), hD _ _ h2 h3, hB _ _ h2 h3]
      by_cases hc : t' = t ∧ s' = s
      · obtain ⟨rfl, rfl⟩ := hc
        simp [hm]
      · rw [if_neg hc, if_neg hc]
        exact inv.done t' s' h1 h2 h3 (by omega)
    · intro t' s' h2 h3 h4
      simp only
      rw [hD _ _ h2 h3, hB _ _ h2 h3, if_neg (by omega), if_neg (by omega)]
      exact inv.todo t' s' h2 h3 (by omega)
  · rw [if_neg hm] at hcell
    refine ⟨_, hcell, ?_⟩
    have hm' : (bestPrev ext blank_idx (fun p => dpAt dp S (t - 1) p) s).2 = -1 := by
      simpa using hm
    constructor
    · exact inv.len_dp
    · exact inv.len_bt
    · exact inv.row0_0
    · exact inv.row0_1
    · exact inv.row0_rest
    · intro t' s' h1 h2 h3 h4
      by_cases hc : t' = t ∧ s' = s
      · obtain ⟨rfl, rfl⟩ := hc
        have := inv.todo t' s' h2 h3 (by omega)
        simp only at this ⊢
        rw [hm', this.1, this.2]; simp
      · exact inv.done t' s' h1 h2 h3 (by omega)
    · intro t' s' h2 h3 h4
      exact inv.todo t' s' h2 h3 (by omega)

theorem FwdInv.next_row (r : ModelRunner) (ext : List Int) (blank_idx T S t : Int)
    (tab : List ℚ × List Int) (inv : FwdInv r ext blank_idx T S t S tab) :
    FwdInv r ext blank_idx T S (t + 1) 0 tab where
  len_dp := inv.len_dp
  len_bt := inv.len_bt
  row0_0 := inv.row0_0
  row0_1 := inv.row0_1
  row0_rest := inv.row0_rest
  done := fun t' s' h1 h2 h3 h4 => inv.done t' s' h1 h2 h3 (by omega)
  todo := fun t' s' h2 h3 h4 => inv.todo t' s' h2 h3 (by omega)

theorem forward_row (r : ModelRunner) (hwf : r.WellFormed) (ext : List Int)
    (blank_idx T S t : Int) (tab : List ℚ × List Int) (hS : (ext.length : Int) = S)
    (hS2 : 2 ≤ S) (ht1 : 1 ≤ t) (ht : t < T)
    (inv : FwdInv r ext blank_idx T S t 0 tab) :
    ∃ tab', forUp (viterbiCell r ext blank_idx S t) S.toNat 0 tab = some tab' ∧
      FwdInv r ext blank_idx T S (t + 1) 0 tab' := by
  obtain ⟨tab', h1, h2⟩ := forUp_inv (viterbiCell r ext blank_idx S t)
    (fun s st => FwdInv r ext blank_idx T S t s st) S.toNat 0 tab inv
    (fun k st hk0 hk inv' =>
      fwd_step r hwf ext blank_idx T S t k st hS hS2 ht1 ht hk0 (by omega) inv')
  refine ⟨tab', h1, FwdInv.next_row r ext blank_idx T S t tab' ?_⟩
  have e : (0 : Int) + (S.toNat : Int) = S := by omega
  rw [e] at h2
  exact h2

theorem viterbiForward_spec (r : ModelRunner) (hwf : r.WellFormed) (ext : List Int)
    (blank_idx T S : Int) (hS : (ext.length : Int) = S) (hS2 : 2 ≤ S) (hT : 1 ≤ T) :
    ∃ tab, viterbiForward r ext blank_idx T S = some tab ∧
      FwdInv r ext blank_idx T S T 0 tab := by
  have hTS : 2 ≤ T * S := by
    have := Int.mul_le_mul_of_nonneg_right hT (show (0 : Int) ≤ S by omega)
    omega
  have hlen0 : (((List.replicate (T * S).toNat NEG_INF).length : Nat) : Int) = T * S := by
    simp; omega
  have hlenb : (((List.replicate (T * S).toNat (-1 : Int)).length : Nat) : Int) = T * S := by
    simp; omega
  have e0 := stateToken_eq ext 0 (by omega) (by omega)
  have e1 := stateToken_eq ext 1 (by omega) (by omega)
  have w0 := vecSet_isSome (List.replicate (T * S).toNat NEG_INF) 0
    (logProb r 0 (stateToken ext 0)) (by omega) (by omega)
  have hlen1 : ((((List.replicate (T * S).toNat NEG_INF).set (0 : Int).toNat
      (logProb r 0 (stateToken ext 0))).length : Nat) : Int) = T * S := by
    rw [List.length_set]; exact hlen0
  have w1 := vecSet_isSome ((List.replicate (T * S).toNat NEG_INF).set (0 : Int).toNat
      (logProb r 0 (stateToken ext 0))) 1 (logProb r 0 (stateToken ext 1)) (by omega) (by omega)
  have hinit : FwdInv r ext blank_idx T S 1 0
      ((((List.replicate (T * S).toNat NEG_INF).set (0 : Int).toNat
        (logProb r 0 (stateToken ext 0))).set (1 : Int).toNat (logProb r 0 (stateToken ext 1))),
        List.replicate (T * S).toNat (-1 : Int)) := by
    have g1 : ∀ j : Int, vecGet (((List.replicate (T * S).toNat NEG_INF).set (0 : Int).toNat
        (logProb r 0 (stateToken ext 0))).set (1 : Int).toNat (logProb r 0 (stateToken ext 1))) j
        = if j = 1 then some (logProb r 0 (stateToken ext 1))
          else if j = 0 then some (logProb r 0 (stateToken ext 0))
          else vecGet (List.replicate (T * S).toNat NEG_INF) j := by
      intro j
      by_cases hj1 : j = 1
      · subst hj1; rw [if_pos rfl]; exact vecGet_vecSet_same _ _ _ _ w1
      · rw [if_neg hj1, vecGet_vecSet_other _ _ _ _ _ w1 hj1]
        by_cases hj0 : j = 0
        · subst hj0; rw [if_pos rfl]; exact vecGet_vecSet_same _ _ _ _ w0
        · rw [if_neg hj0, vecGet_vecSet_other _ _ _ _ _ w0 hj0]
    constructor
    · simp only [List.length_set]; exact hlen0
    · exact hlenb
    · have e : (0 : Int) * S + 0 = 0 := by ring
      simp only [dpAt, e, g1]
      simp
    · have e : (0 : Int) * S + 1 = 1 := by ring
      simp only [dpAt, e, g1]
      simp
    · intro s' h2 h3
      have hb := flat_bounds T S 0 s' (by omega) (by omega) (by omega) h3
      simp only [dpAt, g1]
      have : (0 : Int) * S + s' = s' := by ring
      rw [this] at hb ⊢
      rw [if_neg (by omega), if_neg (by omega), vecGet_replicate _ _ _ hb.1 (by omega)]
      rfl
    · intro t' s' h1 h2 h3 h4
      omega
    · intro t' s' h2 h3 h4
      by_cases htT : t' < T
      · have hb := flat_bounds T S t' s' (by omega) htT h2 h3
        have hge : S ≤ t' * S := by
          have := Int.mul_le_mul_of_nonneg_right (show (1 : Int) ≤ t' by omega)
            (show (0 : Int) ≤ S by omega)
          omega
        simp only [dpAt, backAt, g1]
        rw [if_neg (by omega), if_neg (by omega), vecGet_replicate _ _ _ hb.1 (by omega),
          vecGet_replicate _ _ _ hb.1 (by omega)]
        simp
      · have hge : T * S ≤ t' * S :=
          Int.mul_le_mul_of_nonneg_right (show T ≤ t' by omega) (show (0 : Int) ≤ S by omega)
        have hnone : ∀ {α : Type} (v : List α), (v.length : Int) = T * S →
            vecGet v (t' * S + s') = none := by
          intro α v hv
          cases hg : vecGet v (t' * S + s') with
          | none => rfl
          | some x => have := vecGet_some_bounds v _ x hg; omega
        simp only [dpAt, backAt]
        rw [hnone _ (by simp only [List.length_set]; exact hlen0), hnone _ hlenb]
        simp
  obtain ⟨tab, h1, h2⟩ := forUp_inv
    (fun t tab => forUp (viterbiCell r ext blank_idx S t) S.toNat 0 tab)
    (fun t st => FwdInv r ext blank_idx T S t 0 st) (T - 1).toNat 1 _ hinit
    (fun k st hk0 hk inv' => forward_row r hwf ext blank_idx T S k st hS hS2 hk0 (by omega) inv')
  refine ⟨tab, ?_, ?_⟩
  · unfold viterbiForward
    have hneg : ¬ T * S < 0 := by omega
    have hS1 : S > 1 := by omega
    simp only [hneg, if_false, e0, e1, getLogProb_eq r hwf, w0, w1, hS1, if_true,
      Option.bind_eq_bind, Option.some_bind, Option.pure_def]
    simpa using h1
  · have e : (1 : Int) + ((T - 1).toNat : Int) = T := by omega
    rw [e] at h2
    exact h2

theorem relax_cases (d : ℚ) (p : Int) (m : ℚ × Int) :
    (relax d p m = (d, p) ∧ d > NEG_INF ∧ d > m.1) ∨
      (relax d p m = m ∧ (d ≤ NEG_INF ∨ d ≤ m.1)) := by
  unfold relax
  by_cases h : d > NEG_INF ∧ d > m.1
  · left; simp [h]
  · right
    refine ⟨by simp [h], ?_⟩
    by_cases h1 : d > NEG_INF
    · right; exact not_lt.mp (fun h2 => h ⟨h1, h2⟩)
    · left; exact not_lt.mp h1

theorem relax_ok (ext : List Int) (blank_idx : Int) (row : Int → ℚ) (s p : Int)
    (m : ℚ × Int) (hp : 0 ≤ p) (hmv : Move ext blank_idx p s)
    (hm : PairOk ext blank_idx row s m) :
    PairOk ext blank_idx row s (relax (row p) p m) ∧ m.1 ≤ (relax (row p) p m).1 ∧
      (row p > NEG_INF → row p ≤ (relax (row p) p m).1) := by
  rcases relax_cases (row p) p m with ⟨e, h1, h2⟩ | ⟨e, h⟩
  · rw [e]
    refine ⟨⟨le_of_lt h1, Or.inr ⟨hp, hmv, rfl, h1⟩⟩, le_of_lt h2, fun _ => le_refl _⟩
  · rw [e]
    refine ⟨hm, le_refl _, fun hfin => ?_⟩
    rcases h with h | h
    · exact absurd hfin (not_lt.mpr h)
    · exact h

theorem skipOk_iff_move (ext : List Int) (blank_idx s : Int) :
    SkipOk ext blank_idx s ↔ (s > 1 ∧ Move ext blank_idx (s - 2) s) := by
  unfold SkipOk Move
  constructor
  · rintro ⟨h1, h2, h3, h4⟩
    exact ⟨h1, Or.inr (Or.inr ⟨by omega, h2, h3, h4⟩)⟩
  · rintro ⟨h1, h | h | ⟨_, h2, h3, h4⟩⟩
    · omega
    · omega
    · exact ⟨h1, h2, h3, h4⟩

theorem bestPrev_spec (ext : List Int) (blank_idx : Int) (row : Int → ℚ) (s : Int)
    (hs0 : 0 ≤ s) :
    PairOk ext blank_idx row s (bestPrev ext blank_idx row s) ∧
      ∀ p, 0 ≤ p → Move ext blank_idx p s → row p > NEG_INF →
        row p ≤ (bestPrev ext blank_idx row s).1 := by
  have hm0 : PairOk ext blank_idx row s (NEG_INF, -1) := ⟨le_refl _, Or.inl ⟨rfl, rfl⟩⟩
  obtain ⟨ok1, _, b1⟩ := relax_ok ext blank_idx row s s (NEG_INF, -1) hs0 (Or.inl rfl) hm0
  unfold bestPrev
  simp only
  by_cases c0 : s > 0
  · obtain ⟨ok2, le2, b2⟩ := relax_ok ext blank_idx row s (s - 1) _ (by omega)
      (Or.inr (Or.inl (by omega))) ok1
    by_cases c1 : SkipOk ext blank_idx s
    · have hmv := ((skipOk_iff_move ext blank_idx s).mp c1)
      obtain ⟨ok3, le3, b3⟩ := relax_ok ext blank_idx row s (s - 2) _ (by omega) hmv.2 ok2
      simp only [c0, c1, if_true]
      refine ⟨ok3, fun p hp hmv' hfin => ?_⟩
      rcases hmv' with h | h | ⟨h, _⟩
      · subst h; exact le_trans (b1 hfin) (le_trans le2 le3)
      · have : p = s - 1 := by omega
        subst this; exact le_trans (b2 hfin) le3
      · have : p = s - 2 := by omega
        subst this; exact b3 hfin
    · simp only [c0, c1, if_true, if_false]
      refine ⟨ok2, fun p hp hmv' hfin => ?_⟩
      rcases hmv' with h | h | ⟨h, h2, h3, h4⟩
      · subst h; exact le_trans (b1 hfin) le2
      · have : p = s - 1 := by omega
        subst this; exact b2 hfin
      · exact absurd ⟨by omega, h2, h3, h4⟩ c1
  · have c1 : ¬ SkipOk ext blank_idx s := fun h => c0 (by have := h.1; omega)
    simp only [c0, c1, if_false]
    refine ⟨ok1, fun p hp hmv' hfin => ?_⟩
    rcases hmv' with h | h | ⟨h, _⟩
    · subst h; exact b1 hfin
    · omega
    · omega

theorem fwd_finite_back (r : ModelRunner) (ext : List Int) (blank_idx T S t s : Int)
    (tab : List ℚ × List Int) (inv : FwdInv r ext blank_idx T S T 0 tab)
    (ht1 : 1 ≤ t) (ht : t < T) (hs0 : 0 ≤ s) (hs : s < S)
    (hfin : dpAt tab.1 S t s > NEG_INF) :
    0 ≤ backAt tab.2 S t s ∧ Move ext blank_idx (backAt tab.2 S t s) s ∧
      dpAt tab.1 S (t - 1) (backAt tab.2 S t s) > NEG_INF ∧
      dpAt tab.1 S t s =
        dpAt tab.1 S (t - 1) (backAt tab.2 S t s) + logProb r t (stateToken ext s) := by
  obtain ⟨hd, hb⟩ := inv.done t s ht1 hs0 hs (Or.inl ht)
  obtain ⟨⟨_, hok⟩, _⟩ := bestPrev_spec ext blank_idx (fun p => dpAt tab.1 S (t - 1) p) s hs0
  rcases hok with ⟨h1, _⟩ | ⟨h1, h2, h3, h4⟩
  · rw [if_neg (by simp [h1])] at hd
    rw [hd] at hfin
    exact absurd hfin (lt_irrefl _)
  · have hne : (bestPrev ext blank_idx (fun p => dpAt tab.1 S (t - 1) p) s).2 ≠ -1 := by omega
    rw [if_pos hne] at hd
    rw [hb]
    refine ⟨h1, h2, h4, ?_⟩
    rw [hd, h3]

theorem fwd_ge (r : ModelRunner) (ext : List Int) (blank_idx T S t s p : Int)
    (tab : List ℚ × List Int) (inv : FwdInv r ext blank_idx T S T 0 tab)
    (ht1 : 1 ≤ t) (ht : t < T) (hs0 : 0 ≤ s) (hs : s < S) (hp0 : 0 ≤ p)
    (hmv : Move ext blank_idx p s) (hfin : dpAt tab.1 S (t - 1) p > NEG_INF) :
    dpAt tab.1 S (t - 1) p + logProb r t (stateToken ext s) ≤ dpAt tab.1 S t s := by
  obtain ⟨hd, _⟩ := inv.done t s ht1 hs0 hs (Or.inl ht)
  obtain ⟨⟨_, hok⟩, hmax⟩ := bestPrev_spec ext blank_idx (fun p => dpAt tab.1 S (t - 1) p) s hs0
  have hle : dpAt tab.1 S (t - 1) p ≤ _ := hmax p hp0 hmv hfin
  rcases hok with ⟨_, h2⟩ | ⟨h1, _, _, _⟩
  · rw [h2] at hle
    exact absurd hfin (not_lt.mpr hle)
  · have hne : (bestPrev ext blank_idx (fun p => dpAt tab.1 S (t - 1) p) s).2 ≠ -1 := by omega
    rw [if_pos hne] at hd
    rw [hd]
    linarith

theorem fwd_row0 (r : ModelRunner) (ext : List Int) (blank_idx T S s : Int)
    (tab : List ℚ × List Int) (inv : FwdInv r ext blank_idx T S T 0 tab)
    (hs0 : 0 ≤ s) (hs : s < S) (hfin : dpAt tab.1 S 0 s > NEG_INF) : s = 0 ∨ s = 1 := by
  by_contra hne
  have := inv.row0_rest s (by omega) hs
  rw [this] at hfin
  exact lt_irrefl _ hfin

/-! ## Terminal state and backtracking -/

theorem chooseTerminal_eq (dp : List ℚ) (T S : Int) (hlen : (dp.length : Int) = T * S)
    (hT : 1 ≤ T) (hS2 : 2 ≤ S) :
    chooseTerminal dp T S =
      some (if dpAt dp S (T - 1)
              (if dpAt dp S (T - 1) (S - 1) > dpAt dp S (T - 1) (S - 2) then S - 1 else S - 2)
              ≤ NEG_INF then none
            else some
              (if dpAt dp S (T - 1) (S - 1) > dpAt dp S (T - 1) (S - 2) then S - 1 else S - 2)) := by
  have a := dpAt_eq dp T S (T - 1) (S - 1) hlen (by omega) (by omega) (by omega) (by omega)
  have b := dpAt_eq dp T S (T - 1) (S - 2) hlen (by omega) (by omega) (by omega) (by omega)
  have hS1 : S > 1 := by omega
  unfold chooseTerminal
  simp only [a, b, hS1, if_true, Option.bind_eq_bind, Option.some_bind, Option.pure_def]
  by_cases c : dpAt dp S (T - 1) (S - 1) > dpAt dp S (T - 1) (S - 2)
  · have h0 : ¬ (S - 1 < 0) := by omega
    simp only [c, if_true, h0, if_false, a, Option.some_bind]
    split <;> rfl
  · have h0 : ¬ (S - 2 < 0) := by omega
    simp only [c, if_false, h0, b, Option.some_bind]
    split <;> rfl

theorem back_step (r : ModelRunner) (ext : List Int) (blank_idx T S cur0 t : Int)
    (tab : List ℚ × List Int) (inv : FwdInv r ext blank_idx T S T 0 tab)
    (st : List Int × Int) (ht0 : 0 ≤ t) (ht : t < T)
    (h : BackInv tab.1 tab.2 T S cur0 t st) :
    ∃ st', (do
        let path ← vecSet st.1 t st.2
        let prev ← vecGet tab.2 (t * S + st.2)
        pure (path, prev)) = some st' ∧ BackInv tab.1 tab.2 T S cur0 (t - 1) st' := by
  obtain ⟨path, cur⟩ := st
  obtain ⟨hc0, hc1, hcfin⟩ := h.cur_ok ht0
  have hset := vecSet_isSome path t cur ht0 (by have := h.len; simp only at this; omega)
  have hget := backAt_eq tab.2 T S t cur inv.len_bt ht0 ht hc0 hc1
  refine ⟨(path.set t.toNat cur, backAt tab.2 S t cur), ?_, ?_⟩
  · simp only [hset, hget, Option.bind_eq_bind, Option.some_bind, Option.pure_def]
  · have hP : ∀ t', pathAt (path.set t.toNat cur) t' = if t' = t then cur else pathAt path t' := by
      intro t'
      by_cases e : t' = t
      · subst e; simp [pathAt, vecGet_vecSet_same _ _ _ _ hset]
      · simp [pathAt, vecGet_vecSet_other _ _ _ _ _ hset e, e]
    constructor
    · simp only [List.length_set]; exact h.len
    · intro ht1
      simp only at hcfin ⊢
      obtain ⟨b0, b1, b2, _⟩ := fwd_finite_back r ext blank_idx T S t cur tab inv (by omega) ht
        hc0 hc1 hcfin
      refine ⟨b0, ?_, b2⟩
      rcases b1 with e | e | ⟨e, _⟩ <;> omega
    · intro t' h1 h2
      simp only [hP]
      by_cases e : t' = t
      · subst e; simp only [if_true]; exact ⟨hc0, hc1, hcfin⟩
      · rw [if_neg e]; exact h.filled t' (by omega) h2
    · intro t' h1 h2
      simp only [hP]
      rw [if_neg (by omega)]
      by_cases e : t' - 1 = t
      · rw [if_pos e]
        have e' : t' = t + 1 := by omega
        subst e'
        exact h.link_cur h2
      · rw [if_neg e]; exact h.link t' (by omega) h2
    · intro _
      simp only [hP]
      have e : t - 1 + 1 = t := by ring
      rw [e, if_pos rfl]
    · intro h1
      simp only [hP]
      by_cases e : T - 1 = t
      · rw [if_pos e]; exact h.first (by omega)
      · rw [if_neg e]; exact h.last (by omega)
    · intro h1; omega

theorem backtrackPath_spec (r : ModelRunner) (ext : List Int) (blank_idx T S cur0 : Int)
    (tab : List ℚ × List Int) (inv : FwdInv r ext blank_idx T S T 0 tab) (hT : 1 ≤ T)
    (hc0 : 0 ≤ cur0) (hc1 : cur0 < S) (hfin : dpAt tab.1 S (T - 1) cur0 > NEG_INF) :
    ∃ path, backtrackPath tab.2 T S cur0 = some path ∧ PathSpec tab.1 tab.2 T S cur0 path := by
  have hinit : BackInv tab.1 tab.2 T S cur0 (T - 1) (List.replicate T.toNat 0, cur0) := by
    constructor
    · simp; omega
    · intro _; exact ⟨hc0, hc1, hfin⟩
    · intro t' h1 h2; omega
    · intro t' h1 h2; omega
    · intro h; omega
    · intro h; omega
    · intro _; rfl
  obtain ⟨st, h1, h2⟩ := forDown_inv
    (fun t (st : List Int × Int) => do
      let path ← vecSet st.1 t st.2
      let prev ← vecGet tab.2 (t * S + st.2)
      pure (path, prev))
    (fun t st => BackInv tab.1 tab.2 T S cur0 t st) T.toNat (T - 1) _ hinit
    (fun k st hk hk' hJ => back_step r ext blank_idx T S cur0 k tab inv st (by omega) (by omega) hJ)
  refine ⟨st.1, ?_, ?_⟩
  · unfold backtrackPath
    have hneg : ¬ T < 0 := by omega
    simp only [hneg, if_false, Option.bind_eq_bind, Option.pure_def] at h1 ⊢
    simp [h1]
  · have e : T - 1 - (T.toNat : Int) = -1 := by omega
    rw [e] at h2
    constructor
    · exact h2.len
    · intro t h0 h3; exact h2.filled t (by omega) h3
    · intro t h0 h3; exact h2.link t (by omega) h3
    · exact h2.last (by omega)

/-! ## The extended states -/

theorem foldl_ext_eq (blank_idx : Int) (flat : List TargetMap) (acc : List Int) :
    flat.foldl (fun ext t => ext ++ [blank_idx, t.token_id]) acc =
      acc ++ (flat.map (fun t => [blank_idx, t.token_id])).flatten := by
  induction flat generalizing acc with
  | nil => simp
  | cons t rest ih => simp [List.foldl_cons, ih, List.append_assoc]

theorem buildExtendedStates_cons (blank_idx : Int) (t : TargetMap) (rest : List TargetMap) :
    buildExtendedStates (t :: rest) blank_idx =
      blank_idx :: t.token_id :: buildExtendedStates rest blank_idx := by
  simp [buildExtendedStates, foldl_ext_eq]

theorem buildExtendedStates_length (blank_idx : Int) (flat : List TargetMap) :
    ((buildExtendedStates flat blank_idx).length : Int) = 2 * flat.length + 1 := by
  induction flat with
  | nil => simp [buildExtendedStates]
  | cons t rest ih => rw [buildExtendedStates_cons]; simp only [List.length_cons]; push_cast; omega

theorem vecGet_cons_cons {α : Type} (a b : α) (l : List α) (i : Int) (hi : 0 ≤ i) :
    vecGet (a :: b :: l) (i + 2) = vecGet l i := by
  have e : (i + 2).toNat = i.toNat + 2 := by omega
  simp [vecGet, not_lt.mpr hi, show ¬ (i + 2 < 0) by omega, e]

theorem stateToken_even (blank_idx : Int) (flat : List TargetMap) (i : Int) (hi0 : 0 ≤ i)
    (hi : i ≤ flat.length) : stateToken (buildExtendedStates flat blank_idx) (2 * i) = blank_idx := by
  induction flat generalizing i with
  | nil =>
    have : i = 0 := by simp at hi; omega
    subst this; simp [buildExtendedStates, stateToken, vecGet]
  | cons t rest ih =>
    rw [buildExtendedStates_cons]
    by_cases h : i = 0
    · subst h; simp [stateToken, vecGet]
    · have e : 2 * i = 2 * (i - 1) + 2 := by ring
      unfold stateToken at ih ⊢
      rw [e, vecGet_cons_cons _ _ _ _ (by omega)]
      exact ih (i - 1) (by omega) (by simp at hi; omega)

theorem stateToken_odd (blank_idx : Int) (flat : List TargetMap) (i : Int) (tg : TargetMap)
    (h : vecGet flat i = some tg) :
    stateToken (buildExtendedStates flat blank_idx) (2 * i + 1) = tg.token_id := by
  induction flat generalizing i with
  | nil => simp [vecGet] at h
  | cons t rest ih =>
    have hb := vecGet_some_bounds _ _ _ h
    rw [buildExtendedStates_cons]
    by_cases h0 : i = 0
    · subst h0
      simp [vecGet] at h
      subst h
      simp [stateToken, vecGet]
    · have e : 2 * i + 1 = (2 * (i - 1) + 1) + 2 := by ring
      unfold stateToken at ih ⊢
      rw [e, vecGet_cons_cons _ _ _ _ (by omega)]
      apply ih (i - 1)
      have e2 : i.toNat = (i - 1).toNat + 1 := by omega
      unfold vecGet at h ⊢
      rw [if_neg (by omega)] at h
      rw [if_neg (by omega)]
      rw [e2] at h
      simpa using h

/-! ## Steps 2 to 4 together -/

theorem alignPath_spec (r : ModelRunner) (hwf : r.WellFormed) (flat : List TargetMap)
    (blank_idx : Int) (hT : 1 ≤ r.time_steps) (hflat : flat ≠ []) :
    ∃ tab, viterbiForward r (buildExtendedStates flat blank_idx) blank_idx r.time_steps
        (2 * flat.length + 1) = some tab ∧
      FwdInv r (buildExtendedStates flat blank_idx) blank_idx r.time_steps
        (2 * flat.length + 1) r.time_steps 0 tab ∧
      ((dpAt tab.1 (2 * flat.length + 1) (r.time_steps - 1) (2 * flat.length) ≤ NEG_INF ∧
          dpAt tab.1 (2 * flat.length + 1) (r.time_steps - 1) (2 * flat.length - 1) ≤ NEG_INF ∧
          alignPath r flat blank_idx = some none) ∨
        (∃ (path : List Int) (cur0 : Int), alignPath r flat blank_idx = some (some path) ∧
          (cur0 = 2 * flat.length ∨ cur0 = 2 * flat.length - 1) ∧
          dpAt tab.1 (2 * flat.length + 1) (r.time_steps - 1) (2 * flat.length) ≤
            dpAt tab.1 (2 * flat.length + 1) (r.time_steps - 1) cur0 ∧
          dpAt tab.1 (2 * flat.length + 1) (r.time_steps - 1) (2 * flat.length - 1) ≤
            dpAt tab.1 (2 * flat.length + 1) (r.time_steps - 1) cur0 ∧
          PathSpec tab.1 tab.2 r.time_steps (2 * flat.length + 1) cur0 path)) := by
  have hS := buildExtendedStates_length blank_idx flat
  have hn : 1 ≤ (flat.length : Int) := by
    cases flat with
    | nil => exact absurd rfl hflat
    | cons a l => simp only [List.length_cons]; push_cast; omega
  obtain ⟨tab, hfw, inv⟩ := viterbiForward_spec r hwf (buildExtendedStates flat blank_idx)
    blank_idx r.time_steps (2 * flat.length + 1) hS (by omega) hT
  refine ⟨tab, hfw, inv, ?_⟩
  have hct := chooseTerminal_eq tab.1 r.time_steps (2 * flat.length + 1) inv.len_dp hT (by omega)
  have e1 : (2 * (flat.length : Int) + 1 - 1) = 2 * flat.length := by ring
  have e2 : (2 * (flat.length : Int) + 1 - 2) = 2 * flat.length - 1 := by ring
  rw [e1, e2] at hct
  have hal : alignPath r flat blank_idx =
      (chooseTerminal tab.1 r.time_steps (2 * flat.length + 1)).bind (fun c =>
        match c with
        | none => some none
        | some current_s =>
          (backtrackPath tab.2 r.time_steps (2 * flat.length + 1) current_s).bind
            (fun p => some (some p))) := by
    unfold alignPath
    simp only [ModelRunner.getTimeSteps, hS, hfw, Option.bind_eq_bind, Option.some_bind,
      Option.pure_def]
    try rfl
  rw [hct] at hal
  simp only [Option.some_bind] at hal
  by_cases c : dpAt tab.1 (2 * flat.length + 1) (r.time_steps - 1) (2 * flat.length) >
      dpAt tab.1 (2 * flat.length + 1) (r.time_steps - 1) (2 * flat.length - 1)
  · simp only [c, if_true] at hal
    by_cases d : dpAt tab.1 (2 * flat.length + 1) (r.time_steps - 1) (2 * flat.length) ≤ NEG_INF
    · left
      simp only [d, if_true] at hal
      exact ⟨d, le_trans (le_of_lt c) d, hal⟩
    · right
      simp only [d, if_false] at hal
      obtain ⟨path, hp, hspec⟩ := backtrackPath_spec r (buildExtendedStates flat blank_idx)
        blank_idx r.time_steps (2 * flat.length + 1) (2 * flat.length) tab inv hT (by omega)
        (by omega) (not_le.mp d)
      refine ⟨path, 2 * (flat.length : Int), ?_, Or.inl rfl, le_refl _, le_of_lt c, hspec⟩
      rw [hal, hp]; rfl
  · simp only [c, if_false] at hal
    by_cases d : dpAt tab.1 (2 * flat.length + 1) (r.time_steps - 1) (2 * flat.length - 1) ≤ NEG_INF
    · left
      simp only [d, if_true] at hal
      exact ⟨le_trans (not_lt.mp c) d, d, hal⟩
    · right
      simp only [d, if_false] at hal
      obtain ⟨path, hp, hspec⟩ := backtrackPath_spec r (buildExtendedStates flat blank_idx)
        blank_idx r.time_steps (2 * flat.length + 1) (2 * flat.length - 1) tab inv hT (by omega)
        (by omega) (not_le.mp d)
      refine ⟨path, 2 * (flat.length : Int) - 1, ?_, Or.inr rfl, not_lt.mp c, le_refl _, hspec⟩
      rw [hal, hp]; rfl

/-! ## Paths through the lattice -/

theorem move_le (ext : List Int) (blank_idx p s : Int) (h : Move ext blank_idx p s) :
    p ≤ s ∧ s ≤ p + 2 := by
  rcases h with h | h | ⟨h, _⟩ <;> omega

theorem steps_mono (f : Int → Int) (T : Int)
    (hstep : ∀ t, 1 ≤ t → t < T → f (t - 1) ≤ f t) :
    ∀ (n : Nat) (a : Int), 0 ≤ a → a + n < T → f a ≤ f (a + n) := by
  intro n
  induction n with
  | zero => intro a _ _; simp
  | succ n ih =>
    intro a ha hb
    have h1 := ih a ha (by push_cast at hb; omega)
    have h2 := hstep (a + (n + 1 : Nat)) (by push_cast; omega) hb
    have e : a + ((n + 1 : Nat) : Int) - 1 = a + n := by push_cast; ring
    rw [e] at h2
    exact le_trans h1 h2

theorem path_mono (f : Int → Int) (T a b : Int)
    (hstep : ∀ t, 1 ≤ t → t < T → f (t - 1) ≤ f t) (ha : 0 ≤ a) (hab : a ≤ b) (hb : b < T) :
    f a ≤ f b := by
  have := steps_mono f T hstep (b - a).toNat a ha (by omega)
  have e : a + ((b - a).toNat : Int) = b := by omega
  rw [e] at this
  exact this

theorem Admissible.mono {ext : List Int} {blank_idx T S : Int} {q : List Int}
    (h : Admissible ext blank_idx T S q) (a b : Int) (ha : 0 ≤ a) (hab : a ≤ b) (hb : b < T) :
    pathAt q a ≤ pathAt q b :=
  path_mono (pathAt q) T a b (fun t h1 h2 => (move_le ext blank_idx _ _ (h.move t h1 h2)).1)
    ha hab hb

theorem Admissible.range {ext : List Int} {blank_idx T S : Int} {q : List Int}
    (h : Admissible ext blank_idx T S q) (t : Int) (ht0 : 0 ≤ t) (ht : t < T) :
    0 ≤ pathAt q t ∧ pathAt q t < S := by
  have h1 := h.mono 0 t (le_refl _) ht0 ht
  have h2 := h.mono t (T - 1) ht0 (by omega) (by omega)
  have := h.start
  have := h.finish
  omega

/-- Discrete intermediate value: a path that cannot jump over state `x` and goes from a
state `≤ x` to a state `≥ x` stops at `x`. -/
theorem path_hits (f : Int → Int) (T x : Int)
    (hstep : ∀ t, 1 ≤ t → t < T → f (t - 1) ≤ f t)
    (hnojump : ∀ t, 1 ≤ t → t < T → ¬ (f (t - 1) < x ∧ x < f t)) :
    ∀ (n : Nat) (a : Int), 0 ≤ a → a + n < T → f a ≤ x → x ≤ f (a + n) →
      ∃ t, a ≤ t ∧ t ≤ a + n ∧ f t = x := by
  intro n
  induction n with
  | zero =>
    intro a _ _ h1 h2
    simp only [Nat.cast_zero, add_zero] at h2
    exact ⟨a, le_refl _, by simp, le_antisymm h1 h2⟩
  | succ n ih =>
    intro a ha hb h1 h2
    by_cases e : f a = x
    · exact ⟨a, le_refl _, by push_cast; omega, e⟩
    · have hs := hstep (a + 1) (by omega) (by push_cast at hb; omega)
      have hj := hnojump (a + 1) (by omega) (by push_cast at hb; omega)
      have e1 : a + 1 - 1 = a := by ring
      rw [e1] at hs hj
      have h3 : f (a + 1) ≤ x := by
        by_contra hc
        exact hj ⟨lt_of_le_of_ne h1 e, not_le.mp hc⟩
      have e2 : a + ((n + 1 : Nat) : Int) = a + 1 + n := by push_cast; ring
      rw [e2] at h2 hb
      obtain ⟨t, ht1, ht2, ht3⟩ := ih (a + 1) (by omega) hb h3 h2
      exact ⟨t, by omega, by rw [e2]; exact ht2, ht3⟩

theorem decoded_admissible (r : ModelRunner) (ext : List Int) (blank_idx T S cur0 : Int)
    (tab : List ℚ × List Int) (inv : FwdInv r ext blank_idx T S T 0 tab) (path : List Int)
    (hp : PathSpec tab.1 tab.2 T S cur0 path) (hT : 1 ≤ T)
    (hcur : cur0 = S - 1 ∨ cur0 = S - 2) : Admissible ext blank_idx T S path := by
  constructor
  · exact hp.len
  · obtain ⟨h0, h1, h2⟩ := hp.valid 0 (le_refl _) (by omega)
    exact fwd_row0 r ext blank_idx T S _ tab inv h0 h1 h2
  · rw [hp.last]; omega
  · intro t ht1 ht
    obtain ⟨h0, h1, h2⟩ := hp.valid t (by omega) ht
    obtain ⟨_, hm, _, _⟩ := fwd_finite_back r ext blank_idx T S t _ tab inv ht1 ht h0 h1 h2
    rw [hp.link t ht1 ht] at hm
    exact hm

theorem decoded_prefix (r : ModelRunner) (ext : List Int) (blank_idx T S cur0 : Int)
    (tab : List ℚ × List Int) (inv : FwdInv r ext blank_idx T S T 0 tab) (path : List Int)
    (hp : PathSpec tab.1 tab.2 T S cur0 path) :
    ∀ n : Nat, (n : Int) < T → dpAt tab.1 S n (pathAt path n) = prefixScore r ext path (n + 1) := by
  intro n
  induction n with
  | zero =>
    intro hT
    obtain ⟨h0, h1, h2⟩ := hp.valid 0 (le_refl _) (by omega)
    simp only [prefixScore, Finset.sum_range_one, Nat.cast_zero, zero_add]
    rcases fwd_row0 r ext blank_idx T S _ tab inv h0 h1 h2 with e | e
    · rw [e]; exact inv.row0_0
    · rw [e]; exact inv.row0_1
  | succ n ih =>
    intro hT
    have hT' : ((n : Nat) : Int) < T := by push_cast at hT; omega
    obtain ⟨h0, h1, h2⟩ := hp.valid (n + 1 : Nat) (by positivity) hT
    obtain ⟨_, _, _, heq⟩ := fwd_finite_back r ext blank_idx T S (n + 1 : Nat) _ tab inv
      (by push_cast; omega) hT h0 h1 h2
    rw [hp.link (n + 1 : Nat) (by push_cast; omega) hT] at heq
    have e : ((n + 1 : Nat) : Int) - 1 = n := by push_cast; ring
    rw [e, ih hT'] at heq
    rw [heq]
    unfold prefixScore
    rw [Finset.sum_range_succ _ (n + 1)]

theorem admissible_le_dp (r : ModelRunner) (ext : List Int) (blank_idx T S : Int)
    (tab : List ℚ × List Int) (inv : FwdInv r ext blank_idx T S T 0 tab) (q : List Int)
    (hq : Admissible ext blank_idx T S q)
    (hfin : ∀ k : Nat, 1 ≤ k → (k : Int) ≤ T → prefixScore r ext q k > NEG_INF) :
    ∀ n : Nat, (n : Int) < T → prefixScore r ext q (n + 1) ≤ dpAt tab.1 S n (pathAt q n) := by
  intro n
  induction n with
  | zero =>
    intro hT
    simp only [prefixScore, Finset.sum_range_one, Nat.cast_zero, zero_add]
    rcases hq.start with e | e
    · rw [e, inv.row0_0]
    · rw [e, inv.row0_1]
  | succ n ih =>
    intro hT
    have hT' : ((n : Nat) : Int) < T := by push_cast at hT; omega
    have h1 := ih hT'
    have h2 := hfin (n + 1) (by omega) (by push_cast; omega)
    have hmv := hq.move (n + 1 : Nat) (by push_cast; omega) hT
    have e : ((n + 1 : Nat) : Int) - 1 = n := by push_cast; ring
    rw [e] at hmv
    obtain ⟨a0, _⟩ := hq.range n (by positivity) hT'
    obtain ⟨b0, b1⟩ := hq.range (n + 1 : Nat) (by positivity) hT
    have h3 := fwd_ge r ext blank_idx T S (n + 1 : Nat) (pathAt q (n + 1 : Nat)) (pathAt q n) tab
      inv (by push_cast; omega) hT b0 b1 a0 hmv (by rw [e]; exact lt_of_lt_of_le h2 h1)
    rw [e] at h3
    have h4 : prefixScore r ext q (n + 1 + 1) =
        prefixScore r ext q (n + 1) +
          logProb r ((n + 1 : Nat) : Int) (stateToken ext (pathAt q ((n + 1 : Nat) : Int))) := by
      unfold prefixScore
      rw [Finset.sum_range_succ _ (n + 1)]
    rw [h4]
    linarith

/-- Viterbi optimality for the tables of a forward pass: an admissible path whose prefixes
all keep a finite score does not beat the decoded path. -/
theorem decoded_optimal (r : ModelRunner) (ext : List Int) (blank_idx T S cur0 : Int)
    (tab : List ℚ × List Int) (inv : FwdInv r ext blank_idx T S T 0 tab) (path : List Int)
    (hp : PathSpec tab.1 tab.2 T S cur0 path) (hT : 1 ≤ T)
    (hmax1 : dpAt tab.1 S (T - 1) (S - 1) ≤ dpAt tab.1 S (T - 1) cur0)
    (hmax2 : dpAt tab.1 S (T - 1) (S - 2) ≤ dpAt tab.1 S (T - 1) cur0)
    (q : List Int) (hq : Admissible ext blank_idx T S q)
    (hfin : ∀ k : Nat, 1 ≤ k → (k : Int) ≤ T → prefixScore r ext q k > NEG_INF) :
    pathScore r ext q ≤ pathScore r ext path := by
  have hlq : q.length = (T - 1).toNat + 1 := by have := hq.len; omega
  have hlp : path.length = (T - 1).toNat + 1 := by have := hp.len; omega
  have e : (((T - 1).toNat : Nat) : Int) = T - 1 := by omega
  have h1 := admissible_le_dp r ext blank_idx T S tab inv q hq hfin (T - 1).toNat (by omega)
  have h2 := decoded_prefix r ext blank_idx T S cur0 tab inv path hp (T - 1).toNat (by omega)
  rw [e] at h1 h2
  unfold pathScore
  rw [hlq, hlp, ← h2, hp.last]
  refine le_trans h1 ?_
  rcases hq.finish with f | f
  · rw [f]; exact hmax2
  · rw [f]; exact hmax1

/-! ## Step 5: the span of a target along the path -/

theorem framesBefore_succ_hit (path : List Int) (s t : Int) (ht : 0 ≤ t)
    (h : pathAt path t = s) :
    framesBefore path s (t + 1) = insert t (framesBefore path s t) := by
  ext u
  simp only [framesBefore, Finset.mem_filter, Finset.mem_Ico, Finset.mem_insert]
  constructor
  · rintro ⟨⟨h1, h2⟩, h3⟩
    by_cases e : u = t
    · exact Or.inl e
    · exact Or.inr ⟨⟨h1, by omega⟩, h3⟩
  · rintro (e | ⟨⟨h1, h2⟩, h3⟩)
    · subst e; exact ⟨⟨ht, by omega⟩, h⟩
    · exact ⟨⟨h1, by omega⟩, h3⟩

theorem framesBefore_succ_miss (path : List Int) (s t : Int)
    (h : pathAt path t ≠ s) :
    framesBefore path s (t + 1) = framesBefore path s t := by
  ext u
  simp only [framesBefore, Finset.mem_filter, Finset.mem_Ico]
  constructor
  · rintro ⟨⟨h1, h2⟩, h3⟩
    have : u ≠ t := fun e => h (e ▸ h3)
    exact ⟨⟨h1, by omega⟩, h3⟩
  · rintro ⟨⟨h1, h2⟩, h3⟩
    exact ⟨⟨h1, by omega⟩, h3⟩

theorem not_mem_framesBefore (path : List Int) (s t : Int) : t ∉ framesBefore path s t := by
  simp [framesBefore]

theorem mem_framesBefore (path : List Int) (s t u : Int) :
    u ∈ framesBefore path s t ↔ 0 ≤ u ∧ u < t ∧ pathAt path u = s := by
  simp [framesBefore, and_assoc]

theorem pathAt_eq (path : List Int) (T t : Int) (hlen : (path.length : Int) = T)
    (ht0 : 0 ≤ t) (ht : t < T) : vecGet path t = some (pathAt path t) :=
  vecGet_eq_getD path t 0 ht0 (by omega)

theorem scan_step (r : ModelRunner) (hwf : r.WellFormed) (path : List Int)
    (T s token_id t : Int) (hlen : (path.length : Int) = T) (ht0 : 0 ≤ t) (ht : t < T)
    (st : Int × Int × ℚ × Int) (h : ScanInv r path s token_id t st) :
    ∃ st', (do
        let p ← vecGet path t
        if p = s then do
          let lp ← r.getLogProb t token_id
          pure (if st.1 = -1 then t else st.1, t, st.2.2.1 + lp, st.2.2.2 + 1)
        else pure st) = some st' ∧ ScanInv r path s token_id (t + 1) st' := by
  rw [pathAt_eq path T t hlen ht0 ht]
  by_cases e : pathAt path t = s
  · refine ⟨(if st.1 = -1 then t else st.1, t, st.2.2.1 + logProb r t token_id, st.2.2.2 + 1),
      ?_, ?_⟩
    · simp [e, getLogProb_eq r hwf]
    · have hF := framesBefore_succ_hit path s t ht0 e
      have hni := not_mem_framesBefore path s t
      constructor
      · simp only; rw [hF, Finset.card_insert_of_not_mem hni, h.count]; push_cast; ring
      · simp only; rw [hF, Finset.sum_insert hni, h.sum]; ring
      · intro hem
        rw [hF] at hem
        exact absurd hem (Finset.insert_ne_empty _ _)
      · intro _
        rw [hF]
        by_cases hem : framesBefore path s t = ∅
        · obtain ⟨h1, _⟩ := h.none hem
          simp only [h1, if_true, hem]
          simp
        · obtain ⟨h1, h2, h3⟩ := h.some (Finset.nonempty_iff_ne_empty.mpr hem)
          have h1' := (mem_framesBefore path s t _).mp h1
          have hne : st.1 ≠ -1 := by omega
          simp only [if_neg hne]
          refine ⟨Finset.mem_insert_of_mem h1, Finset.mem_insert_self _ _, ?_⟩
          intro u hu
          rcases Finset.mem_insert.mp hu with e' | hu'
          · subst e'; exact ⟨by omega, le_refl _⟩
          · have := (mem_framesBefore path s t u).mp hu'
            exact ⟨(h3 u hu').1, by omega⟩
  · refine ⟨st, by simp [e], ?_⟩
    have hF := framesBefore_succ_miss path s t e
    constructor
    · rw [hF]; exact h.count
    · rw [hF]; exact h.sum
    · rw [hF]; exact h.none
    · rw [hF]; exact h.some

theorem scanTarget_spec (r : ModelRunner) (hwf : r.WellFormed) (path : List Int)
    (T s token_id : Int) (hlen : (path.length : Int) = T) :
    ∃ st, scanTarget r path T s token_id = some st ∧ ScanInv r path s token_id T st := by
  have hT : 0 ≤ T := by omega
  have hinit : ScanInv r path s token_id 0 (-1, -1, 0, 0) := by
    have e : framesBefore path s 0 = ∅ := by simp [framesBefore]
    constructor
    · simp [e]
    · simp [e]
    · intro _; exact ⟨rfl, rfl⟩
    · intro hne; rw [e] at hne; exact absurd hne (by simp)
  obtain ⟨st, h1, h2⟩ := forUp_inv _ (fun t st => ScanInv r path s token_id t st) T.toNat 0 _
    hinit (fun k st hk0 hk hJ => scan_step r hwf path T s token_id k hlen hk0 (by omega) st hJ)
  have e : (0 : Int) + (T.toNat : Int) = T := by omega
  rw [e] at h2
  exact ⟨st, h1, h2⟩

theorem makeDetail_spec (r : ModelRunner) (hwf : r.WellFormed) (path : List Int)
    (T i : Int) (tg : TargetMap) (hlen : (path.length : Int) = T) :
    makeDetail r path T i tg = some (detailOf r path T i tg) ∧
      DetailSpec r path T i tg (detailOf r path T i tg) := by
  obtain ⟨st, h1, h2⟩ := scanTarget_spec r hwf path T (i * 2 + 1) tg.token_id hlen
  have hm : makeDetail r path T i tg = some
      { ipa := tg.text, token_id := tg.token_id,
        score := if st.2.2.2 > 0 then st.2.2.1 / (st.2.2.2 : ℚ) else -10,
        is_good := decide ((if st.2.2.2 > 0 then st.2.2.1 / (st.2.2.2 : ℚ) else -10) >
          THRESHOLD_GOOD),
        start_frame := st.1, end_frame := st.2.1 } := by
    unfold makeDetail
    simp only [h1, Option.bind_eq_bind, Option.some_bind, Option.pure_def]
  have hd : detailOf r path T i tg =
      { ipa := tg.text, token_id := tg.token_id,
        score := if st.2.2.2 > 0 then st.2.2.1 / (st.2.2.2 : ℚ) else -10,
        is_good := decide ((if st.2.2.2 > 0 then st.2.2.1 / (st.2.2.2 : ℚ) else -10) >
          THRESHOLD_GOOD),
        start_frame := st.1, end_frame := st.2.1 } := by
    unfold detailOf; rw [hm]; rfl
  refine ⟨by rw [hd, hm], ?_⟩
  rw [hd]
  constructor
  · rfl
  · rfl
  · rfl
  · intro hem
    obtain ⟨a, b⟩ := h2.none hem
    have hc := h2.count
    rw [hem, Finset.card_empty] at hc
    simp only at hc a b ⊢
    have : ¬ st.2.2.2 > 0 := by rw [hc]; simp
    exact ⟨by rw [if_neg this], a, b⟩
  · intro hne
    obtain ⟨a, b, c⟩ := h2.some hne
    have hc := h2.count
    have hpos : st.2.2.2 > 0 := by
      rw [hc]; exact_mod_cast Finset.card_pos.mpr hne
    refine ⟨?_, a, b, c⟩
    simp only [if_pos hpos]
    rw [h2.sum, hc]
    norm_cast

theorem detailsOf_length (r : ModelRunner) (path : List Int) (T : Int) (L : List TargetMap)
    (i : Int) : (detailsOf r path T L i).length = L.length := by
  induction L generalizing i with
  | nil => rfl
  | cons tg rest ih => simp [detailsOf, ih]

theorem detailsOf_append (r : ModelRunner) (path : List Int) (T : Int)
    (L1 L2 : List TargetMap) (i : Int) :
    detailsOf r path T (L1 ++ L2) i =
      detailsOf r path T L1 i ++ detailsOf r path T L2 (i + L1.length) := by
  induction L1 generalizing i with
  | nil => simp [detailsOf]
  | cons tg rest ih =>
    have e : i + 1 + (rest.length : Int) = i + ((rest.length + 1 : Nat) : Int) := by
      push_cast; ring
    rw [List.cons_append]
    simp only [detailsOf, List.length_cons, List.cons_append]
    rw [ih, e]

theorem detailsOf_get (r : ModelRunner) (path : List Int) (T : Int) (L : List TargetMap)
    (i k : Int) (tg : TargetMap) (h : vecGet L k = some tg) :
    vecGet (detailsOf r path T L i) k = some (detailOf r path T (i + k) tg) := by
  induction L generalizing i k with
  | nil => simp [vecGet] at h
  | cons t rest ih =>
    have hb := vecGet_some_bounds _ _ _ h
    by_cases h0 : k = 0
    · subst h0
      simp [vecGet] at h
      subst h
      simp [detailsOf, vecGet]
    · have e2 : k.toNat = (k - 1).toNat + 1 := by omega
      have h' : vecGet rest (k - 1) = some tg := by
        unfold vecGet at h ⊢
        rw [if_neg (by omega)] at h
        rw [if_neg (by omega)]
        rw [e2] at h
        simpa using h
      have := ih (i + 1) (k - 1) h'
      have e3 : i + 1 + (k - 1) = i + k := by ring
      rw [e3] at this
      unfold vecGet at this ⊢
      rw [if_neg (by omega)] at this
      rw [if_neg (by omega), e2]
      simpa [detailsOf] using this

/-! ## Step 5: writing the details into the words -/

theorem list_set_getElem_self {α : Type} (l : List α) (i : Nat) (h : i < l.length) :
    l.set i l[i] = l := by
  induction l generalizing i with
  | nil => simp at h
  | cons a rest ih =>
    cases i with
    | zero => simp
    | succ j =>
      simp only [List.set_cons_succ, List.getElem_cons_succ]
      rw [ih j (by simpa using h)]

theorem fillDetails_append (r : ModelRunner) (path : List Int) (T : Int)
    (L1 L2 : List TargetMap) (i : Int) (W : List WordAnalysis) :
    fillDetails r path T (L1 ++ L2) i W =
      (fillDetails r path T L1 i W).bind (fun W1 => fillDetails r path T L2 (i + L1.length) W1) := by
  induction L1 generalizing i W with
  | nil => simp [fillDetails]
  | cons tg rest ih =>
    rw [List.cons_append]
    simp only [fillDetails, Option.bind_eq_bind, List.length_cons]
    cases makeDetail r path T i tg with
    | none => simp
    | some d =>
      simp only [Option.some_bind]
      cases pushDetail W tg.word_idx d with
      | none => simp
      | some W1 =>
        simp only [Option.some_bind]
        rw [ih]
        have e : i + 1 + (rest.length : Int) = i + ((rest.length + 1 : Nat) : Int) := by
          push_cast; ring
        rw [e]

theorem fillDetails_block (r : ModelRunner) (hwf : r.WellFormed) (path : List Int) (T : Int)
    (hlen : (path.length : Int) = T) (L : List TargetMap) (k : Int)
    (hk : ∀ tg ∈ L, tg.word_idx = k) :
    ∀ (i : Int) (W : List WordAnalysis) (w : WordAnalysis), vecGet W k = some w →
      fillDetails r path T L i W =
        some (W.set k.toNat { w with details := w.details ++ detailsOf r path T L i }) := by
  induction L with
  | nil =>
    intro i W w hw
    have hb := vecGet_some_bounds _ _ _ hw
    simp only [fillDetails, detailsOf, List.append_nil]
    congr 1
    unfold vecGet at hw
    rw [if_neg (by omega)] at hw
    have h2 : k.toNat < W.length := by omega
    rw [List.getElem?_eq_getElem h2] at hw
    simp only [Option.some.injEq] at hw
    rw [← hw]
    exact (list_set_getElem_self W k.toNat h2).symm
  | cons tg rest ih =>
    intro i W w hw
    have hb := vecGet_some_bounds _ _ _ hw
    have hk0 : tg.word_idx = k := hk tg (List.mem_cons_self _ _)
    obtain ⟨hm, _⟩ := makeDetail_spec r hwf path T i tg hlen
    have hset := vecSet_isSome W k
      { w with details := w.details ++ [detailOf r path T i tg] } hb.1 hb.2
    have hpush : pushDetail W tg.word_idx (detailOf r path T i tg) =
        some (W.set k.toNat { w with details := w.details ++ [detailOf r path T i tg] }) := by
      unfold pushDetail
      rw [hk0]
      simp only [hw, hset, Option.bind_eq_bind, Option.some_bind]
    have hget := vecGet_vecSet_same _ _ _ _ hset
    have := ih (fun t ht => hk t (List.mem_cons_of_mem _ ht)) (i + 1) _ _ hget
    simp only [fillDetails, hm, hpush, Option.bind_eq_bind, Option.some_bind, this,
      List.set_set, detailsOf, List.append_assoc, List.singleton_append]

/-! ## Step 1: flattening -/

theorem flattenPhonemes_acc (r : ModelRunner) (w_i : Int) (ps : List String) (p_i : Int)
    (acc : List TargetMap) :
    flattenPhonemes r w_i ps p_i acc = acc ++ flattenPhonemes r w_i ps p_i [] := by
  induction ps generalizing p_i acc with
  | nil => simp [flattenPhonemes]
  | cons p rest ih =>
    simp only [flattenPhonemes]
    split
    · rw [ih (p_i + 1) (acc ++ _), ih (p_i + 1) ([] ++ _)]; simp
    · exact ih (p_i + 1) acc

theorem flattenWords_snd_acc (r : ModelRunner) (ws : List WordAnalysis) (w_i : Int)
    (acc : List TargetMap) :
    (flattenWords r ws w_i acc).2 = acc ++ (flattenWords r ws w_i []).2 := by
  induction ws generalizing w_i acc with
  | nil => simp [flattenWords]
  | cons w rest ih =>
    simp only [flattenWords]
    rw [ih (w_i + 1) (flattenPhonemes r w_i w.phonemes 0 acc),
      ih (w_i + 1) (flattenPhonemes r w_i w.phonemes 0 []), flattenPhonemes_acc r w_i w.phonemes 0 acc]
    simp

theorem flattenWords_snd_cons (r : ModelRunner) (w : WordAnalysis) (rest : List WordAnalysis)
    (w_i : Int) :
    (flattenWords r (w :: rest) w_i []).2 =
      wordTargets r w_i w ++ (flattenWords r rest (w_i + 1) []).2 := by
  simp only [flattenWords, wordTargets]
  rw [flattenWords_snd_acc]

theorem flattenWords_fst (r : ModelRunner) (ws : List WordAnalysis) (w_i : Int)
    (acc : List TargetMap) :
    (flattenWords r ws w_i acc).1 = ws.map (fun w => { w with details := [], word_score := 0 }) := by
  induction ws generalizing w_i acc with
  | nil => simp [flattenWords]
  | cons w rest ih => simp only [flattenWords, List.map_cons]; rw [ih]

theorem flattenPhonemes_word_idx (r : ModelRunner) (w_i : Int) (ps : List String) (p_i : Int) :
    ∀ tg ∈ flattenPhonemes r w_i ps p_i [], tg.word_idx = w_i := by
  induction ps generalizing p_i with
  | nil => simp [flattenPhonemes]
  | cons p rest ih =>
    simp only [flattenPhonemes]
    split
    · rw [flattenPhonemes_acc]
      intro tg htg
      rcases List.mem_append.mp htg with h | h
      · simp at h; rw [h]
      · exact ih (p_i + 1) tg h
    · exact ih (p_i + 1)

theorem flattenPhonemes_map (r : ModelRunner) (w_i : Int) (ps : List String) (p_i : Int) :
    (flattenPhonemes r w_i ps p_i []).map (fun tg => (tg.text, tg.token_id)) =
      (ps.filter (fun p => decide (r.getTokenId p ≠ -1))).map (fun p => (p, r.getTokenId p)) := by
  induction ps generalizing p_i with
  | nil => simp [flattenPhonemes]
  | cons p rest ih =>
    simp only [flattenPhonemes]
    split
    · rename_i h
      rw [flattenPhonemes_acc, List.filter_cons_of_pos (by simpa using h)]
      simp [ih (p_i + 1)]
    · rename_i h
      rw [List.filter_cons_of_neg (by simpa using h)]
      exact ih (p_i + 1)

/-! ## Steps 1 and 5 together -/

theorem getElem?_append_length {α : Type} (pre : List α) (a : α) (l : List α) :
    (pre ++ a :: l)[pre.length]? = some a := by
  induction pre with
  | nil => simp
  | cons b rest ih => simpa using ih

theorem set_append_length {α : Type} (pre : List α) (a b : α) (l : List α) :
    (pre ++ a :: l).set pre.length b = (pre ++ [b]) ++ l := by
  induction pre with
  | nil => simp
  | cons c rest ih => simp

theorem fill_spec (r : ModelRunner) (hwf : r.WellFormed) (path : List Int) (T : Int)
    (hlen : (path.length : Int) = T) (ws : List WordAnalysis) :
    ∀ (pre : List WordAnalysis) (i : Int),
      fillDetails r path T (flattenWords r ws pre.length []).2 i
          (pre ++ ws.map (fun w => { w with details := [], word_score := 0 })) =
        some (pre ++ filledWords r path T ws pre.length i) := by
  induction ws with
  | nil => intro pre i; simp [flattenWords, fillDetails, filledWords]
  | cons w rest ih =>
    intro pre i
    rw [flattenWords_snd_cons, fillDetails_append]
    have hget : vecGet (pre ++ (w :: rest).map (fun w => { w with details := [], word_score := 0 }))
        (pre.length : Int) = some { w with details := [], word_score := 0 } := by
      simp only [vecGet, List.map_cons, Int.toNat_ofNat]
      rw [if_neg (by omega)]
      exact getElem?_append_length _ _ _
    rw [fillDetails_block r hwf path T hlen (wordTargets r pre.length w) pre.length
      (flattenPhonemes_word_idx r pre.length w.phonemes 0) i _ _ hget]
    simp only [Option.some_bind, List.nil_append, Int.toNat_ofNat, List.map_cons]
    rw [set_append_length]
    have := ih (pre ++ [{ w with details := detailsOf r path T (wordTargets r pre.length w) i, word_score := 0 }])
      (i + (wordTargets r pre.length w).length)
    simp only [List.length_append, List.length_singleton, Nat.cast_add, Nat.cast_one] at this
    rw [this]
    simp [filledWords]

/-! ## The whole of `calculateGOP` -/

theorem viterbiForward_some_pos (r : ModelRunner) (ext : List Int) (blank_idx T S : Int)
    (tab : List ℚ × List Int) (hS : 0 < S)
    (h : viterbiForward r ext blank_idx T S = some tab) : 1 ≤ T := by
  by_contra hT
  have hT' : T ≤ 0 := by omega
  have hle : T * S ≤ 0 := Int.mul_nonpos_of_nonpos_of_nonneg hT' (by omega)
  unfold viterbiForward at h
  by_cases hneg : T * S < 0
  · simp [hneg] at h
  · have e : (T * S).toNat = 0 := by omega
    simp only [hneg, if_false, e, List.replicate_zero, Option.bind_eq_bind, Option.pure_def] at h
    cases h1 : vecGet ext 0 with
    | none => simp [h1] at h
    | some s0 =>
      cases h2 : r.getLogProb 0 s0 with
      | none => simp [h1, h2] at h
      | some p0 => simp [h1, h2, vecSet] at h

theorem alignPath_some_pos (r : ModelRunner) (flat : List TargetMap) (blank_idx : Int)
    (res : Option (List Int)) (h : alignPath r flat blank_idx = some res) :
    1 ≤ r.time_steps := by
  have hS := buildExtendedStates_length blank_idx flat
  unfold alignPath at h
  simp only [ModelRunner.getTimeSteps, Option.bind_eq_bind, Option.pure_def] at h
  cases h1 : viterbiForward r (buildExtendedStates flat blank_idx) blank_idx r.time_steps
      ((buildExtendedStates flat blank_idx).length : Int) with
  | none => simp [h1] at h
  | some tab => exact viterbiForward_some_pos r _ blank_idx _ _ tab (by omega) h1

theorem calculateGOP_eq (r : ModelRunner) (ws : List WordAnalysis) (blank_idx : Int) :
    calculateGOP r ws blank_idx =
      if ws = [] then some (false, ws)
      else if flatTargets r ws = [] then some (false, clearedWords ws)
      else (alignPath r (flatTargets r ws) blank_idx).bind (fun res =>
        match res with
        | none => some (false, clearedWords ws)
        | some path =>
          (fillDetails r path r.time_steps (flatTargets r ws) 0 (clearedWords ws)).bind
            (fun wsd => some (true, wsd.map scoreWord))) := by
  unfold calculateGOP flatTargets clearedWords
  by_cases h1 : ws = []
  · subst h1; simp
  · have h1' : ws.isEmpty = false := by simpa using h1
    by_cases h2 : (flattenWords r ws 0 []).2 = []
    · simp [h1, h1', h2, flattenWords_fst]
    · have h2' : (flattenWords r ws 0 []).2.isEmpty = false := by simpa using h2
      simp only [h1, h1', h2, h2', flattenWords_fst, if_false, Bool.false_eq_true,
        ModelRunner.getTimeSteps, Option.bind_eq_bind, Option.pure_def]

theorem calculateGOP_success (r : ModelRunner) (hwf : r.WellFormed) (ws ws' : List WordAnalysis)
    (blank_idx : Int) (h : calculateGOP r ws blank_idx = some (true, ws')) :
    1 ≤ r.time_steps ∧ flatTargets r ws ≠ [] ∧
      ∃ path, alignPath r (flatTargets r ws) blank_idx = some (some path) ∧
        ws' = (filledWords r path r.time_steps ws 0 0).map scoreWord := by
  rw [calculateGOP_eq] at h
  by_cases h1 : ws = []
  · simp [h1] at h
  · by_cases h2 : flatTargets r ws = []
    · simp [h1, h2] at h
    · rw [if_neg h1, if_neg h2] at h
      have hex : ∃ res, alignPath r (flatTargets r ws) blank_idx = some res := by
        cases ha : alignPath r (flatTargets r ws) blank_idx with
        | none => simp [ha] at h
        | some res => exact ⟨res, rfl⟩
      obtain ⟨res, ha⟩ := hex
      have hT := alignPath_some_pos r _ blank_idx res ha
      refine ⟨hT, h2, ?_⟩
      obtain ⟨tab, _, _, hcase⟩ := alignPath_spec r hwf (flatTargets r ws) blank_idx hT h2
      rcases hcase with ⟨_, _, hn⟩ | ⟨path, cur0, hp, _, _, _, hspec⟩
      · rw [hn] at h; simp at h
      · refine ⟨path, hp, ?_⟩
        rw [hp] at h
        simp only [Option.some_bind] at h
        have hfill := fill_spec r hwf path r.time_steps hspec.len ws [] 0
        simp only [List.length_nil, Nat.cast_zero, List.nil_append] at hfill
        unfold flatTargets clearedWords at h
        rw [hfill] at h
        simp at h
        exact h.symm

/-! ## Which states an admissible path visits -/

theorem admissible_hits {ext : List Int} {blank_idx T S : Int} {q : List Int}
    (h : Admissible ext blank_idx T S q) (hT : 1 ≤ T) (x : Int) (hx1 : 1 ≤ x) (hx2 : x ≤ S - 2)
    (hnojump : ∀ t, 1 ≤ t → t < T → ¬ (pathAt q (t - 1) < x ∧ x < pathAt q t)) :
    ∃ t, 0 ≤ t ∧ t < T ∧ pathAt q t = x := by
  have hstep : ∀ t, 1 ≤ t → t < T → pathAt q (t - 1) ≤ pathAt q t :=
    fun t h1 h2 => (move_le ext blank_idx _ _ (h.move t h1 h2)).1
  have e : (0 : Int) + ((T - 1).toNat : Int) = T - 1 := by omega
  obtain ⟨t, h1, h2, h3⟩ := path_hits (pathAt q) T x hstep hnojump (T - 1).toNat 0 (le_refl _)
    (by omega) (by have := h.start; omega) (by rw [e]; have := h.finish; omega)
  exact ⟨t, h1, by omega, h3⟩

theorem admissible_hits_target (flat : List TargetMap) (blank_idx T : Int) (q : List Int)
    (h : Admissible (buildExtendedStates flat blank_idx) blank_idx T (2 * flat.length + 1) q)
    (hT : 1 ≤ T) (i : Int) (hi0 : 0 ≤ i) (hi : i < flat.length) :
    ∃ t, 0 ≤ t ∧ t < T ∧ pathAt q t = 2 * i + 1 := by
  apply admissible_hits h hT (2 * i + 1) (by omega) (by omega)
  rintro t h1 h2 ⟨h3, h4⟩
  have hm := h.move t h1 h2
  have hle := move_le _ _ _ _ hm
  rcases hm with e | e | ⟨e, hne, _, _⟩
  · omega
  · omega
  · have e' : pathAt q t = 2 * (i + 1) := by omega
    rw [e'] at hne
    exact hne (stateToken_even blank_idx flat (i + 1) (by omega) (by omega))

theorem admissible_hits_blank (flat : List TargetMap) (blank_idx T : Int) (q : List Int)
    (h : Admissible (buildExtendedStates flat blank_idx) blank_idx T (2 * flat.length + 1) q)
    (hT : 1 ≤ T) (i : Int) (tg1 tg2 : TargetMap) (h1 : vecGet flat i = some tg1)
    (h2 : vecGet flat (i + 1) = some tg2) (heq : tg1.token_id = tg2.token_id) :
    (∃ t, 0 ≤ t ∧ t < T ∧ pathAt q t = 2 * i + 2) ∧
      ∀ t, 1 ≤ t → t < T → ¬ (pathAt q (t - 1) = 2 * i + 1 ∧ pathAt q t = 2 * i + 3) := by
  have hb1 := vecGet_some_bounds _ _ _ h1
  have hb2 := vecGet_some_bounds _ _ _ h2
  have hnoskip : ∀ t, 1 ≤ t → t < T → ¬ (pathAt q (t - 1) = 2 * i + 1 ∧ pathAt q t = 2 * i + 3) := by
    rintro t ht1 ht2 ⟨h3, h4⟩
    have hm := h.move t ht1 ht2
    rcases hm with e | e | ⟨e, _, _, hne⟩
    · omega
    · omega
    · rw [h4] at hne
      have e1 : (2 * i + 3 - 2 : Int) = 2 * i + 1 := by ring
      have e2 : (2 * i + 3 : Int) = 2 * (i + 1) + 1 := by ring
      rw [e1, stateToken_odd blank_idx flat i tg1 h1, e2,
        stateToken_odd blank_idx flat (i + 1) tg2 h2] at hne
      exact hne heq
  refine ⟨?_, hnoskip⟩
  apply admissible_hits h hT (2 * i + 2) (by omega) (by omega)
  rintro t ht1 ht2 ⟨h3, h4⟩
  have hle := move_le _ _ _ _ (h.move t ht1 ht2)
  exact hnoskip t ht1 ht2 ⟨by omega, by omega⟩

/-! ## Step 6 and the shape of the result -/

theorem sumValid_foldl (ds : List PhonemeDetail) (a : ℚ) (c : Int) :
    ds.foldl (fun acc d => if d.score > -9 then (acc.1 + d.score, acc.2 + 1) else acc) (a, c) =
      (a + ((ds.filter (fun d => decide (d.score > -9))).map (fun d => d.score)).sum,
        c + ((ds.filter (fun d => decide (d.score > -9))).length : Int)) := by
  induction ds generalizing a c with
  | nil => simp
  | cons d rest ih =>
    simp only [List.foldl_cons]
    by_cases h : d.score > -9
    · rw [if_pos h, ih, List.filter_cons_of_pos (by simpa using h)]
      simp only [List.map_cons, List.sum_cons, List.length_cons]
      push_cast
      rw [Prod.mk.injEq]
      constructor <;> ring
    · rw [if_neg h, ih, List.filter_cons_of_neg (by simpa using h)]

theorem sumValid_eq (ds : List PhonemeDetail) :
    sumValid ds =
      (((ds.filter (fun d => decide (d.score > -9))).map (fun d => d.score)).sum,
        ((ds.filter (fun d => decide (d.score > -9))).length : Int)) := by
  unfold sumValid
  rw [sumValid_foldl]
  simp

theorem scoreWord_fields (w : WordAnalysis) :
    (scoreWord w).word = w.word ∧ (scoreWord w).clean_word = w.clean_word ∧
      (scoreWord w).raw_ipa = w.raw_ipa ∧ (scoreWord w).phonemes = w.phonemes ∧
      (scoreWord w).details = w.details := by
  unfold scoreWord
  by_cases h0 : w.details.isEmpty
  · simp [h0]
  · by_cases h1 : (sumValid w.details).2 > 0
    · simp [h0, h1]
    · simp [h0, h1]

theorem scoreWord_score (w : WordAnalysis) :
    (scoreWord w).word_score =
      if w.details.filter (fun d => decide (d.score > -9)) = [] then -10
      else ((w.details.filter (fun d => decide (d.score > -9))).map (fun d => d.score)).sum /
        ((w.details.filter (fun d => decide (d.score > -9))).length : ℚ) := by
  unfold scoreWord
  by_cases h0 : w.details = []
  · simp [h0]
  · have h0' : w.details.isEmpty = false := by simpa using h0
    simp only [h0', Bool.false_eq_true, if_false, sumValid_eq]
    by_cases h1 : w.details.filter (fun d => decide (d.score > -9)) = []
    · simp [h1]
    · have hpos : ((w.details.filter (fun d => decide (d.score > -9))).length : Int) > 0 := by
        have := List.length_pos.mpr h1
        omega
      rw [if_pos hpos, if_neg h1]
      simp

theorem filledWords_details (r : ModelRunner) (path : List Int) (T : Int)
    (ws : List WordAnalysis) (w_i i : Int) :
    (((filledWords r path T ws w_i i).map scoreWord).map (fun w => w.details)).flatten =
      detailsOf r path T (flattenWords r ws w_i []).2 i := by
  induction ws generalizing w_i i with
  | nil => simp [filledWords, flattenWords, detailsOf]
  | cons w rest ih =>
    rw [flattenWords_snd_cons, detailsOf_append]
    simp only [filledWords, List.map_cons, List.flatten_cons, (scoreWord_fields _).2.2.2.2, ih]

theorem filledWords_rel (r : ModelRunner) (path : List Int) (T : Int)
    (R : WordAnalysis → WordAnalysis → Prop)
    (hR : ∀ (w : WordAnalysis) (w_i i : Int),
      R w (scoreWord { w with details := detailsOf r path T (wordTargets r w_i w) i, word_score := 0 }))
    (ws : List WordAnalysis) (w_i i : Int) :
    List.Forall₂ R ws ((filledWords r path T ws w_i i).map scoreWord) := by
  induction ws generalizing w_i i with
  | nil => simp [filledWords]
  | cons w rest ih =>
    simp only [filledWords, List.map_cons]
    exact List.Forall₂.cons (hR w w_i i) (ih _ _)

theorem detailsOf_map (r : ModelRunner) (hwf : r.WellFormed) (path : List Int) (T : Int)
    (hlen : (path.length : Int) = T) (L : List TargetMap) (i : Int) :
    (detailsOf r path T L i).map (fun d => (d.ipa, d.token_id)) =
      L.map (fun tg => (tg.text, tg.token_id)) := by
  induction L generalizing i with
  | nil => simp [detailsOf]
  | cons tg rest ih =>
    obtain ⟨_, hs⟩ := makeDetail_spec r hwf path T i tg hlen
    simp only [detailsOf, List.map_cons, ih, hs.ipa, hs.token_id]

theorem lookup_mem {α β : Type} [BEq α] [LawfulBEq α] (l : List (α × β)) (k : α) (v : β)
    (h : l.lookup k = some v) : (k, v) ∈ l := by
  induction l with
  | nil => simp at h
  | cons e rest ih =>
    obtain ⟨a, b⟩ := e
    by_cases hk : k == a
    · simp only [List.lookup, hk, Option.some.injEq] at h
      have : k = a := by simpa using hk
      subst this; subst h
      exact List.mem_cons_self _ _
    · have hk' : (k == a) = false := by simpa using hk
      simp only [List.lookup, hk'] at h
      exact List.mem_cons_of_mem _ (ih h)

theorem getTokenId_eq_neg_one_iff (r : ModelRunner) (hv : VocabValid r) (p : String) :
    r.getTokenId p = -1 ↔ r.token_to_id.lookup p = none := by
  unfold ModelRunner.getTokenId
  cases h : r.token_to_id.lookup p with
  | none => simp
  | some id =>
    have := hv _ (lookup_mem _ _ _ h)
    simp only at this
    simp
    omega

/-! ## A successful call -/

/-- Everything the properties below use about a call that returned `true`. -/
theorem success_facts (r : ModelRunner) (hwf : r.WellFormed) (ws ws' : List WordAnalysis)
    (blank_idx : Int) (h : calculateGOP r ws blank_idx = some (true, ws')) :
    ∃ (path : List Int) (tab : List ℚ × List Int) (cur0 : Int),
      alignPath r (flatTargets r ws) blank_idx = some (some path) ∧
      ws' = (filledWords r path r.time_steps ws 0 0).map scoreWord ∧
      1 ≤ r.time_steps ∧ flatTargets r ws ≠ [] ∧
      FwdInv r (buildExtendedStates (flatTargets r ws) blank_idx) blank_idx r.time_steps
        (2 * (flatTargets r ws).length + 1) r.time_steps 0 tab ∧
      PathSpec tab.1 tab.2 r.time_steps (2 * (flatTargets r ws).length + 1) cur0 path ∧
      dpAt tab.1 (2 * (flatTargets r ws).length + 1) (r.time_steps - 1)
          (2 * (flatTargets r ws).length + 1 - 1) ≤
        dpAt tab.1 (2 * (flatTargets r ws).length + 1) (r.time_steps - 1) cur0 ∧
      dpAt tab.1 (2 * (flatTargets r ws).length + 1) (r.time_steps - 1)
          (2 * (flatTargets r ws).length + 1 - 2) ≤
        dpAt tab.1 (2 * (flatTargets r ws).length + 1) (r.time_steps - 1) cur0 ∧
      Admissible (buildExtendedStates (flatTargets r ws) blank_idx) blank_idx r.time_steps
        (2 * (flatTargets r ws).length + 1) path := by
  obtain ⟨hT, hflat, path, hp, hws⟩ := calculateGOP_success r hwf ws ws' blank_idx h
  obtain ⟨tab, _, inv, hcase⟩ := alignPath_spec r hwf (flatTargets r ws) blank_idx hT hflat
  rcases hcase with ⟨_, _, hn⟩ | ⟨path', cur0, hp', hcur, hm1, hm2, hspec⟩
  · rw [hn] at hp; simp at hp
  · have e : path' = path := by rw [hp'] at hp; simpa using hp
    subst e
    have e1 : (2 * ((flatTargets r ws).length : Int) + 1 - 1) = 2 * (flatTargets r ws).length := by
      ring
    have e2 : (2 * ((flatTargets r ws).length : Int) + 1 - 2) =
        2 * (flatTargets r ws).length - 1 := by ring
    refine ⟨path', tab, cur0, hp', hws, hT, hflat, inv, hspec, by rw [e1]; exact hm1,
      by rw [e2]; exact hm2, ?_⟩
    exact decoded_admissible r _ blank_idx _ _ cur0 tab inv path' hspec hT (by omega)

theorem vecGet_natCast {α : Type} (l : List α) (i : Nat) : vecGet l (i : Int) = l[i]? := by
  simp [vecGet]

theorem frames_nonempty (flat : List TargetMap) (blank_idx T : Int) (q : List Int)
    (h : Admissible (buildExtendedStates flat blank_idx) blank_idx T (2 * flat.length + 1) q)
    (hT : 1 ≤ T) (i : Nat) (hi : i < flat.length) :
    (framesBefore q ((i : Int) * 2 + 1) T).Nonempty := by
  obtain ⟨t, h0, h1, h2⟩ := admissible_hits_target flat blank_idx T q h hT i (by omega) (by omega)
  exact ⟨t, (mem_framesBefore q _ T t).mpr ⟨h0, h1, by rw [h2]; ring⟩⟩

/-- The details a successful call leaves in the words, read in order, are the details of
the flat targets; each flat target has at least one frame on the decoded path. -/
theorem success_details (r : ModelRunner) (hwf : r.WellFormed) (ws ws' : List WordAnalysis)
    (blank_idx : Int) (h : calculateGOP r ws blank_idx = some (true, ws')) :
    ∃ path, alignPath r (flatTargets r ws) blank_idx = some (some path) ∧
      Admissible (buildExtendedStates (flatTargets r ws) blank_idx) blank_idx r.time_steps
        (2 * (flatTargets r ws).length + 1) path ∧
      ((ws'.map (fun w => w.details)).flatten).length = (flatTargets r ws).length ∧
      ∀ (i : Nat) (tg : TargetMap), (flatTargets r ws)[i]? = some tg →
        ∃ d, ((ws'.map (fun w => w.details)).flatten)[i]? = some d ∧
          DetailSpec r path r.time_steps i tg d ∧
          (framesBefore path ((i : Int) * 2 + 1) r.time_steps).Nonempty := by
  obtain ⟨path, tab, cur0, hp, hws, hT, _, inv, hspec, hm1, hm2, hadm⟩ :=
    success_facts r hwf ws ws' blank_idx h
  have hflat : (ws'.map (fun w => w.details)).flatten =
      detailsOf r path r.time_steps (flatTargets r ws) 0 := by
    rw [hws]; exact filledWords_details r path r.time_steps ws 0 0
  refine ⟨path, hp, hadm, by rw [hflat, detailsOf_length], fun i tg hi => ?_⟩
  have hg := detailsOf_get r path r.time_steps (flatTargets r ws) 0 i tg
    (by rw [vecGet_natCast]; exact hi)
  rw [vecGet_natCast] at hg
  have e : (0 : Int) + (i : Int) = i := by ring
  rw [e] at hg
  have hlt : i < (flatTargets r ws).length := (List.getElem?_eq_some_iff.mp hi).1
  exact ⟨_, by rw [hflat]; exact hg, (makeDetail_spec r hwf path _ i tg hadm.len).2,
    frames_nonempty _ blank_idx _ path hadm hT i hlt⟩

/-- Every detail found in a word after a successful call is the detail of some flat
target. -/
theorem success_detail_of_mem (r : ModelRunner) (hwf : r.WellFormed)
    (ws ws' : List WordAnalysis) (blank_idx : Int)
    (h : calculateGOP r ws blank_idx = some (true, ws'))
    (w : WordAnalysis) (hw : w ∈ ws') (d : PhonemeDetail) (hd : d ∈ w.details) :
    ∃ path, alignPath r (flatTargets r ws) blank_idx = some (some path) ∧
      ∃ (i : Nat) (tg : TargetMap), (flatTargets r ws)[i]? = some tg ∧
        DetailSpec r path r.time_steps i tg d ∧
        (framesBefore path ((i : Int) * 2 + 1) r.time_steps).Nonempty := by
  obtain ⟨path, hp, _, hlen, hall⟩ := success_details r hwf ws ws' blank_idx h
  refine ⟨path, hp, ?_⟩
  have hmem : d ∈ (ws'.map (fun w => w.details)).flatten :=
    List.mem_flatten.mpr ⟨w.details, List.mem_map.mpr ⟨w, hw, rfl⟩, hd⟩
  obtain ⟨i, hi⟩ := List.mem_iff_getElem?.mp hmem
  have hlt : i < (flatTargets r ws).length := by
    rw [← hlen]; exact (List.getElem?_eq_some_iff.mp hi).1
  obtain ⟨d', hd', hs, hne⟩ := hall i _ (List.getElem?_eq_getElem hlt)
  rw [hi] at hd'
  have : d = d' := by simpa using hd'
  subst this
  exact ⟨i, _, List.getElem?_eq_getElem hlt, hs, hne⟩

theorem flattenPhonemes_eq_nil_iff (r : ModelRunner) (w_i : Int) (ps : List String) (p_i : Int) :
    flattenPhonemes r w_i ps p_i [] = [] ↔ ∀ p ∈ ps, r.getTokenId p = -1 := by
  have h := flattenPhonemes_map r w_i ps p_i
  constructor
  · intro he p hp
    rw [he] at h
    simp only [List.map_nil] at h
    have h' := List.map_eq_nil_iff.mp h.symm
    by_contra hne
    have : p ∈ ps.filter (fun p => decide (r.getTokenId p ≠ -1)) :=
      List.mem_filter.mpr ⟨hp, by simpa using hne⟩
    rw [h'] at this
    simp at this
  · intro hall
    have hf : ps.filter (fun p => decide (r.getTokenId p ≠ -1)) = [] := by
      apply List.filter_eq_nil_iff.mpr
      intro p hp
      simp [hall p hp]
    rw [hf] at h
    simpa using h

theorem flattenWords_eq_nil_iff (r : ModelRunner) (ws : List WordAnalysis) (w_i : Int) :
    (flattenWords r ws w_i []).2 = [] ↔ ∀ w ∈ ws, ∀ p ∈ w.phonemes, r.getTokenId p = -1 := by
  induction ws generalizing w_i with
  | nil => simp [flattenWords]
  | cons w rest ih =>
    rw [flattenWords_snd_cons, List.append_eq_nil, ih (w_i + 1)]
    unfold wordTargets
    rw [flattenPhonemes_eq_nil_iff]
    simp

theorem flatTargets_eq_nil_iff (r : ModelRunner) (hv : VocabValid r) (ws : List WordAnalysis) :
    flatTargets r ws = [] ↔ ∀ w ∈ ws, ∀ p ∈ w.phonemes, r.token_to_id.lookup p = none := by
  unfold flatTargets
  rw [flattenWords_eq_nil_iff]
  constructor
  · intro h w hw p hp
    exact (getTokenId_eq_neg_one_iff r hv p).mp (h w hw p hp)
  · intro h w hw p hp
    exact (getTokenId_eq_neg_one_iff r hv p).mpr (h w hw p hp)

theorem filledWords_forall (r : ModelRunner) (path : List Int) (T : Int)
    (P : WordAnalysis → Prop)
    (hP : ∀ (w : WordAnalysis) (w_i i : Int),
      P (scoreWord { w with details := detailsOf r path T (wordTargets r w_i w) i, word_score := 0 }))
    (ws : List WordAnalysis) (w_i i : Int) :
    ∀ w' ∈ (filledWords r path T ws w_i i).map scoreWord, P w' := by
  induction ws generalizing w_i i with
  | nil => simp [filledWords]
  | cons w rest ih =>
    simp only [filledWords, List.map_cons, List.mem_cons]
    rintro w' (e | hmem)
    · rw [e]; exact hP w w_i i
    · exact ih _ _ w' hmem

theorem forall₂_getElem? {α β : Type} (R : α → β → Prop) (l₁ : List α) (l₂ : List β)
    (h : List.Forall₂ R l₁ l₂) :
    l₂.length = l₁.length ∧ ∀ (j : Nat) (a : α) (b : β), l₁[j]? = some a → l₂[j]? = some b → R a b := by
  induction h with
  | nil => simp
  | cons hab _ ih =>
    refine ⟨by simp [ih.1], fun j a b h1 h2 => ?_⟩
    cases j with
    | zero =>
      simp only [List.getElem?_cons_zero, Option.some.injEq] at h1 h2
      subst h1; subst h2; exact hab
    | succ j =>
      simp only [List.getElem?_cons_succ] at h1 h2
      exact ih.2 j a b h1 h2

/-! ## Sample runs, evaluated -/

theorem sampleRun : calculateGOP sampleRunner sampleWords 0 = some (true, sampleResult) := by
  decide!

theorem repeatRun : calculateGOP repeatRunner repeatWords 0 = some (true, repeatResult) := by
  decide!

theorem lowRun : calculateGOP lowRunner lowWords 0 = some (true, lowResult) := by
  decide!

theorem pairRun : calculateGOP pairRunner lowWords 0 = some (true, pairResult) := by
  decide!

theorem pairRunner_prefixes (q : List Int)
    (hq : Admissible (buildExtendedStates (flatTargets pairRunner lowWords) 0) 0
      pairRunner.time_steps (2 * (flatTargets pairRunner lowWords).length + 1) q)
    (k : Nat) (hk1 : 1 ≤ k) (hk2 : (k : Int) ≤ pairRunner.time_steps) :
    prefixScore pairRunner (buildExtendedStates (flatTargets pairRunner lowWords) 0) q k >
      NEG_INF := by
  have hlen := hq.len
  have hstart := hq.start
  have hfinish := hq.finish
  have hT : pairRunner.time_steps = 2 := rfl
  have hn : (flatTargets pairRunner lowWords).length = 1 := by decide
  rw [hT] at hlen hk2 hfinish
  rw [hn] at hfinish
  match q, hlen with
  | [x, y], _ =>
    have hx : pathAt [x, y] 0 = x := rfl
    have hy : pathAt [x, y] (2 - 1) = y := rfl
    rw [hx] at hstart
    rw [hy] at hfinish
    have hk : k = 1 ∨ k = 2 := by omega
    rcases hstart with rfl | rfl <;> rcases hfinish with rfl | rfl <;> rcases hk with rfl | rfl <;>
      decide!

/-! ## Ties between predecessors -/

theorem bestPrev_tie (ext : List Int) (blank_idx : Int) (row : Int → ℚ) (s : Int)
    (hs0 : 0 ≤ s) (q : Int) (hq0 : 0 ≤ q) (hmv : Move ext blank_idx q s)
    (hfin : row q > NEG_INF)
    (heq : row q = (bestPrev ext blank_idx row s).1) :
    q ≤ (bestPrev ext blank_idx row s).2 := by
  have hle := move_le ext blank_idx q s hmv
  unfold bestPrev at heq ⊢
  simp only at heq ⊢
  rcases relax_cases (row s) s (NEG_INF, -1) with ⟨e1, a1, _⟩ | ⟨e1, a1⟩
  · -- stay was taken
    by_cases c0 : s > 0
    · simp only [c0, if_true] at heq ⊢
      rcases relax_cases (row (s - 1)) (s - 1) (relax (row s) s (NEG_INF, -1)) with
        ⟨e2, a2, b2⟩ | ⟨e2, a2⟩
      · by_cases c1 : SkipOk ext blank_idx s
        · simp only [c1, if_true] at heq ⊢
          rcases relax_cases (row (s - 2)) (s - 2)
              (relax (row (s - 1)) (s - 1) (relax (row s) s (NEG_INF, -1))) with
            ⟨e3, a3, b3⟩ | ⟨e3, a3⟩
          · rw [e3] at heq ⊢
            rw [e2] at b3
            rw [e1] at b2
            simp only at heq b3 b2 ⊢
            rcases hmv with h | h | ⟨h, _⟩
            · have : q = s := by omega
              subst this; linarith
            · have : q = s - 1 := by omega
              subst this; linarith
            · omega
          · rw [e3, e2] at heq ⊢
            rw [e1] at b2
            simp only at heq b2 ⊢
            rcases hmv with h | h | ⟨h, _⟩
            · have : q = s := by omega
              subst this; linarith
            · omega
            · have : q = s - 2 := by omega
              subst this; omega
        · simp only [c1, if_false] at heq ⊢
          rw [e2] at heq ⊢
          rw [e1] at b2
          simp only at heq b2 ⊢
          rcases hmv with h | h | ⟨h, h2, h3, h4⟩
          · have : q = s := by omega
            subst this; linarith
          · omega
          · exact absurd ⟨by omega, h2, h3, h4⟩ c1
      · by_cases c1 : SkipOk ext blank_idx s
        · simp only [c1, if_true] at heq ⊢
          rcases relax_cases (row (s - 2)) (s - 2)
              (relax (row (s - 1)) (s - 1) (relax (row s) s (NEG_INF, -1))) with
            ⟨e3, a3, b3⟩ | ⟨e3, a3⟩
          · rw [e3] at heq ⊢
            rw [e2, e1] at b3
            rw [e1] at a2
            simp only at heq b3 a2 ⊢
            rcases hmv with h | h | ⟨h, _⟩
            · have : q = s := by omega
              subst this; linarith
            · have : q = s - 1 := by omega
              subst this
              rcases a2 with a2 | a2 <;> linarith
            · omega
          · rw [e3, e2, e1] at heq ⊢
            simp only at heq ⊢
            omega
        · simp only [c1, if_false] at heq ⊢
          rw [e2, e1] at heq ⊢
          simp only at heq ⊢
          omega
    · have c1 : ¬ SkipOk ext blank_idx s := fun h => c0 (by have := h.1; omega)
      simp only [c0, c1, if_false] at heq ⊢
      rw [e1]
      simp only
      omega
  · -- stay was not taken
    have hs_bad : row s ≤ NEG_INF := by
      rcases a1 with a1 | a1
      · exact a1
      · exact a1
    by_cases c0 : s > 0
    · simp only [c0, if_true] at heq ⊢
      rcases relax_cases (row (s - 1)) (s - 1) (relax (row s) s (NEG_INF, -1)) with
        ⟨e2, a2, b2⟩ | ⟨e2, a2⟩
      · by_cases c1 : SkipOk ext blank_idx s
        · simp only [c1, if_true] at heq ⊢
          rcases relax_cases (row (s - 2)) (s - 2)
              (relax (row (s - 1)) (s - 1) (relax (row s) s (NEG_INF, -1))) with
            ⟨e3, a3, b3⟩ | ⟨e3, a3⟩
          · rw [e3] at heq ⊢
            rw [e2] at b3
            simp only at heq b3 ⊢
            rcases hmv with h | h | ⟨h, _⟩
            · have : q = s := by omega
              subst this; linarith
            · have : q = s - 1 := by omega
              subst this; linarith
            · omega
          · rw [e3, e2] at heq ⊢
            simp only at heq ⊢
            rcases hmv with h | h | ⟨h, _⟩
            · have : q = s := by omega
              subst this; linarith
            · omega
            · have : q = s - 2 := by omega
              subst this; omega
        · simp only [c1, if_false] at heq ⊢
          rw [e2] at heq ⊢
          simp only at heq ⊢
          rcases hmv with h | h | ⟨h, h2, h3, h4⟩
          · have : q = s := by omega
            subst this; linarith
          · omega
          · exact absurd ⟨by omega, h2, h3, h4⟩ c1
      · have hs1_bad : row (s - 1) ≤ NEG_INF := by
          rw [e1] at a2
          rcases a2 with a2 | a2
          · exact a2
          · exact a2
        by_cases c1 : SkipOk ext blank_idx s
        · simp only [c1, if_true] at heq ⊢
          rcases relax_cases (row (s - 2)) (s - 2)
              (relax (row (s - 1)) (s - 1) (relax (row s) s (NEG_INF, -1))) with
            ⟨e3, a3, b3⟩ | ⟨e3, a3⟩
          · rw [e3] at heq ⊢
            simp only at heq ⊢
            rcases hmv with h | h | ⟨h, _⟩
            · have : q = s := by omega
              subst this; linarith
            · have : q = s - 1 := by omega
              subst this; linarith
            · omega
          · rw [e3, e2, e1] at heq ⊢
            simp only at heq ⊢
            linarith
        · simp only [c1, if_false] at heq ⊢
          rw [e2, e1] at heq ⊢
          simp only at heq ⊢
          linarith
    · have c1 : ¬ SkipOk ext blank_idx s := fun h => c0 (by have := h.1; omega)
      simp only [c0, c1, if_false] at heq ⊢
      rw [e1] at heq
      simp only at heq
      linarith

theorem fwd_tie (r : ModelRunner) (ext : List Int) (blank_idx T S t s q : Int)
    (tab : List ℚ × List Int) (inv : FwdInv r ext blank_idx T S T 0 tab)
    (ht1 : 1 ≤ t) (ht : t < T) (hs0 : 0 ≤ s) (hs : s < S) (hq0 : 0 ≤ q)
    (hmv : Move ext blank_idx q s) (hfin : dpAt tab.1 S (t - 1) q > NEG_INF)
    (heq : dpAt tab.1 S (t - 1) q = dpAt tab.1 S (t - 1) (backAt tab.2 S t s)) :
    q ≤ backAt tab.2 S t s := by
  obtain ⟨_, hb⟩ := inv.done t s ht1 hs0 hs (Or.inl ht)
  obtain ⟨⟨_, hok⟩, hmax⟩ := bestPrev_spec ext blank_idx (fun p => dpAt tab.1 S (t - 1) p) s hs0
  have hle : dpAt tab.1 S (t - 1) q ≤ _ := hmax q hq0 hmv hfin
  rcases hok with ⟨_, h2⟩ | ⟨_, _, h3, _⟩
  · rw [h2] at hle
    exact absurd hfin (not_lt.mpr hle)
  · rw [hb] at heq ⊢
    apply bestPrev_tie ext blank_idx (fun p => dpAt tab.1 S (t - 1) p) s hs0 q hq0 hmv hfin
    rw [h3]
    exact heq

theorem overall_foldl (ws : List WordAnalysis) (a : ℚ) (c : Int) :
    ws.foldl (fun acc w => if w.word_score > -10 then (acc.1 + w.word_score, acc.2 + 1) else acc)
        (a, c) =
      (a + ((ws.filter (fun w => decide (w.word_score > -10))).map (fun w => w.word_score)).sum,
        c + ((ws.filter (fun w => decide (w.word_score > -10))).length : Int)) := by
  induction ws generalizing a c with
  | nil => simp
  | cons w rest ih =>
    simp only [List.foldl_cons]
    by_cases h : w.word_score > -10
    · rw [if_pos h, ih, List.filter_cons_of_pos (by simpa using h)]
      simp only [List.map_cons, List.sum_cons, List.length_cons]
      push_cast
      rw [Prod.mk.injEq]
      constructor <;> ring
    · rw [if_neg h, ih, List.filter_cons_of_neg (by simpa using h)]

theorem cleanCharLen_pos (c : Nat) : 1 ≤ cleanCharLen c := by
  unfold cleanCharLen; split_ifs <;> omega

theorem skipCharLen_pos (c : Nat) : 1 ≤ skipCharLen c := by
  unfold skipCharLen; split_ifs <;> omega

theorem preCleanLoop_total (raw_ipa : List Nat) :
    ∀ (fuel i : Nat) (clean_str : List Nat), raw_ipa.length ≤ i + fuel →
      ∃ out, preCleanLoop raw_ipa fuel i clean_str = some out := by
  intro fuel
  induction fuel with
  | zero =>
    intro i acc h
    refine ⟨acc, ?_⟩
    simp only [preCleanLoop]
    rw [if_neg (by omega)]
  | succ n ih =>
    intro i acc h
    simp only [preCleanLoop]
    by_cases hi : i < raw_ipa.length
    · rw [if_pos hi]
      by_cases hb : i + cleanCharLen (raw_ipa.getD i 0) > raw_ipa.length
      · rw [if_pos hb]; exact ⟨acc, rfl⟩
      · rw [if_neg hb]
        have := cleanCharLen_pos (raw_ipa.getD i 0)
        exact ih _ _ (by omega)
    · rw [if_neg hi]; exact ⟨acc, rfl⟩

theorem findMatch_some (vocab : List (List Nat × Int)) (clean_str : List Nat) (i : Nat) :
    ∀ (n L : Nat), findMatch vocab clean_str i n = some L →
      1 ≤ L ∧ L ≤ n ∧ (vocab.lookup (substr clean_str i L)).isSome = true ∧
      ∀ len, L < len → len ≤ n → (vocab.lookup (substr clean_str i len)).isSome = false := by
  intro n
  induction n with
  | zero => intro L h; simp [findMatch] at h
  | succ n ih =>
    intro L h
    simp only [findMatch] at h
    by_cases hk : (vocab.lookup (substr clean_str i (n + 1))).isSome = true
    · rw [if_pos hk] at h
      have hL : n + 1 = L := by simpa using h
      subst hL
      exact ⟨by omega, le_refl _, hk, fun len h1 h2 => by omega⟩
    · rw [if_neg hk] at h
      obtain ⟨h1, h2, h3, h4⟩ := ih L h
      refine ⟨h1, by omega, h3, fun len hl hn => ?_⟩
      by_cases he : len = n + 1
      · subst he; exact Bool.eq_false_iff.mpr hk
      · exact h4 len hl (by omega)

theorem findMatch_none (vocab : List (List Nat × Int)) (clean_str : List Nat) (i : Nat) :
    ∀ (n : Nat), findMatch vocab clean_str i n = none →
      ∀ len, 1 ≤ len → len ≤ n → (vocab.lookup (substr clean_str i len)).isSome = false := by
  intro n
  induction n with
  | zero => intro _ len h1 h2; omega
  | succ n ih =>
    intro h len h1 h2
    simp only [findMatch] at h
    by_cases hk : (vocab.lookup (substr clean_str i (n + 1))).isSome = true
    · rw [if_pos hk] at h; simp at h
    · rw [if_neg hk] at h
      by_cases he : len = n + 1
      · subst he; exact Bool.eq_false_iff.mpr hk
      · exact ih h len h1 (by omega)

theorem tokenizeLoop_step_some (vocab : List (List Nat × Int)) (clean_str : List Nat)
    (fuel i L : Nat) (tokens : List (List Nat)) (hi : i < clean_str.length)
    (hf : findMatch vocab clean_str i (min 8 (clean_str.length - i)) = some L) :
    tokenizeLoop vocab clean_str (fuel + 1) i tokens =
      tokenizeLoop vocab clean_str fuel (i + L) (tokens ++ [substr clean_str i L]) := by
  have hm : (if i + 8 > clean_str.length then clean_str.length - i else 8)
      = min 8 (clean_str.length - i) := by
    split_ifs <;> omega
  simp only [tokenizeLoop, if_pos hi, hm, hf]

theorem tokenizeLoop_step_none (vocab : List (List Nat × Int)) (clean_str : List Nat)
    (fuel i : Nat) (tokens : List (List Nat)) (hi : i < clean_str.length)
    (hf : findMatch vocab clean_str i (min 8 (clean_str.length - i)) = none) :
    tokenizeLoop vocab clean_str (fuel + 1) i tokens =
      tokenizeLoop vocab clean_str fuel (i + skipCharLen (clean_str.getD i 0)) tokens := by
  have hm : (if i + 8 > clean_str.length then clean_str.length - i else 8)
      = min 8 (clean_str.length - i) := by
    split_ifs <;> omega
  simp only [tokenizeLoop, if_pos hi, hm, hf]

theorem tokenizeLoop_done (vocab : List (List Nat × Int)) (clean_str : List Nat)
    (fuel i : Nat) (tokens : List (List Nat)) (hi : clean_str.length ≤ i) :
    tokenizeLoop vocab clean_str fuel i tokens = some tokens := by
  cases fuel <;> simp only [tokenizeLoop] <;> rw [if_neg (by omega)]

theorem tokenizeLoop_total (vocab : List (List Nat × Int)) (clean_str : List Nat) :
    ∀ (fuel i : Nat) (tokens : List (List Nat)), clean_str.length ≤ i + fuel →
      (∀ tk ∈ tokens, (vocab.lookup tk).isSome = true) →
      ∃ out, tokenizeLoop vocab clean_str fuel i tokens = some out ∧
        ∀ tk ∈ out, (vocab.lookup tk).isSome = true := by
  intro fuel
  induction fuel with
  | zero =>
    intro i tokens h ht
    exact ⟨tokens, tokenizeLoop_done _ _ _ _ _ (by omega), ht⟩
  | succ n ih =>
    intro i tokens h ht
    by_cases hi : i < clean_str.length
    · cases hf : findMatch vocab clean_str i (min 8 (clean_str.length - i)) with
      | none =>
        rw [tokenizeLoop_step_none _ _ _ _ _ hi hf]
        have := skipCharLen_pos (clean_str.getD i 0)
        exact ih _ _ (by omega) ht
      | some L =>
        rw [tokenizeLoop_step_some _ _ _ _ _ _ hi hf]
        obtain ⟨h1, _, h3, _⟩ := findMatch_some _ _ _ _ _ hf
        refine ih _ _ (by omega) ?_
        intro tk htk
        rcases List.mem_append.1 htk with h' | h'
        · exact ht tk h'
        · have : tk = substr clean_str i L := by simpa using h'
          subst this; exact h3
    · exact ⟨tokens, tokenizeLoop_done _ _ _ _ _ (by omega), ht⟩

theorem cleanIPA_total (raw_ipa : List Nat) : ∃ clean_str, cleanIPA raw_ipa = some clean_str :=
  preCleanLoop_total raw_ipa _ _ _ (by omega)

set_option maxRecDepth 100000 in
theorem cleanCharLen_table : ∀ b, b < 256 → cleanCharLen b =
    if b < 192 then 1 else if b < 224 then 2 else if b < 240 then 3 else if b < 248 then 4
    else 1 := by
  decide

theorem isIgnoredChar_iff (s : List Nat) : isIgnoredChar s = true ↔
    s = [0xCB, 0x88] ∨ s = [0xCB, 0x8C] ∨ s = [0x20] ∨ s = [0x5F] ∨ s = [0xC2, 0xA0] := by
  simp [isIgnoredChar, or_assoc]

theorem isIgnoredCodepoint_iff (c : Char) : isIgnoredCodepoint c = true ↔
    c.toNat = 0x2C8 ∨ c.toNat = 0x2CC ∨ c.toNat = 0x20 ∨ c.toNat = 0x5F ∨ c.toNat = 0xA0 := by
  simp [isIgnoredCodepoint, or_assoc]

theorem char_toNat_lt (c : Char) : c.toNat < 0x110000 := by
  have h := c.valid
  unfold Char.toNat
  rcases h with h | h
  · have : c.val.toNat < 0xd800 := h
    omega
  · exact h.2

theorem utf8EncodeCodepoint_head (c : Char) :
    ∃ b rest, utf8EncodeCodepoint c.toNat = b :: rest ∧ cleanCharLen b = rest.length + 1 := by
  have hlt := char_toNat_lt c
  unfold utf8EncodeCodepoint
  split_ifs with h1 h2 h3
  · exact ⟨_, _, rfl, by rw [cleanCharLen_table _ (by omega)]; simp; omega⟩
  · refine ⟨_, _, rfl, ?_⟩
    rw [cleanCharLen_table _ (by omega)]
    rw [if_neg (by omega), if_pos (by omega)]; rfl
  · refine ⟨_, _, rfl, ?_⟩
    rw [cleanCharLen_table _ (by omega)]
    rw [if_neg (by omega), if_neg (by omega), if_pos (by omega)]; rfl
  · refine ⟨_, _, rfl, ?_⟩
    rw [cleanCharLen_table _ (by omega)]
    rw [if_neg (by omega), if_neg (by omega), if_neg (by omega), if_pos (by omega)]; rfl

theorem isIgnoredChar_utf8 (c : Char) :
    isIgnoredChar (utf8EncodeCodepoint c.toNat) = isIgnoredCodepoint c := by
  rw [Bool.eq_iff_iff, isIgnoredChar_iff, isIgnoredCodepoint_iff]
  unfold utf8EncodeCodepoint
  split_ifs with h1 h2 h3 <;> simp <;> omega

theorem utf8Encode_cons (c : Char) (s : List Char) :
    utf8Encode (c :: s) = utf8EncodeCodepoint c.toNat ++ utf8Encode s := by
  simp [utf8Encode]

theorem utf8Encode_append (s₁ s₂ : List Char) :
    utf8Encode (s₁ ++ s₂) = utf8Encode s₁ ++ utf8Encode s₂ := by
  simp [utf8Encode]

theorem substr_append (pre l : List Nat) (len : Nat) :
    substr (pre ++ l) pre.length len = l.take len := by
  simp [substr]

theorem preCleanLoop_done (raw_ipa : List Nat) (fuel i : Nat) (clean_str : List Nat)
    (hi : raw_ipa.length ≤ i) : preCleanLoop raw_ipa fuel i clean_str = some clean_str := by
  cases fuel <;> simp only [preCleanLoop] <;> rw [if_neg (by omega)]

theorem preCleanLoop_utf8 : ∀ (s : List Char) (pre clean_str : List Nat) (fuel : Nat),
    (utf8Encode s).length ≤ fuel →
    preCleanLoop (pre ++ utf8Encode s) fuel pre.length clean_str =
      some (clean_str ++ utf8Encode (s.filter (fun c => !isIgnoredCodepoint c))) := by
  intro s
  induction s with
  | nil =>
    intro pre acc fuel _
    rw [preCleanLoop_done _ _ _ _ (by simp [utf8Encode])]
    simp [utf8Encode]
  | cons c s ih =>
    intro pre acc fuel hfuel
    obtain ⟨b, rest, he, hlen⟩ := utf8EncodeCodepoint_head c
    have hign := isIgnoredChar_utf8 c
    rw [utf8Encode_cons, he] at hfuel ⊢
    rw [he] at hign
    obtain ⟨fuel, rfl⟩ : ∃ n, fuel = n + 1 := ⟨fuel - 1, by simp at hfuel; omega⟩
    have hget : (pre ++ (b :: rest ++ utf8Encode s)).getD pre.length 0 = b := by
      rw [List.getD_eq_getElem?_getD, List.getElem?_append_right (le_refl _)]
      simp
    have hsub : substr (pre ++ (b :: rest ++ utf8Encode s)) pre.length (rest.length + 1)
        = b :: rest := by
      rw [substr_append]; simp
    simp only [preCleanLoop, hget, hlen, hsub, hign]
    rw [if_pos (by simp), if_neg (by simp)]
    have hre : pre ++ (b :: rest ++ utf8Encode s) = (pre ++ b :: rest) ++ utf8Encode s := by
      simp
    have hi : pre.length + (rest.length + 1) = (pre ++ b :: rest).length := by simp
    rw [hre, hi, ih _ _ _ (by simp at hfuel; omega)]
    by_cases hc : isIgnoredCodepoint c = true
    · simp [hc]
    · have hc' : isIgnoredCodepoint c = false := Bool.eq_false_iff.mpr hc
      simp [hc', utf8Encode_cons, he]

theorem cleanIPA_utf8 (s : List Char) :
    cleanIPA (utf8Encode s) = some (utf8Encode (s.filter (fun c => !isIgnoredCodepoint c))) := by
  have := preCleanLoop_utf8 s [] [] (utf8Encode s).length (le_refl _)
  simpa [cleanIPA] using this

theorem tokenizeLoop_acc (vocab : List (List Nat × Int)) (clean_str : List Nat) :
    ∀ (fuel i : Nat) (tokens : List (List Nat)),
      tokenizeLoop vocab clean_str fuel i tokens =
        (tokenizeLoop vocab clean_str fuel i []).map (fun rest => tokens ++ rest) := by
  intro fuel
  induction fuel with
  | zero =>
    intro i tokens
    simp only [tokenizeLoop]
    split_ifs <;> simp
  | succ n ih =>
    intro i tokens
    by_cases hi : i < clean_str.length
    · cases hf : findMatch vocab clean_str i (min 8 (clean_str.length - i)) with
      | none =>
        rw [tokenizeLoop_step_none _ _ _ _ _ hi hf, tokenizeLoop_step_none _ _ _ _ _ hi hf]
        exact ih _ _
      | some L =>
        rw [tokenizeLoop_step_some _ _ _ _ _ _ hi hf, tokenizeLoop_step_some _ _ _ _ _ _ hi hf]
        rw [ih _ (tokens ++ _), ih _ ([] ++ _)]
        cases tokenizeLoop vocab clean_str n (i + L) [] <;> simp
    · rw [tokenizeLoop_done _ _ _ _ _ (by omega), tokenizeLoop_done _ _ _ _ _ (by omega)]
      simp

theorem prefix_drop_iff (k l : List Nat) (i : Nat) :
    k <+: l.drop i ↔ k.length ≤ l.length - i ∧ substr l i k.length = k := by
  constructor
  · intro h
    refine ⟨by simpa using h.length_le, ?_⟩
    unfold substr
    exact (List.prefix_iff_eq_take.1 h).symm
  · rintro ⟨_, h⟩
    unfold substr at h
    rw [← h]
    exact List.take_prefix _ _

theorem substr_length (l : List Nat) (i len : Nat) (h : len ≤ l.length - i) :
    (substr l i len).length = len := by
  simp [substr]; omega

theorem findMatch_longest (vocab : List (List Nat × Int)) (clean_str : List Nat) (i : Nat)
    (hex : ∃ k, (vocab.lookup k).isSome = true ∧ 1 ≤ k.length ∧ k.length ≤ 8 ∧
      k <+: clean_str.drop i) :
    ∃ k, (vocab.lookup k).isSome = true ∧ 1 ≤ k.length ∧ k.length ≤ 8 ∧
      k <+: clean_str.drop i ∧
      (∀ k', (vocab.lookup k').isSome = true → 1 ≤ k'.length → k'.length ≤ 8 →
        k' <+: clean_str.drop i → k'.length ≤ k.length) ∧
      findMatch vocab clean_str i (min 8 (clean_str.length - i)) = some k.length ∧
      substr clean_str i k.length = k := by
  obtain ⟨k0, hk0, h1, h8, hp⟩ := hex
  obtain ⟨hl0, hs0⟩ := (prefix_drop_iff _ _ _).1 hp
  cases hf : findMatch vocab clean_str i (min 8 (clean_str.length - i)) with
  | none =>
    have := findMatch_none _ _ _ _ hf k0.length h1 (by omega)
    rw [hs0, hk0] at this
    exact absurd this (by simp)
  | some L =>
    obtain ⟨hL1, hL2, hL3, hL4⟩ := findMatch_some _ _ _ _ _ hf
    have hlen : (substr clean_str i L).length = L := substr_length _ _ _ (by omega)
    refine ⟨substr clean_str i L, hL3, by omega, by omega, ?_, ?_, by rw [hlen], by rw [hlen]⟩
    · exact (prefix_drop_iff _ _ _).2 ⟨by omega, by rw [hlen]⟩
    · intro k' hk' h1' h8' hp'
      obtain ⟨hl', hs'⟩ := (prefix_drop_iff _ _ _).1 hp'
      rw [hlen]
      by_contra hcon
      have := hL4 k'.length (by omega) (by omega)
      rw [hs', hk'] at this
      exact absurd this (by simp)

theorem flatten_map_utf8Encode (css : List (List Char)) :
    (css.map utf8Encode).flatten = utf8Encode css.flatten := by
  induction css with
  | nil => simp [utf8Encode]
  | cons cs rest ih => simp [utf8Encode_append, ih]

theorem NoAmbiguousPrefix.tail {vocab : List (List Nat × Int)} {k : List Nat}
    {ts : List (List Nat)} (h : NoAmbiguousPrefix vocab (k :: ts)) :
    NoAmbiguousPrefix vocab ts := by
  intro suf hsuf
  exact h suf (by simp [hsuf])

theorem tokenizeLoop_round_trip (vocab : List (List Nat × Int)) :
    ∀ (ts : List (List Nat)) (pre : List Nat) (tokens : List (List Nat)) (fuel : Nat),
      (∀ k ∈ ts, (vocab.lookup k).isSome = true ∧ 1 ≤ k.length ∧ k.length ≤ 8) →
      NoAmbiguousPrefix vocab ts → ts.flatten.length ≤ fuel →
      tokenizeLoop vocab (pre ++ ts.flatten) fuel pre.length tokens = some (tokens ++ ts) := by
  intro ts
  induction ts with
  | nil =>
    intro pre tokens fuel _ _ _
    rw [tokenizeLoop_done _ _ _ _ _ (by simp)]
    simp
  | cons k ts ih =>
    intro pre tokens fuel hk hamb hfuel
    obtain ⟨hkey, hk1, hk8⟩ := hk k (by simp)
    have hfl : (k :: ts).flatten = k ++ ts.flatten := by simp
    rw [hfl] at hfuel ⊢
    obtain ⟨fuel, rfl⟩ : ∃ n, fuel = n + 1 :=
      ⟨fuel - 1, by rw [List.length_append] at hfuel; omega⟩
    have hdrop : (pre ++ (k ++ ts.flatten)).drop pre.length = k ++ ts.flatten := by simp
    obtain ⟨k', hk', h1', h8', hp', hmax, hf, hsub⟩ := findMatch_longest vocab
      (pre ++ (k ++ ts.flatten)) pre.length
      ⟨k, hkey, hk1, hk8, by rw [hdrop]; exact List.prefix_append _ _⟩
    have hle : k.length ≤ k'.length :=
      hmax k hkey hk1 hk8 (by rw [hdrop]; exact List.prefix_append _ _)
    have hge : k'.length ≤ k.length := by
      obtain ⟨id, hid⟩ := Option.isSome_iff_exists.1 hk'
      have := hamb (k :: ts) (by simp) (k', id) (lookup_mem _ _ _ hid)
        (by rw [hfl, ← hdrop]; exact hp')
      simpa using this
    have hkk : k' = k := by
      rw [hdrop] at hp'
      have h1 : k' = (k ++ ts.flatten).take k'.length := List.prefix_iff_eq_take.1 hp'
      have h2 : k'.length = k.length := by omega
      rw [h2] at h1; simpa using h1
    subst hkk
    rw [tokenizeLoop_step_some _ _ _ _ _ _ (by simp; omega) hf, hsub]
    have hre : pre ++ (k' ++ ts.flatten) = (pre ++ k') ++ ts.flatten := by simp
    have hi : pre.length + k'.length = (pre ++ k').length := by simp
    rw [List.length_append] at hfuel
    rw [hre, hi, ih _ _ _ (fun k hk' => hk k (by simp [hk'])) hamb.tail (by omega)]
    simp

theorem forUp_some_iter {σ : Type} (body : Int → σ → Option σ) (P : σ → Prop)
    (hP : ∀ k s s1, body k s = some s1 → P s → P s1) :
    ∀ (n : Nat) (i : Int) (st st' : σ), P st → forUp body n i st = some st' →
      P st' ∧ ∀ k, i ≤ k → k < i + n → ∃ s s1, P s ∧ body k s = some s1 := by
  intro n
  induction n with
  | zero =>
    intro i st st' h0 h
    simp only [forUp, Option.some.injEq] at h
    subst h
    exact ⟨h0, fun k h1 h2 => by simp at h2; omega⟩
  | succ n ih =>
    intro i st st' h0 h
    simp only [forUp] at h
    cases hb : body i st with
    | none => rw [hb] at h; simp at h
    | some s1 =>
      rw [hb] at h
      simp only [Option.some_bind] at h
      obtain ⟨h1, h2⟩ := ih (i + 1) s1 st' (hP _ _ _ hb h0) h
      refine ⟨h1, fun k hk1 hk2 => ?_⟩
      by_cases hk : k = i
      · subst hk; exact ⟨st, s1, h0, hb⟩
      · exact h2 k (by omega) (by push_cast at hk2; omega)

theorem mixToMono_some_bound (audio out : List ℚ) (channels total_frames : Nat)
    (hC : 1 < channels) (hN : 0 < total_frames)
    (h : mixToMono audio channels total_frames = some out) :
    total_frames * channels ≤ audio.length := by
  unfold mixToMono at h
  rw [if_neg (by omega)] at h
  cases hfor : forUp (fun i audio => do
        let sum ← forUp (fun c sum => do
            let x ← vecGet audio (i * (channels : Int) + c)
            some (sum + x)) channels 0 (0 : ℚ)
        vecSet audio i (sum / (channels : ℚ))) total_frames 0 audio with
  | none => rw [hfor] at h; simp at h
  | some st =>
    obtain ⟨_, hit⟩ := forUp_some_iter _ (fun s : List ℚ => s.length = audio.length)
      (by
        intro k s s1 hb hs
        simp only [Option.bind_eq_bind] at hb
        obtain ⟨sum, _, hset⟩ := Option.bind_eq_some.1 hb
        rw [vecSet_length _ _ _ _ hset]; exact hs)
      total_frames 0 audio st rfl hfor
    obtain ⟨s, s1, hs, hb⟩ := hit (total_frames - 1) (by omega) (by omega)
    simp only [Option.bind_eq_bind] at hb
    obtain ⟨sum, hsum, _⟩ := Option.bind_eq_some.1 hb
    obtain ⟨_, hit2⟩ := forUp_some_iter _ (fun _ : ℚ => True) (fun _ _ _ _ _ => trivial)
      channels 0 0 sum trivial hsum
    obtain ⟨x, x1, _, hx⟩ := hit2 (channels - 1) (by omega) (by omega)
    obtain ⟨y, hy, _⟩ := Option.bind_eq_some.1 hx
    obtain ⟨_, hlt⟩ := vecGet_some_bounds _ _ _ hy
    rw [hs] at hlt
    have : ((total_frames : Int) - 1) * channels + ((channels : Int) - 1)
        = (total_frames : Int) * channels - 1 := by ring
    rw [this] at hlt
    have h2 : ((total_frames * channels : Nat) : Int) ≤ audio.length := by
      push_cast; omega
    exact_mod_cast h2

theorem vecGet_mid {K : Type} (pre done l post : List K) (x : K) (i : Int)
    (hi : i = (pre.length : Int) + done.length) :
    vecGet (pre ++ (done ++ x :: l) ++ post) i = some x := by
  have h : i = ((pre ++ done).length : Nat) := by simp [hi]
  have hre : pre ++ (done ++ x :: l) ++ post = (pre ++ done) ++ (x :: (l ++ post)) := by simp
  rw [h, vecGet_natCast, hre, List.getElem?_append_right (le_refl _)]
  simp

theorem vecSet_mid {K : Type} (pre done l post : List K) (x y : K) (i : Int)
    (hi : i = (pre.length : Int) + done.length) :
    vecSet (pre ++ (done ++ x :: l) ++ post) i y = some (pre ++ (done ++ y :: l) ++ post) := by
  have h : i = ((pre ++ done).length : Nat) := by simp [hi]
  have hre : ∀ z, pre ++ (done ++ z :: l) ++ post = (pre ++ done) ++ (z :: (l ++ post)) := by
    simp
  rw [vecSet_isSome _ _ _ (by omega) (by rw [hre]; simp [h]; omega)]
  rw [h, Int.toNat_natCast, hre, hre, set_append_length]
  simp

theorem frameMax_loop {K : Type} [LinearOrderedField K] (pre post : List K) (base : Int) (hbase : base = pre.length) :
    ∀ (l done : List K) (acc : Option K) (v : Int), v = done.length →
      forUp (fun v (max_val : Option K) => do
          let x ← vecGet (pre ++ (done ++ l) ++ post) (base + v)
          match max_val with
          | none => some (some x)
          | some m => if x > m then some (some x) else some (some m))
        l.length v acc
      = some (l.foldl (fun acc x => match acc with
          | none => some x
          | some m => if x > m then some x else some m) acc) := by
  intro l
  induction l with
  | nil => intro done acc v _; rfl
  | cons x l ih =>
    intro done acc v hv
    have hget := vecGet_mid pre done l post x (base + v) (by rw [hbase, hv])
    have hre : done ++ x :: l = (done ++ [x]) ++ l := by simp
    simp only [List.length_cons, forUp, hget, List.foldl_cons, Option.bind_eq_bind,
      Option.some_bind]
    have := ih (done ++ [x]) (match acc with
          | none => some x
          | some m => if x > m then some x else some m) (v + 1) (by simp [hv])
    rw [← hre] at this
    cases acc with
    | none => simpa using this
    | some m =>
      by_cases hx : x > m
      · simpa [hx] using this
      · simpa [hx] using this

theorem frameSumExp_loop {K : Type} [LinearOrderedField K] (exp : K → K) (m : K)
    (pre post : List K) (base : Int) (hbase : base = pre.length) :
    ∀ (l done : List K) (acc : K) (v : Int), v = done.length →
      forUp (fun v (sum_exp : K) => do
          let x ← vecGet (pre ++ (done ++ l) ++ post) (base + v)
          let m ← some m
          some (sum_exp + exp (x - m)))
        l.length v acc
      = some (l.foldl (fun s x => s + exp (x - m)) acc) := by
  intro l
  induction l with
  | nil => intro done acc v _; rfl
  | cons x l ih =>
    intro done acc v hv
    have hget := vecGet_mid pre done l post x (base + v) (by rw [hbase, hv])
    have hre : done ++ x :: l = (done ++ [x]) ++ l := by simp
    simp only [List.length_cons, forUp, hget, List.foldl_cons, Option.bind_eq_bind,
      Option.some_bind]
    have := ih (done ++ [x]) (acc + exp (x - m)) (v + 1) (by simp [hv])
    rw [← hre] at this
    simpa using this

theorem frameUpdate_loop {K : Type} [LinearOrderedField K] (m log_sum_exp : K)
    (pre post : List K) (base : Int) (hbase : base = pre.length) :
    ∀ (l done : List K) (v : Int), v = done.length →
      forUp (fun v (data : List K) => do
          let x ← vecGet data (base + v)
          let m ← some m
          vecSet data (base + v) ((x - m) - log_sum_exp))
        l.length v (pre ++ (done ++ l) ++ post)
      = some (pre ++ (done ++ l.map (fun x => (x - m) - log_sum_exp)) ++ post) := by
  intro l
  induction l with
  | nil => intro done v _; rfl
  | cons x l ih =>
    intro done v hv
    have hget := vecGet_mid pre done l post x (base + v) (by rw [hbase, hv])
    have hset := vecSet_mid pre done l post x ((x - m) - log_sum_exp) (base + v)
      (by rw [hbase, hv])
    simp only [List.length_cons, forUp, hget, hset, Option.bind_eq_bind, Option.some_bind]
    have := ih (done ++ [(x - m) - log_sum_exp]) (v + 1) (by simp [hv])
    simpa using this

theorem foldl_max_some {K : Type} [LinearOrderedField K] (l : List K) (m : K) :
    l.foldl (fun acc x => match acc with
      | none => some x
      | some m => if x > m then some x else some m) (some m) = some (l.foldl max m) := by
  induction l generalizing m with
  | nil => rfl
  | cons x l ih =>
    simp only [List.foldl_cons]
    by_cases hx : x > m
    · rw [if_pos hx, ih, max_eq_right (le_of_lt hx)]
    · rw [if_neg hx, ih, max_eq_left (not_lt.1 hx)]

theorem foldl_max_none {K : Type} [LinearOrderedField K] (x : K) (l : List K) :
    (x :: l).foldl (fun acc x => match acc with
      | none => some x
      | some m => if x > m then some x else some m) none = some (rowMax (x :: l)) := by
  simp only [List.foldl_cons, rowMax, List.headD_cons, max_self]
  exact foldl_max_some l x

theorem foldl_sum_exp {K : Type} [LinearOrderedField K] (f : K → K) (l : List K) (a : K) :
    l.foldl (fun s x => s + f x) a = a + (l.map f).sum := by
  induction l generalizing a with
  | nil => simp
  | cons x l ih => simp [ih, add_assoc]

theorem frame_step {K : Type} [LinearOrderedField K] (exp log : K → K)
    (pre post : List K) (x : K) (l : List K) (t vocab_size : Int)
    (hV : vocab_size = (x :: l).length) (hbase : t * vocab_size = pre.length) :
    (do
      let base := t * vocab_size
      let max_val ← frameMax (pre ++ (x :: l) ++ post) base vocab_size
      let sum_exp ← frameSumExp exp (pre ++ (x :: l) ++ post) base vocab_size max_val
      let log_sum_exp := log sum_exp
      frameUpdate (pre ++ (x :: l) ++ post) base vocab_size max_val log_sum_exp)
    = some (pre ++ logSoftmaxRow exp log (x :: l) ++ post) := by
  have hn : vocab_size.toNat = (x :: l).length := by rw [hV]; simp
  have hA := frameMax_loop pre post (t * vocab_size) hbase (x :: l) [] none 0 (by simp)
  have hB := frameSumExp_loop exp (rowMax (x :: l)) pre post (t * vocab_size) hbase
    (x :: l) [] 0 0 (by simp)
  have hD := frameUpdate_loop (rowMax (x :: l))
    (log (((x :: l).map (fun y => exp (y - rowMax (x :: l)))).sum))
    pre post (t * vocab_size) hbase (x :: l) [] 0 (by simp)
  rw [foldl_max_none] at hA
  rw [foldl_sum_exp, zero_add] at hB
  simp only [List.nil_append] at hA hB hD
  have hA' : frameMax (pre ++ (x :: l) ++ post) (t * vocab_size) vocab_size
      = some (some (rowMax (x :: l))) := by
    unfold frameMax; rw [hn]; exact hA
  have hB' : frameSumExp exp (pre ++ (x :: l) ++ post) (t * vocab_size) vocab_size
      (some (rowMax (x :: l)))
      = some ((x :: l).map (fun y => exp (y - rowMax (x :: l)))).sum := by
    unfold frameSumExp; rw [hn]; exact hB
  have hD' : frameUpdate (pre ++ (x :: l) ++ post) (t * vocab_size) vocab_size
      (some (rowMax (x :: l)))
      (log (((x :: l).map (fun y => exp (y - rowMax (x :: l)))).sum))
      = some (pre ++ logSoftmaxRow exp log (x :: l) ++ post) := by
    unfold frameUpdate; rw [hn]; exact hD
  simp only [hA', hB', hD', Option.bind_eq_bind, Option.some_bind]

theorem logSoftmaxRow_length {K : Type} [LinearOrderedField K] (exp log : K → K)
    (row : List K) : (logSoftmaxRow exp log row).length = row.length := by
  simp [logSoftmaxRow]

theorem computeLogSoftmax_loop {K : Type} [LinearOrderedField K] (exp log : K → K)
    (vocab_size : Int) (hV : 1 ≤ vocab_size) :
    ∀ (rows : List (List K)) (pre : List K) (t : Int),
      (∀ row ∈ rows, (row.length : Int) = vocab_size) → t * vocab_size = pre.length →
      forUp (fun t (data : List K) => do
          let base := t * vocab_size
          let max_val ← frameMax data base vocab_size
          let sum_exp ← frameSumExp exp data base vocab_size max_val
          let log_sum_exp := log sum_exp
          frameUpdate data base vocab_size max_val log_sum_exp)
        rows.length t (pre ++ rows.flatten)
      = some (pre ++ (rows.map (logSoftmaxRow exp log)).flatten) := by
  intro rows
  induction rows with
  | nil => intro pre t _ _; simp [forUp]
  | cons row rows ih =>
    intro pre t hrows hbase
    have hlen := hrows row (by simp)
    obtain ⟨x, l, rfl⟩ : ∃ x l, row = x :: l := by
      cases row with
      | nil => simp at hlen; omega
      | cons x l => exact ⟨x, l, rfl⟩
    have hstep := frame_step exp log pre rows.flatten x l t vocab_size hlen.symm hbase
    have hre : pre ++ ((x :: l) :: rows).flatten = pre ++ (x :: l) ++ rows.flatten := by simp
    have hnext := ih (pre ++ logSoftmaxRow exp log (x :: l)) (t + 1)
      (fun r hr => hrows r (by simp [hr]))
      (by rw [List.length_append, logSoftmaxRow_length]; push_cast; rw [← hbase, hlen]; ring)
    simp only [List.length_cons, forUp]
    rw [hre, hstep]
    simp only [Option.some_bind]
    rw [hnext]
    simp

theorem computeLogSoftmax_eq {K : Type} [LinearOrderedField K] (exp log : K → K)
    (rows : List (List K)) (vocab_size : Int) (hV : 1 ≤ vocab_size)
    (hrows : ∀ row ∈ rows, (row.length : Int) = vocab_size) :
    computeLogSoftmax exp log rows.flatten rows.length vocab_size
      = some (rows.map (logSoftmaxRow exp log)).flatten := by
  have := computeLogSoftmax_loop exp log vocab_size hV rows [] 0 hrows (by simp)
  simpa [computeLogSoftmax] using this

theorem foldl_max_ge {K : Type} [LinearOrderedField K] (l : List K) (a : K) :
    a ≤ l.foldl max a ∧ (∀ x ∈ l, x ≤ l.foldl max a) ∧ (l.foldl max a = a ∨ l.foldl max a ∈ l) := by
  induction l generalizing a with
  | nil => simp
  | cons y l ih =>
    obtain ⟨h1, h2, h3⟩ := ih (max a y)
    simp only [List.foldl_cons, List.mem_cons, forall_eq_or_imp]
    refine ⟨le_trans (le_max_left _ _) h1, ⟨le_trans (le_max_right _ _) h1, h2⟩, ?_⟩
    rcases h3 with h3 | h3
    · rcases max_choice a y with h | h
      · left; rw [h3, h]
      · right; left; rw [h3, h]
    · right; right; exact h3

theorem rowMax_spec {K : Type} [LinearOrderedField K] (row : List K) (h : row ≠ []) :
    rowMax row ∈ row ∧ ∀ x ∈ row, x ≤ rowMax row := by
  cases row with
  | nil => exact absurd rfl h
  | cons x l =>
    obtain ⟨h1, h2, h3⟩ := foldl_max_ge l (max x x)
    simp only [rowMax, List.headD_cons, List.foldl_cons, List.mem_cons, forall_eq_or_imp]
    rw [max_self] at h1 h2 h3
    rw [max_self]
    refine ⟨?_, h1, h2⟩
    rcases h3 with h3 | h3
    · left; exact h3
    · right; exact h3

theorem logSoftmaxRow_sum_exp (row : List ℝ) (h : row ≠ []) :
    ((logSoftmaxRow Real.exp Real.log row).map Real.exp).sum = 1 := by
  have hpos : 0 < (row.map (fun y => Real.exp (y - rowMax row))).sum := by
    cases row with
    | nil => exact absurd rfl h
    | cons x l =>
      simp only [List.map_cons, List.sum_cons]
      have h1 : 0 < Real.exp (x - rowMax (x :: l)) := Real.exp_pos _
      have h2 : 0 ≤ (l.map (fun y => Real.exp (y - rowMax (x :: l)))).sum :=
        List.sum_nonneg (by
          intro a ha
          obtain ⟨y, _, rfl⟩ := List.mem_map.1 ha
          exact le_of_lt (Real.exp_pos _))
      linarith
  have hmap : (logSoftmaxRow Real.exp Real.log row).map Real.exp
      = (row.map (fun y => Real.exp (y - rowMax row))).map
          (fun a => a * ((row.map (fun y => Real.exp (y - rowMax row))).sum)⁻¹) := by
    simp only [logSoftmaxRow, List.map_map]
    apply List.map_congr_left
    intro x _
    simp only [Function.comp]
    rw [Real.exp_sub, Real.exp_log hpos, div_eq_mul_inv]
  rw [hmap, List.sum_map_mul_right, List.map_id', mul_inv_cancel₀ (ne_of_gt hpos)]

theorem mix_sum_loop (pre post : List ℚ) (base : Int) (hbase : base = pre.length) :
    ∀ (l done : List ℚ) (acc : ℚ) (c : Int), c = done.length →
      forUp (fun c sum => do
          let x ← vecGet (pre ++ (done ++ l) ++ post) (base + c)
          some (sum + x))
        l.length c acc
      = some (acc + l.sum) := by
  intro l
  induction l with
  | nil => intro done acc c _; simp [forUp]
  | cons x l ih =>
    intro done acc c hc
    have hget := vecGet_mid pre done l post x (base + c) (by rw [hbase, hc])
    have hre : done ++ x :: l = (done ++ [x]) ++ l := by simp
    simp only [List.length_cons, forUp, hget, Option.bind_eq_bind, Option.some_bind]
    have := ih (done ++ [x]) (acc + x) (c + 1) (by simp [hc])
    rw [← hre] at this
    simp only [Option.bind_eq_bind] at this
    rw [this, List.sum_cons, add_assoc]

theorem mix_sum (st : List ℚ) (channels i : Nat) (h : i * channels + channels ≤ st.length) :
    forUp (fun c sum => do
        let x ← vecGet st ((i : Int) * (channels : Int) + c)
        some (sum + x)) channels 0 (0 : ℚ)
      = some ((st.drop (i * channels)).take channels).sum := by
  have hdec : st = st.take (i * channels) ++ ([] ++ (st.drop (i * channels)).take channels)
      ++ (st.drop (i * channels)).drop channels := by
    simp
  have hlen : ((st.drop (i * channels)).take channels).length = channels := by
    simp; omega
  have := mix_sum_loop (st.take (i * channels)) ((st.drop (i * channels)).drop channels)
    ((i : Int) * (channels : Int)) (by simp; omega)
    ((st.drop (i * channels)).take channels) [] 0 0 (by simp)
  rw [← hdec, hlen, zero_add] at this
  exact this

theorem frameMeans_length (audio : List ℚ) (channels n : Nat) :
    (frameMeans audio channels n).length = n := by
  simp [frameMeans]

theorem frameMeans_succ (audio : List ℚ) (channels n : Nat) :
    frameMeans audio channels (n + 1) = frameMeans audio channels n ++
      [((audio.drop (n * channels)).take channels).sum / (channels : ℚ)] := by
  simp [frameMeans, List.range_succ]

theorem mix_frame (audio : List ℚ) (channels frames k : Nat) (hC : 1 < channels)
    (hlen : audio.length = frames * channels) (hk : k < frames) :
    (do
      let sum ← forUp (fun c sum => do
          let x ← vecGet (frameMeans audio channels k ++ audio.drop k)
            ((k : Int) * (channels : Int) + c)
          some (sum + x)) channels 0 (0 : ℚ)
      vecSet (frameMeans audio channels k ++ audio.drop k) (k : Int) (sum / (channels : ℚ)))
    = some (frameMeans audio channels (k + 1) ++ audio.drop (k + 1)) := by
  have h1 : (k + 1) * channels ≤ frames * channels := Nat.mul_le_mul_right _ hk
  have h2 : k ≤ k * channels := Nat.le_mul_of_pos_right _ (by omega)
  have h3 : k < audio.length := by
    rw [hlen]; calc k < frames := hk
      _ ≤ frames * channels := Nat.le_mul_of_pos_right _ (by omega)
  have hst : (frameMeans audio channels k ++ audio.drop k).length = audio.length := by
    simp [frameMeans_length]; omega
  have hsum := mix_sum (frameMeans audio channels k ++ audio.drop k) channels k
    (by rw [hst, hlen]; linarith [Nat.succ_mul k channels])
  have hdrop : (frameMeans audio channels k ++ audio.drop k).drop (k * channels)
      = audio.drop (k * channels) := by
    rw [List.drop_append_eq_append_drop, frameMeans_length,
      List.drop_eq_nil_of_le (by rw [frameMeans_length]; exact h2), List.nil_append,
      List.drop_drop]
    congr 1; omega
  rw [hdrop] at hsum
  rw [hsum]
  simp only [Option.bind_eq_bind, Option.some_bind]
  have hcons : audio.drop k = audio[k] :: audio.drop (k + 1) := List.drop_eq_getElem_cons h3
  rw [vecSet_isSome _ _ _ (by omega) (by rw [hst]; exact_mod_cast h3)]
  rw [hcons, Int.toNat_natCast]
  have hset : ∀ (pre : List ℚ) (n : Nat), pre.length = n → ∀ (a b : ℚ) (l : List ℚ),
      (pre ++ a :: l).set n b = (pre ++ [b]) ++ l := by
    intro pre n hn a b l
    subst hn
    exact set_append_length _ _ _ _
  rw [hset _ k (frameMeans_length _ _ _), frameMeans_succ]

theorem mixToMono_frames (audio : List ℚ) (channels frames : Nat) (hC : 1 < channels)
    (hlen : audio.length = frames * channels) :
    mixToMono audio channels frames = some (frameMeans audio channels frames) := by
  have hle : frames ≤ audio.length := by
    rw [hlen]; exact Nat.le_mul_of_pos_right _ (by omega)
  obtain ⟨st, hst, k, hk, hkle, hJ⟩ := forUp_inv
    (fun i audio' => do
        let sum ← forUp (fun c sum => do
            let x ← vecGet audio' (i * (channels : Int) + c)
            some (sum + x)) channels 0 (0 : ℚ)
        vecSet audio' i (sum / (channels : ℚ)))
    (fun i st => ∃ k : Nat, (k : Int) = i ∧ k ≤ frames ∧
      st = frameMeans audio channels k ++ audio.drop k)
    frames 0 audio ⟨0, rfl, by omega, by simp [frameMeans]⟩
    (by
      rintro i st hi0 hi1 ⟨k, rfl, _, rfl⟩
      refine ⟨_, mix_frame audio channels frames k hC hlen (by omega), k + 1, by simp,
        by omega, rfl⟩)
  have hk' : k = frames := by omega
  subst hk'
  unfold mixToMono
  rw [if_neg (by omega)]
  simp only [Option.bind_eq_bind] at hst ⊢
  rw [hst]
  simp only [Option.some_bind]
  rw [if_pos (by rw [hJ]; simp [frameMeans_length])]
  rw [hJ, List.take_append_of_le_length (by rw [frameMeans_length])]
  rw [List.take_of_length_le (by rw [frameMeans_length])]

/-- A key of nine bytes is never tried by the greatest-match loop: its own bytes tokenize
to nothing. -/
theorem long_key_not_matched :
    cleanAndTokenizeIPA [([0x61, 0x62, 0x63, 0x64, 0x65, 0x66, 0x67, 0x68, 0x69], 1)]
      [0x61, 0x62, 0x63, 0x64, 0x65, 0x66, 0x67, 0x68, 0x69] = some [] := by
  decide

/-- On input that is not UTF-8 the pre-cleaning step keeps a stray continuation byte and
drops a truncated final sequence. -/
theorem cleanIPA_malformed :
    cleanIPA [0x80, 0x61] = some [0x80, 0x61] ∧ cleanIPA [0x61, 0xCB] = some [0x61] := by
  decide

theorem targets_le_frames (q : List Int) (T : Int) (n : Nat) (hT : 0 ≤ T)
    (h : ∀ i : Nat, i < n → ∃ t : Int, 0 ≤ t ∧ t < T ∧ pathAt q t = 2 * i + 1) :
    (n : Int) ≤ T := by
  have hsub : (Finset.range n).image (fun i : Nat => 2 * (i : Int) + 1) ⊆
      (Finset.Ico 0 T).image (pathAt q) := by
    intro x hx
    obtain ⟨i, hi, rfl⟩ := Finset.mem_image.1 hx
    obtain ⟨t, h0, h1, h2⟩ := h i (Finset.mem_range.1 hi)
    exact Finset.mem_image.2 ⟨t, Finset.mem_Ico.2 ⟨h0, h1⟩, h2⟩
  have hcard : ((Finset.range n).image (fun i : Nat => 2 * (i : Int) + 1)).card = n := by
    rw [Finset.card_image_of_injective _ (by intro a b hab; simp only at hab; omega)]
    simp
  have h1 := Finset.card_le_card hsub
  have h2 : ((Finset.Ico 0 T).image (pathAt q)).card ≤ (Finset.Ico 0 T).card :=
    Finset.card_image_le
  have h3 : (Finset.Ico 0 T).card = T.toNat := by simp
  rw [hcard] at h1
  omega

theorem map_set_same {α β : Type} (f : α → β) (l : List α) (n : Nat) (a b : α)
    (hl : l[n]? = some a) (hf : f b = f a) : (l.set n b).map f = l.map f := by
  induction l generalizing n with
  | nil => simp
  | cons x rest ih =>
    cases n with
    | zero =>
      have : x = a := by simpa using hl
      subst this
      simp [hf]
    | succ m =>
      simp only [List.set_cons_succ, List.map_cons]
      rw [ih m (by simpa using hl)]

theorem pushDetail_frame (words words' : List WordAnalysis) (idx : Int) (d : PhonemeDetail)
    (h : pushDetail words idx d = some words') :
    words'.map (fun w => (w.word, w.clean_word, w.raw_ipa, w.phonemes)) =
      words.map (fun w => (w.word, w.clean_word, w.raw_ipa, w.phonemes)) := by
  unfold pushDetail at h
  simp only [Option.bind_eq_bind] at h
  obtain ⟨w, hw, hset⟩ := Option.bind_eq_some.1 h
  have hb := vecGet_some_bounds _ _ _ hw
  unfold vecGet at hw
  rw [if_neg (by omega)] at hw
  unfold vecSet at hset
  split at hset
  · have e : words' = words.set idx.toNat { w with details := w.details ++ [d] } := by
      simpa using hset.symm
    rw [e]
    exact map_set_same _ _ _ w _ hw rfl
  · simp at hset

theorem fillDetails_frame (r : ModelRunner) (path : List Int) (T : Int) :
    ∀ (targets : List TargetMap) (i : Int) (words words' : List WordAnalysis),
      fillDetails r path T targets i words = some words' →
      words'.map (fun w => (w.word, w.clean_word, w.raw_ipa, w.phonemes)) =
        words.map (fun w => (w.word, w.clean_word, w.raw_ipa, w.phonemes)) := by
  intro targets
  induction targets with
  | nil =>
    intro i words words' h
    simp only [fillDetails, Option.some.injEq] at h
    rw [h]
  | cons tg rest ih =>
    intro i words words' h
    simp only [fillDetails, Option.bind_eq_bind] at h
    obtain ⟨d, _, h1⟩ := Option.bind_eq_some.1 h
    obtain ⟨w1, hp, h2⟩ := Option.bind_eq_some.1 h1
    rw [ih _ _ _ h2, pushDetail_frame _ _ _ _ hp]

theorem clearedWords_frame (ws : List WordAnalysis) :
    (clearedWords ws).map (fun w => (w.word, w.clean_word, w.raw_ipa, w.phonemes)) =
      ws.map (fun w => (w.word, w.clean_word, w.raw_ipa, w.phonemes)) := by
  simp [clearedWords, Function.comp]

theorem scoreWord_frame (ws : List WordAnalysis) :
    (ws.map scoreWord).map (fun w => (w.word, w.clean_word, w.raw_ipa, w.phonemes)) =
      ws.map (fun w => (w.word, w.clean_word, w.raw_ipa, w.phonemes)) := by
  rw [List.map_map]
  apply List.map_congr_left
  intro w _
  obtain ⟨h1, h2, h3, h4, _⟩ := scoreWord_fields w
  simp [Function.comp, h1, h2, h3, h4]

theorem flatTargets_nil (r : ModelRunner) : flatTargets r [] = [] := rfl

theorem alignPath_short (r : ModelRunner) (hwf : r.WellFormed) (flat : List TargetMap)
    (blank_idx : Int) (hT : 1 ≤ r.time_steps) (hTn : r.time_steps < flat.length) :
    alignPath r flat blank_idx = some none ∧
      ∃ tab, viterbiForward r (buildExtendedStates flat blank_idx) blank_idx r.time_steps
          (2 * flat.length + 1) = some tab ∧
        dpAt tab.1 (2 * flat.length + 1) (r.time_steps - 1) (2 * flat.length) ≤ NEG_INF ∧
        dpAt tab.1 (2 * flat.length + 1) (r.time_steps - 1) (2 * flat.length - 1) ≤ NEG_INF := by
  have hflat : flat ≠ [] := by
    intro e; rw [e] at hTn; simp at hTn; omega
  obtain ⟨tab, hfw, inv, hcase⟩ := alignPath_spec r hwf flat blank_idx hT hflat
  rcases hcase with ⟨ha, hb, hn⟩ | ⟨path, cur0, hp, hcur, hm1, hm2, hspec⟩
  · exact ⟨hn, tab, hfw, ha, hb⟩
  · exfalso
    have hadm := decoded_admissible r _ blank_idx r.time_steps (2 * flat.length + 1) cur0 tab
      inv path hspec hT (by rcases hcur with e | e <;> [left; right] <;> omega)
    have := targets_le_frames path r.time_steps flat.length (by omega)
      (fun i hi => admissible_hits_target flat blank_idx _ path hadm hT i (by omega)
        (by exact_mod_cast hi))
    omega

theorem tokenizeStep_some (vocab : List (List Nat × Int)) (clean_str : List Nat) (i L : Nat)
    (hf : findMatch vocab clean_str i (min 8 (clean_str.length - i)) = some L) :
    tokenizeStep vocab clean_str i = (i + L, [substr clean_str i L]) := by
  have hm : (if i + 8 > clean_str.length then clean_str.length - i else 8)
      = min 8 (clean_str.length - i) := by
    split_ifs <;> omega
  simp only [tokenizeStep, hm, hf]

theorem tokenizeStep_none (vocab : List (List Nat × Int)) (clean_str : List Nat) (i : Nat)
    (hf : findMatch vocab clean_str i (min 8 (clean_str.length - i)) = none) :
    tokenizeStep vocab clean_str i = (i + skipCharLen (clean_str.getD i 0), []) := by
  have hm : (if i + 8 > clean_str.length then clean_str.length - i else 8)
      = min 8 (clean_str.length - i) := by
    split_ifs <;> omega
  simp only [tokenizeStep, hm, hf]

theorem tokenizeLoop_step (vocab : List (List Nat × Int)) (clean_str : List Nat)
    (fuel i : Nat) (tokens : List (List Nat)) (hi : i < clean_str.length) :
    tokenizeLoop vocab clean_str (fuel + 1) i tokens =
      tokenizeLoop vocab clean_str fuel (tokenizeStep vocab clean_str i).1
        (tokens ++ (tokenizeStep vocab clean_str i).2) := by
  cases hf : findMatch vocab clean_str i (min 8 (clean_str.length - i)) with
  | none =>
    rw [tokenizeLoop_step_none _ _ _ _ _ hi hf, tokenizeStep_none _ _ _ hf]
    simp
  | some L =>
    rw [tokenizeLoop_step_some _ _ _ _ _ _ hi hf, tokenizeStep_some _ _ _ _ hf]

theorem tokenizeStep_advances (vocab : List (List Nat × Int)) (clean_str : List Nat)
    (i : Nat) :
    i < (tokenizeStep vocab clean_str i).1 ∧ (tokenizeStep vocab clean_str i).2.length ≤ 1 := by
  cases hf : findMatch vocab clean_str i (min 8 (clean_str.length - i)) with
  | none =>
    rw [tokenizeStep_none _ _ _ hf]
    have := skipCharLen_pos (clean_str.getD i 0)
    exact ⟨by show i < i + _; omega, by simp⟩
  | some L =>
    rw [tokenizeStep_some _ _ _ _ hf]
    obtain ⟨h1, _⟩ := findMatch_some _ _ _ _ _ hf
    exact ⟨by show i < i + _; omega, by simp⟩

theorem tokenizeLoop_fuel (vocab : List (List Nat × Int)) (clean_str : List Nat) :
    ∀ (fuel1 fuel2 i : Nat) (tokens : List (List Nat)),
      clean_str.length ≤ i + fuel1 → clean_str.length ≤ i + fuel2 →
      tokenizeLoop vocab clean_str fuel1 i tokens =
        tokenizeLoop vocab clean_str fuel2 i tokens := by
  intro fuel1
  induction fuel1 with
  | zero =>
    intro fuel2 i tokens h1 h2
    rw [tokenizeLoop_done _ _ _ _ _ (by omega), tokenizeLoop_done _ _ _ _ _ (by omega)]
  | succ n ih =>
    intro fuel2 i tokens h1 h2
    by_cases hi : i < clean_str.length
    · obtain ⟨m, rfl⟩ : ∃ m, fuel2 = m + 1 := ⟨fuel2 - 1, by omega⟩
      have := (tokenizeStep_advances vocab clean_str i).1
      rw [tokenizeLoop_step _ _ _ _ _ hi, tokenizeLoop_step _ _ _ _ _ hi]
      exact ih _ _ _ (by omega) (by omega)
    · rw [tokenizeLoop_done _ _ _ _ _ (by omega), tokenizeLoop_done _ _ _ _ _ (by omega)]

theorem tokenizeLoop_count (vocab : List (List Nat × Int)) (clean_str : List Nat) :
    ∀ (fuel i : Nat) (tokens out : List (List Nat)),
      tokenizeLoop vocab clean_str fuel i tokens = some out →
      out.length ≤ tokens.length + (clean_str.length - i) := by
  intro fuel
  induction fuel with
  | zero =>
    intro i tokens out h
    simp only [tokenizeLoop] at h
    split at h
    · simp at h
    · have : tokens = out := by simpa using h
      subst this; omega
  | succ n ih =>
    intro i tokens out h
    by_cases hi : i < clean_str.length
    · rw [tokenizeLoop_step _ _ _ _ _ hi] at h
      obtain ⟨h1, h2⟩ := tokenizeStep_advances vocab clean_str i
      have := ih _ _ _ h
      rw [List.length_append] at this
      omega
    · rw [tokenizeLoop_done _ _ _ _ _ (by omega)] at h
      have : tokens = out := by simpa using h
      subst this; omega

theorem preCleanLoop_fuel (raw_ipa : List Nat) :
    ∀ (fuel1 fuel2 i : Nat) (clean_str : List Nat),
      raw_ipa.length ≤ i + fuel1 → raw_ipa.length ≤ i + fuel2 →
      preCleanLoop raw_ipa fuel1 i clean_str = preCleanLoop raw_ipa fuel2 i clean_str := by
  intro fuel1
  induction fuel1 with
  | zero =>
    intro fuel2 i acc h1 h2
    rw [preCleanLoop_done _ _ _ _ (by omega), preCleanLoop_done _ _ _ _ (by omega)]
  | succ n ih =>
    intro fuel2 i acc h1 h2
    by_cases hi : i < raw_ipa.length
    · obtain ⟨m, rfl⟩ : ∃ m, fuel2 = m + 1 := ⟨fuel2 - 1, by omega⟩
      have := cleanCharLen_pos (raw_ipa.getD i 0)
      simp only [preCleanLoop, if_pos hi]
      by_cases hb : i + cleanCharLen (raw_ipa.getD i 0) > raw_ipa.length
      · rw [if_pos hb, if_pos hb]
      · rw [if_neg hb, if_neg hb]
        exact ih _ _ _ (by omega) (by omega)
    · rw [preCleanLoop_done _ _ _ _ (by omega), preCleanLoop_done _ _ _ _ (by omega)]

theorem preCleanLoop_length (raw_ipa : List Nat) :
    ∀ (fuel i : Nat) (clean_str out : List Nat),
      preCleanLoop raw_ipa fuel i clean_str = some out →
      out.length ≤ clean_str.length + (raw_ipa.length - i) := by
  intro fuel
  induction fuel with
  | zero =>
    intro i acc out h
    simp only [preCleanLoop] at h
    split at h
    · simp at h
    · have : acc = out := by simpa using h
      subst this; omega
  | succ n ih =>
    intro i acc out h
    simp only [preCleanLoop] at h
    by_cases hi : i < raw_ipa.length
    · rw [if_pos hi] at h
      by_cases hb : i + cleanCharLen (raw_ipa.getD i 0) > raw_ipa.length
      · rw [if_pos hb] at h
        have : acc = out := by simpa using h
        subst this; omega
      · rw [if_neg hb] at h
        have hpos := cleanCharLen_pos (raw_ipa.getD i 0)
        have := ih _ _ _ h
        have hsub : (substr raw_ipa i (cleanCharLen (raw_ipa.getD i 0))).length
            = cleanCharLen (raw_ipa.getD i 0) := substr_length _ _ _ (by omega)
        by_cases hg : isIgnoredChar (substr raw_ipa i (cleanCharLen (raw_ipa.getD i 0))) = true
        · simp only [hg, Bool.not_true, Bool.false_eq_true, if_false] at this
          omega
        · have hg' : isIgnoredChar (substr raw_ipa i (cleanCharLen (raw_ipa.getD i 0)))
              = false := Bool.eq_false_iff.mpr hg
          simp only [hg', Bool.not_false, if_true, List.length_append, hsub] at this
          omega
    · rw [if_neg hi] at h
      have : acc = out := by simpa using h
      subst this; omega

set_option maxRecDepth 100000 in
theorem skipCharLen_table : ∀ b, b < 256 → skipCharLen b =
    if b < 192 then 1 else if b < 224 then 2 else if b < 240 then 3 else if b < 248 then 4
    else 1 := by
  decide

theorem utf8EncodeCodepoint_head_skip (c : Char) :
    ∃ b rest, utf8EncodeCodepoint c.toNat = b :: rest ∧ skipCharLen b = rest.length + 1 ∧
      cleanCharLen b = rest.length + 1 := by
  have hlt := char_toNat_lt c
  unfold utf8EncodeCodepoint
  split_ifs with h1 h2 h3
  · exact ⟨_, _, rfl, by rw [skipCharLen_table _ (by omega)]; simp; omega,
      by rw [cleanCharLen_table _ (by omega)]; simp; omega⟩
  · refine ⟨_, _, rfl, ?_, ?_⟩
    · rw [skipCharLen_table _ (by omega), if_neg (by omega), if_pos (by omega)]; rfl
    · rw [cleanCharLen_table _ (by omega), if_neg (by omega), if_pos (by omega)]; rfl
  · refine ⟨_, _, rfl, ?_, ?_⟩
    · rw [skipCharLen_table _ (by omega), if_neg (by omega), if_neg (by omega),
        if_pos (by omega)]; rfl
    · rw [cleanCharLen_table _ (by omega), if_neg (by omega), if_neg (by omega),
        if_pos (by omega)]; rfl
  · refine ⟨_, _, rfl, ?_, ?_⟩
    · rw [skipCharLen_table _ (by omega), if_neg (by omega), if_neg (by omega),
        if_neg (by omega), if_pos (by omega)]; rfl
    · rw [cleanCharLen_table _ (by omega), if_neg (by omega), if_neg (by omega),
        if_neg (by omega), if_pos (by omega)]; rfl

theorem utf8_prefix_boundary : ∀ (ks rest : List Char), utf8Encode ks <+: utf8Encode rest →
    ∃ m, m ≤ rest.length ∧ (utf8Encode (rest.take m)).length = (utf8Encode ks).length := by
  intro ks
  induction ks with
  | nil => intro rest _; exact ⟨0, by omega, by simp [utf8Encode]⟩
  | cons k ks ih =>
    intro rest h
    obtain ⟨b, kr, hk, _, hkl⟩ := utf8EncodeCodepoint_head_skip k
    cases rest with
    | nil =>
      rw [utf8Encode_cons, hk] at h
      simp [utf8Encode] at h
    | cons c rest =>
      obtain ⟨b', cr, hc, _, hcl⟩ := utf8EncodeCodepoint_head_skip c
      rw [utf8Encode_cons, utf8Encode_cons, hk, hc] at h
      obtain ⟨t, ht⟩ := h
      have hb : b = b' := by
        have := congrArg List.head? ht
        simpa using this
      subst hb
      have hlen : (b :: kr).length = (b :: cr).length := by
        simp only [List.length_cons]; omega
      have ht' : (b :: kr) ++ (utf8Encode ks ++ t) = (b :: cr) ++ utf8Encode rest := by
        simpa using ht
      obtain ⟨e1, e2⟩ := List.append_inj ht' hlen
      obtain ⟨m, hm, hml⟩ := ih rest ⟨t, e2⟩
      refine ⟨m + 1, by simp; omega, ?_⟩
      simp only [List.take_succ_cons, utf8Encode_cons, List.length_append, hk, hc, hml, hlen]

theorem take_add_drop {α : Type} (l : List α) (n m : Nat) :
    l.take (n + m) = l.take n ++ (l.drop n).take m := by
  rw [List.take_add]

theorem scanOffsets_boundary (vocab : List (List Nat × Int)) (cs : List Char)
    (hkeys : ∀ kv ∈ vocab, ∃ ks : List Char, kv.1 = utf8Encode ks) :
    ∀ (fuel n : Nat), n ≤ cs.length →
      ∀ o ∈ scanOffsets vocab (utf8Encode cs) fuel (utf8Encode (cs.take n)).length,
        IsBoundary cs o := by
  intro fuel
  induction fuel with
  | zero =>
    intro n hn o ho
    simp only [scanOffsets, List.mem_singleton] at ho
    exact ⟨n, hn, ho.symm⟩
  | succ f ih =>
    intro n hn o ho
    simp only [scanOffsets] at ho
    by_cases hi : (utf8Encode (cs.take n)).length < (utf8Encode cs).length
    · rw [if_pos hi] at ho
      rcases List.mem_cons.1 ho with ho | ho
      · exact ⟨n, hn, ho.symm⟩
      · -- the next offset is again a boundary
        have hsplit : utf8Encode cs = utf8Encode (cs.take n) ++ utf8Encode (cs.drop n) := by
          rw [← utf8Encode_append, List.take_append_drop]
        obtain ⟨c, rest, hrest⟩ : ∃ c rest, cs.drop n = c :: rest := by
          cases hd : cs.drop n with
          | nil =>
            rw [hsplit, hd] at hi
            simp [utf8Encode] at hi
          | cons c rest => exact ⟨c, rest, rfl⟩
        have hnext : ∃ m, m ≤ (cs.drop n).length ∧
            (tokenizeStep vocab (utf8Encode cs) (utf8Encode (cs.take n)).length).1 =
              (utf8Encode (cs.take n)).length + (utf8Encode ((cs.drop n).take m)).length := by
          cases hf : findMatch vocab (utf8Encode cs) (utf8Encode (cs.take n)).length
              (min 8 ((utf8Encode cs).length - (utf8Encode (cs.take n)).length)) with
          | none =>
            rw [tokenizeStep_none _ _ _ hf]
            obtain ⟨b, cr, hc, hsk, _⟩ := utf8EncodeCodepoint_head_skip c
            refine ⟨1, by rw [hrest]; simp, ?_⟩
            have hget : (utf8Encode cs).getD (utf8Encode (cs.take n)).length 0 = b := by
              rw [hsplit, hrest, utf8Encode_cons, hc, List.getD_eq_getElem?_getD,
                List.getElem?_append_right (le_refl _)]
              simp
            rw [hget, hsk, hrest]
            simp [utf8Encode, hc]
          | some L =>
            rw [tokenizeStep_some _ _ _ _ hf]
            obtain ⟨hL1, hL2, hL3, _⟩ := findMatch_some _ _ _ _ _ hf
            obtain ⟨id, hid⟩ := Option.isSome_iff_exists.1 hL3
            obtain ⟨ks, hks⟩ := hkeys _ (lookup_mem _ _ _ hid)
            simp only at hks
            have hlen : (substr (utf8Encode cs) (utf8Encode (cs.take n)).length L).length = L :=
              substr_length _ _ _ (by omega)
            have hpre : utf8Encode ks <+: utf8Encode (cs.drop n) := by
              rw [← hks]
              have := (prefix_drop_iff (substr (utf8Encode cs) (utf8Encode (cs.take n)).length L)
                (utf8Encode cs) (utf8Encode (cs.take n)).length).2
                ⟨by rw [hlen]; omega, by rw [hlen]⟩
              have hdrop : (utf8Encode cs).drop (utf8Encode (cs.take n)).length =
                  utf8Encode (cs.drop n) := by
                conv_lhs => rw [hsplit]
                simp
              rw [← hdrop]
              exact this
            obtain ⟨m, hm, hml⟩ := utf8_prefix_boundary ks (cs.drop n) hpre
            refine ⟨m, hm, ?_⟩
            show (utf8Encode (cs.take n)).length + L = _
            rw [hml, ← hks, hlen]
        obtain ⟨m, hm, hstep⟩ := hnext
        have hn' : n + m ≤ cs.length := by
          rw [List.length_drop] at hm; omega
        have hoff : (tokenizeStep vocab (utf8Encode cs) (utf8Encode (cs.take n)).length).1 =
            (utf8Encode (cs.take (n + m))).length := by
          rw [hstep, take_add_drop, utf8Encode_append, List.length_append]
        rw [hoff] at ho
        exact ih (n + m) hn' o ho
    · rw [if_neg hi] at ho
      simp only [List.mem_singleton] at ho
      exact ⟨n, hn, ho.symm⟩

theorem scanOffsets_last (vocab : List (List Nat × Int)) (clean_str : List Nat) :
    ∀ (fuel i : Nat), clean_str.length ≤ i + fuel →
      ∃ j, j ∈ scanOffsets vocab clean_str fuel i ∧
        (scanOffsets vocab clean_str fuel i).getLast? = some j ∧ clean_str.length ≤ j := by
  intro fuel
  induction fuel with
  | zero => intro i h; exact ⟨i, by simp [scanOffsets], by simp [scanOffsets], by omega⟩
  | succ f ih =>
    intro i h
    simp only [scanOffsets]
    by_cases hi : i < clean_str.length
    · rw [if_pos hi]
      have := (tokenizeStep_advances vocab clean_str i).1
      obtain ⟨j, hj, hl, hge⟩ := ih (tokenizeStep vocab clean_str i).1 (by omega)
      refine ⟨j, List.mem_cons_of_mem _ hj, ?_, hge⟩
      rw [List.getLast?_cons, hl]
      rfl
    · rw [if_neg hi]
      exact ⟨i, by simp, by simp, by omega⟩

theorem calculateGOP_no_frames (r : ModelRunner) (ws : List WordAnalysis) (blank_idx : Int)
    (hflat : flatTargets r ws ≠ []) (hT : r.time_steps = 0) :
    (∀ x : ℚ, vecSet (List.replicate
        (r.time_steps * (2 * (flatTargets r ws).length + 1)).toNat NEG_INF) 0 x = none) ∧
      calculateGOP r ws blank_idx = none := by
  constructor
  · intro x
    rw [hT]
    simp [vecSet]
  · have hws : ws ≠ [] := by
      intro e; rw [e] at hflat; exact hflat (flatTargets_nil r)
    have ha : alignPath r (flatTargets r ws) blank_idx = none := by
      cases h : alignPath r (flatTargets r ws) blank_idx with
      | none => rfl
      | some res =>
        have := alignPath_some_pos r _ blank_idx res h
        omega
    rw [calculateGOP_eq, if_neg hws, if_neg hflat, ha]
    rfl

/-! ## The claims -/

/-- C1 (Viterbi optimality).  Let the emission be such that every prefix of every
admissible CTC path has total log-probability `> -1e9`.  When `calculateGOP` succeeds,
the decoded path is an admissible path (it starts in state 0 or 1, ends in state `S-2` or
`S-1` and moves only by stay, step or skip-blank) and its total score
`sum_t log_prob(t, states[path[t]])` is the maximum of that sum over all admissible
paths. -/
theorem calculateGOP_viterbi_optimal (r : ModelRunner) (ws ws' : List WordAnalysis)
    (blank_idx : Int) (path : List Int) (hwf : r.WellFormed)
    (hfinite : ∀ q, Admissible (buildExtendedStates (flatTargets r ws) blank_idx) blank_idx
        r.time_steps (2 * (flatTargets r ws).length + 1) q →
      ∀ k : Nat, 1 ≤ k → (k : Int) ≤ r.time_steps →
        prefixScore r (buildExtendedStates (flatTargets r ws) blank_idx) q k > NEG_INF)
    (h : calculateGOP r ws blank_idx = some (true, ws'))
    (hpath : alignPath r (flatTargets r ws) blank_idx = some (some path)) :
    Admissible (buildExtendedStates (flatTargets r ws) blank_idx) blank_idx r.time_steps
        (2 * (flatTargets r ws).length + 1) path ∧
      ∀ q, Admissible (buildExtendedStates (flatTargets r ws) blank_idx) blank_idx
          r.time_steps (2 * (flatTargets r ws).length + 1) q →
        pathScore r (buildExtendedStates (flatTargets r ws) blank_idx) q ≤
          pathScore r (buildExtendedStates (flatTargets r ws) blank_idx) path := by
  obtain ⟨path', tab, cur0, hp, _, hT, _, inv, hspec, hm1, hm2, hadm⟩ :=
    success_facts r hwf ws ws' blank_idx h
  have e : path' = path := by rw [hp] at hpath; simpa using hpath
  subst e
  refine ⟨hadm, fun q hq => ?_⟩
  exact decoded_optimal r _ blank_idx _ _ cur0 tab inv path' hspec hT hm1 hm2 q hq (hfinite q hq)

/-- Witness of C1 on `pairRunner`, where the admissible paths are `[0,1]`, `[1,1]` and
`[1,2]`. -/
theorem calculateGOP_viterbi_optimal_witness :
    pairRunner.WellFormed ∧ calculateGOP pairRunner lowWords 0 = some (true, pairResult) ∧
      alignPath pairRunner (flatTargets pairRunner lowWords) 0 = some (some [1, 2]) ∧
      Admissible (buildExtendedStates (flatTargets pairRunner lowWords) 0) 0
        pairRunner.time_steps (2 * (flatTargets pairRunner lowWords).length + 1) [1, 2] ∧
      ∀ q, Admissible (buildExtendedStates (flatTargets pairRunner lowWords) 0) 0
          pairRunner.time_steps (2 * (flatTargets pairRunner lowWords).length + 1) q →
        pathScore pairRunner (buildExtendedStates (flatTargets pairRunner lowWords) 0) q ≤
          pathScore pairRunner (buildExtendedStates (flatTargets pairRunner lowWords) 0) [1, 2] :=
  ⟨by decide, by decide!, by decide!,
    calculateGOP_viterbi_optimal pairRunner lowWords pairResult 0 [1, 2] (by decide)
      pairRunner_prefixes (by decide!) (by decide!)⟩

/-- C2 (hard failure).  For a well-formed `T x V` emission with `T ≥ 1` and a vocabulary
with non-negative ids, `calculateGOP` returns a flag, and the flag is `false` exactly when
no phoneme of any word is a key of the vocabulary (an empty word list included) or both
terminal Viterbi scores `dp[T-1][S-1]` and `dp[T-1][S-2]` are `≤ -1e9`; otherwise it is
`true`. -/
theorem calculateGOP_false_iff (r : ModelRunner) (ws : List WordAnalysis) (blank_idx : Int)
    (hwf : r.WellFormed) (hv : VocabValid r) (hT : 1 ≤ r.time_steps) :
    ∃ (flag : Bool) (ws' : List WordAnalysis), calculateGOP r ws blank_idx = some (flag, ws') ∧
      (flag = false ↔
        ((∀ w ∈ ws, ∀ p ∈ w.phonemes, r.token_to_id.lookup p = none) ∨
          ∃ tab, viterbiForward r (buildExtendedStates (flatTargets r ws) blank_idx) blank_idx
              r.time_steps (2 * (flatTargets r ws).length + 1) = some tab ∧
            dpAt tab.1 (2 * (flatTargets r ws).length + 1) (r.time_steps - 1)
              (2 * (flatTargets r ws).length + 1 - 1) ≤ NEG_INF ∧
            dpAt tab.1 (2 * (flatTargets r ws).length + 1) (r.time_steps - 1)
              (2 * (flatTargets r ws).length + 1 - 2) ≤ NEG_INF)) := by
  have hnil := flatTargets_eq_nil_iff r hv ws
  rw [calculateGOP_eq]
  by_cases h1 : ws = []
  · subst h1
    exact ⟨false, [], by simp, by simp⟩
  · rw [if_neg h1]
    by_cases h2 : flatTargets r ws = []
    · rw [if_pos h2]
      exact ⟨false, _, rfl, ⟨fun _ => Or.inl (hnil.mp h2), fun _ => rfl⟩⟩
    · rw [if_neg h2]
      have hno : ¬ ∀ w ∈ ws, ∀ p ∈ w.phonemes, r.token_to_id.lookup p = none :=
        fun hc => h2 (hnil.mpr hc)
      have e1 : (2 * ((flatTargets r ws).length : Int) + 1 - 1) = 2 * (flatTargets r ws).length := by
        ring
      have e2 : (2 * ((flatTargets r ws).length : Int) + 1 - 2) =
          2 * (flatTargets r ws).length - 1 := by ring
      rw [e1, e2]
      obtain ⟨tab, hfw, inv, hcase⟩ := alignPath_spec r hwf (flatTargets r ws) blank_idx hT h2
      rcases hcase with ⟨ha, hb, hn⟩ | ⟨path, cur0, hp, hcur, hm1, hm2, hspec⟩
      · rw [hn]
        exact ⟨false, _, rfl, by simp only [true_iff]; exact Or.inr ⟨tab, hfw, ha, hb⟩⟩
      · rw [hp]
        have hfill := fill_spec r hwf path r.time_steps hspec.len ws [] 0
        simp only [List.length_nil, Nat.cast_zero, List.nil_append] at hfill
        have hfill' : fillDetails r path r.time_steps (flatTargets r ws) 0 (clearedWords ws) =
            some (filledWords r path r.time_steps ws 0 0) := hfill
        simp only [Option.some_bind, hfill']
        refine ⟨true, _, rfl, ?_⟩
        simp only [Bool.true_eq_false, false_iff, not_or]
        refine ⟨hno, ?_⟩
        rintro ⟨tab', hfw', ha, hb⟩
        rw [hfw] at hfw'
        have e : tab = tab' := by simpa using hfw'
        subst e
        have hfin := (hspec.valid (r.time_steps - 1) (by omega) (by omega)).2.2
        rw [hspec.last] at hfin
        rcases hcur with e | e
        · rw [e] at hfin; exact absurd ha (not_le.mpr hfin)
        · rw [e] at hfin; exact absurd hb (not_le.mpr hfin)

/-- Witness of C2 on `sampleRunner`. -/
theorem calculateGOP_false_iff_witness :
    sampleRunner.WellFormed ∧ VocabValid sampleRunner ∧ 1 ≤ sampleRunner.time_steps ∧
      ∃ (flag : Bool) (ws' : List WordAnalysis),
        calculateGOP sampleRunner sampleWords 0 = some (flag, ws') ∧
        (flag = false ↔
          ((∀ w ∈ sampleWords, ∀ p ∈ w.phonemes, sampleRunner.token_to_id.lookup p = none) ∨
            ∃ tab, viterbiForward sampleRunner
                (buildExtendedStates (flatTargets sampleRunner sampleWords) 0) 0
                sampleRunner.time_steps (2 * (flatTargets sampleRunner sampleWords).length + 1) =
                  some tab ∧
              dpAt tab.1 (2 * (flatTargets sampleRunner sampleWords).length + 1)
                (sampleRunner.time_steps - 1)
                (2 * (flatTargets sampleRunner sampleWords).length + 1 - 1) ≤ NEG_INF ∧
              dpAt tab.1 (2 * (flatTargets sampleRunner sampleWords).length + 1)
                (sampleRunner.time_steps - 1)
                (2 * (flatTargets sampleRunner sampleWords).length + 1 - 2) ≤ NEG_INF)) :=
  ⟨by decide, by decide, by decide,
    calculateGOP_false_iff sampleRunner sampleWords 0 (by decide) (by decide) (by decide)⟩

/-- C3 (score aggregation).  On success, for every flat target `i` whose frame set
`F = { t : path[t] = 2i+1 }` is non-empty, the detail written for it (the `i`-th detail in
reading order) has `start_frame = min F`, `end_frame = max F` and
`score = (sum over t in F of log_prob(t, target.token_id)) / |F|`. -/
theorem calculateGOP_detail_span (r : ModelRunner) (ws ws' : List WordAnalysis)
    (blank_idx : Int) (path : List Int) (hwf : r.WellFormed)
    (h : calculateGOP r ws blank_idx = some (true, ws'))
    (hpath : alignPath r (flatTargets r ws) blank_idx = some (some path))
    (i : Nat) (tg : TargetMap) (hi : (flatTargets r ws)[i]? = some tg)
    (hF : (framesBefore path (2 * (i : Int) + 1) r.time_steps).Nonempty) :
    ∃ d, ((ws'.map (fun w => w.details)).flatten)[i]? = some d ∧
      d.start_frame = (framesBefore path (2 * (i : Int) + 1) r.time_steps).min' hF ∧
      d.end_frame = (framesBefore path (2 * (i : Int) + 1) r.time_steps).max' hF ∧
      d.score =
        (∑ t in framesBefore path (2 * (i : Int) + 1) r.time_steps, logProb r t tg.token_id) /
          ((framesBefore path (2 * (i : Int) + 1) r.time_steps).card : ℚ) := by
  obtain ⟨path', hp, _, _, hall⟩ := success_details r hwf ws ws' blank_idx h
  have e : path' = path := by rw [hp] at hpath; simpa using hpath
  subst e
  obtain ⟨d, hd, hs, _⟩ := hall i tg hi
  have e : (i : Int) * 2 + 1 = 2 * (i : Int) + 1 := by ring
  have hsome := hs.some
  rw [e] at hsome
  obtain ⟨h1, h2, h3, h4⟩ := hsome hF
  refine ⟨d, hd, ?_, ?_, h1⟩
  · exact le_antisymm (Finset.le_min' _ hF _ (fun u hu => (h4 u hu).1)) (Finset.min'_le _ _ h2)
  · exact le_antisymm (Finset.le_max' _ _ h3) (Finset.max'_le _ hF _ (fun u hu => (h4 u hu).2))

/-- Witness of C3 on `sampleRunner`: target `b` (flat index 1) holds frames 2 to 4. -/
theorem calculateGOP_detail_span_witness :
    sampleRunner.WellFormed ∧
      calculateGOP sampleRunner sampleWords 0 = some (true, sampleResult) ∧
      alignPath sampleRunner (flatTargets sampleRunner sampleWords) 0 =
        some (some [1, 1, 3, 3, 3]) ∧
      (flatTargets sampleRunner sampleWords)[1]? = some (TargetMap.mk 2 0 2 "b") ∧
      ∃ hF : (framesBefore [1, 1, 3, 3, 3] (2 * ((1 : Nat) : Int) + 1)
          sampleRunner.time_steps).Nonempty,
        ∃ d, ((sampleResult.map (fun w => w.details)).flatten)[1]? = some d ∧
          d.start_frame = (framesBefore [1, 1, 3, 3, 3] (2 * ((1 : Nat) : Int) + 1)
            sampleRunner.time_steps).min' hF ∧
          d.end_frame = (framesBefore [1, 1, 3, 3, 3] (2 * ((1 : Nat) : Int) + 1)
            sampleRunner.time_steps).max' hF ∧
          d.score =
            (∑ t in framesBefore [1, 1, 3, 3, 3] (2 * ((1 : Nat) : Int) + 1)
                sampleRunner.time_steps, logProb sampleRunner t (TargetMap.mk 2 0 2 "b").token_id) /
              ((framesBefore [1, 1, 3, 3, 3] (2 * ((1 : Nat) : Int) + 1)
                sampleRunner.time_steps).card : ℚ) :=
  ⟨by decide, by decide!, by decide!, by decide, ⟨2, by decide!⟩,
    calculateGOP_detail_span sampleRunner sampleWords sampleResult 0 [1, 1, 3, 3, 3] (by decide)
      (by decide!) (by decide!) 1 (TargetMap.mk 2 0 2 "b") (by decide) ⟨2, by decide!⟩⟩

/-- C4 (word score).  On success, the `word_score` of every word is the arithmetic mean of
the scores of those of its details whose score is `> -9.0`, and it is `-10.0` when no
detail qualifies or `details` is empty; in particular it is `-10.0` for a word whose
phoneme list is empty. -/
theorem calculateGOP_word_score (r : ModelRunner) (ws ws' : List WordAnalysis)
    (blank_idx : Int) (hwf : r.WellFormed)
    (h : calculateGOP r ws blank_idx = some (true, ws')) (w : WordAnalysis) (hw : w ∈ ws') :
    (w.word_score =
        if w.details.filter (fun d => decide (d.score > -9)) = [] then -10
        else ((w.details.filter (fun d => decide (d.score > -9))).map (fun d => d.score)).sum /
          ((w.details.filter (fun d => decide (d.score > -9))).length : ℚ)) ∧
      (w.details = [] → w.word_score = -10) ∧
      (w.phonemes = [] → w.word_score = -10) := by
  obtain ⟨path, _, _, _, hws, _⟩ := success_facts r hwf ws ws' blank_idx h
  rw [hws] at hw
  revert w
  apply filledWords_forall
  intro w w_i i
  have hf := scoreWord_fields
    { w with details := detailsOf r path r.time_steps (wordTargets r w_i w) i, word_score := 0 }
  have hsc := scoreWord_score
    { w with details := detailsOf r path r.time_steps (wordTargets r w_i w) i, word_score := 0 }
  rw [hf.2.2.2.2, hf.2.2.2.1]
  refine ⟨hsc, fun he => ?_, fun he => ?_⟩
  · rw [hsc]; simp only at he ⊢; rw [he]; simp
  · have e : wordTargets r w_i w = [] := by
      simp only at he
      unfold wordTargets; rw [he]; rfl
    rw [hsc]; simp only; rw [e]; simp [detailsOf]

/-- Witness of C4 on `sampleRunner`, for the word `B.`. -/
theorem calculateGOP_word_score_witness :
    sampleRunner.WellFormed ∧
      calculateGOP sampleRunner sampleWords 0 = some (true, sampleResult) ∧
      WordAnalysis.mk "B." "B" "b" ["b"] [PhonemeDetail.mk "b" 2 (-1) true 2 4] (-1) ∈
        sampleResult ∧
      ((WordAnalysis.mk "B." "B" "b" ["b"] [PhonemeDetail.mk "b" 2 (-1) true 2 4] (-1)).word_score =
        if (WordAnalysis.mk "B." "B" "b" ["b"] [PhonemeDetail.mk "b" 2 (-1) true 2 4]
            (-1)).details.filter (fun d => decide (d.score > -9)) = [] then -10
        else (((WordAnalysis.mk "B." "B" "b" ["b"] [PhonemeDetail.mk "b" 2 (-1) true 2 4]
            (-1)).details.filter (fun d => decide (d.score > -9))).map (fun d => d.score)).sum /
          (((WordAnalysis.mk "B." "B" "b" ["b"] [PhonemeDetail.mk "b" 2 (-1) true 2 4]
            (-1)).details.filter (fun d => decide (d.score > -9))).length : ℚ)) :=
  ⟨by decide, by decide!, by decide,
    (calculateGOP_word_score sampleRunner sampleWords sampleResult 0 (by decide) (by decide!)
      (WordAnalysis.mk "B." "B" "b" ["b"] [PhonemeDetail.mk "b" 2 (-1) true 2 4] (-1))
      (by decide)).1⟩

/-- C5 (flattening and back-mapping).  On success, for every word, whatever details it
held on entry, the sequence of `(ipa, token_id)` of its details is, in order, the sequence
`(phoneme, getTokenId phoneme)` over exactly those of its phonemes that are keys of the
vocabulary.  Hence `details.length ≤ phonemes.length`, and a word whose phonemes are all
out of vocabulary ends with empty details. -/
theorem calculateGOP_details_backmap (r : ModelRunner) (ws ws' : List WordAnalysis)
    (blank_idx : Int) (hwf : r.WellFormed) (hv : VocabValid r)
    (h : calculateGOP r ws blank_idx = some (true, ws'))
    (j : Nat) (w w' : WordAnalysis) (hj : ws[j]? = some w) (hj' : ws'[j]? = some w') :
    ws'.length = ws.length ∧
      w'.details.map (fun d => (d.ipa, d.token_id)) =
        (w.phonemes.filter (fun p => (r.token_to_id.lookup p).isSome)).map
          (fun p => (p, r.getTokenId p)) ∧
      w'.details.length ≤ w.phonemes.length ∧
      ((∀ p ∈ w.phonemes, r.token_to_id.lookup p = none) → w'.details = []) := by
  obtain ⟨path, _, _, _, hws, _, _, _, _, _, _, hadm⟩ := success_facts r hwf ws ws' blank_idx h
  have hfilter : ∀ ps : List String,
      ps.filter (fun p => decide (r.getTokenId p ≠ -1)) =
        ps.filter (fun p => (r.token_to_id.lookup p).isSome) := by
    intro ps
    apply List.filter_congr
    intro p _
    have := getTokenId_eq_neg_one_iff r hv p
    cases hl : r.token_to_id.lookup p with
    | none => simp [this.mpr hl]
    | some id =>
      have hne : r.getTokenId p ≠ -1 := fun hc => by rw [this.mp hc] at hl; simp at hl
      simp [hne]
  have hrel := filledWords_rel r path r.time_steps
    (fun w w' => w'.details.map (fun d => (d.ipa, d.token_id)) =
      (w.phonemes.filter (fun p => (r.token_to_id.lookup p).isSome)).map
        (fun p => (p, r.getTokenId p)))
    (fun w w_i i => by
      simp only
      rw [(scoreWord_fields _).2.2.2.2]
      simp only
      rw [detailsOf_map r hwf path r.time_steps hadm.len, wordTargets, flattenPhonemes_map,
        hfilter])
    ws 0 0
  rw [← hws] at hrel
  obtain ⟨hlen, hidx⟩ := forall₂_getElem? _ _ _ hrel
  have hmap := hidx j w w' hj hj'
  simp only at hmap
  have hlen' := congrArg List.length hmap
  simp only [List.length_map] at hlen'
  refine ⟨hlen, hmap, ?_, fun hall => ?_⟩
  · rw [hlen']; exact List.length_filter_le _ _
  · have hf : w.phonemes.filter (fun p => (r.token_to_id.lookup p).isSome) = [] := by
      apply List.filter_eq_nil_iff.mpr
      intro p hp
      simp [hall p hp]
    rw [hf] at hlen'
    exact List.length_eq_zero.mp (by simpa using hlen')

/-- Witness of C5 on `sampleRunner`, for the word `A,`, which enters with a stale detail. -/
theorem calculateGOP_details_backmap_witness :
    sampleRunner.WellFormed ∧ VocabValid sampleRunner ∧
      calculateGOP sampleRunner sampleWords 0 = some (true, sampleResult) ∧
      sampleWords[0]? =
        some (WordAnalysis.mk "A," "A" "a" ["a"] [PhonemeDetail.mk "x" 7 (-1) true 3 4] (-2)) ∧
      sampleResult[0]? =
        some (WordAnalysis.mk "A," "A" "a" ["a"] [PhonemeDetail.mk "a" 1 (-1) true 0 1] (-1)) ∧
      [PhonemeDetail.mk "a" 1 (-1) true 0 1].map (fun d => (d.ipa, d.token_id)) =
        (["a"].filter (fun p => (sampleRunner.token_to_id.lookup p).isSome)).map
          (fun p => (p, sampleRunner.getTokenId p)) :=
  ⟨by decide, by decide, by decide!, by decide, by decide,
    (calculateGOP_details_backmap sampleRunner sampleWords sampleResult 0 (by decide) (by decide)
      (by decide!) 0
      (WordAnalysis.mk "A," "A" "a" ["a"] [PhonemeDetail.mk "x" 7 (-1) true 3 4] (-2))
      (WordAnalysis.mk "A," "A" "a" ["a"] [PhonemeDetail.mk "a" 1 (-1) true 0 1] (-1))
      (by decide) (by decide)).2.1⟩

/-- C6 (monotone path, bounded step).  Whenever `calculateGOP` succeeds, the decoded path
has one state per frame and satisfies `path[t+1] - path[t] ∈ {0, 1, 2}` for every `t` with
`0 ≤ t < T-1`. -/
theorem calculateGOP_path_step (r : ModelRunner) (ws ws' : List WordAnalysis)
    (blank_idx : Int) (path : List Int) (hwf : r.WellFormed)
    (h : calculateGOP r ws blank_idx = some (true, ws'))
    (hpath : alignPath r (flatTargets r ws) blank_idx = some (some path))
    (t : Int) (ht0 : 0 ≤ t) (ht : t < r.time_steps - 1) :
    (path.length : Int) = r.time_steps ∧
      (pathAt path (t + 1) - pathAt path t = 0 ∨ pathAt path (t + 1) - pathAt path t = 1 ∨
        pathAt path (t + 1) - pathAt path t = 2) := by
  obtain ⟨path', tab, cur0, hp, _, hT, _, inv, hspec, hm1, hm2, hadm⟩ :=
    success_facts r hwf ws ws' blank_idx h
  have e : path' = path := by rw [hp] at hpath; simpa using hpath
  subst e
  refine ⟨hadm.len, ?_⟩
  have hm := hadm.move (t + 1) (by omega) (by omega)
  have e : t + 1 - 1 = t := by ring
  rw [e] at hm
  rcases hm with e | e | ⟨e, _⟩ <;> omega

/-- Witness of C6 on `sampleRunner`: the step from frame 1 to frame 2 of `[1,1,3,3,3]`. -/
theorem calculateGOP_path_step_witness :
    sampleRunner.WellFormed ∧
      calculateGOP sampleRunner sampleWords 0 = some (true, sampleResult) ∧
      alignPath sampleRunner (flatTargets sampleRunner sampleWords) 0 =
        some (some [1, 1, 3, 3, 3]) ∧
      (0 : Int) ≤ 1 ∧ (1 : Int) < sampleRunner.time_steps - 1 ∧
      (([1, 1, 3, 3, 3] : List Int).length : Int) = sampleRunner.time_steps ∧
      (pathAt [1, 1, 3, 3, 3] (1 + 1) - pathAt [1, 1, 3, 3, 3] 1 = 0 ∨
        pathAt [1, 1, 3, 3, 3] (1 + 1) - pathAt [1, 1, 3, 3, 3] 1 = 1 ∨
        pathAt [1, 1, 3, 3, 3] (1 + 1) - pathAt [1, 1, 3, 3, 3] 1 = 2) :=
  ⟨by decide, by decide!, by decide!, by decide, by decide,
    calculateGOP_path_step sampleRunner sampleWords sampleResult 0 [1, 1, 3, 3, 3] (by decide)
      (by decide!) (by decide!) 1 (by decide) (by decide)⟩

/-- C7 (spans in reading order).  Whenever `calculateGOP` succeeds, the details read across
all words in order are one per flat target, and for every adjacent pair `i`, `i+1` they
satisfy `end_frame(i) ≤ start_frame(i+1)`. -/
theorem calculateGOP_spans_ordered (r : ModelRunner) (ws ws' : List WordAnalysis)
    (blank_idx : Int) (hwf : r.WellFormed)
    (h : calculateGOP r ws blank_idx = some (true, ws'))
    (i : Nat) (d e : PhonemeDetail)
    (hd : ((ws'.map (fun w => w.details)).flatten)[i]? = some d)
    (he : ((ws'.map (fun w => w.details)).flatten)[i + 1]? = some e) :
    ((ws'.map (fun w => w.details)).flatten).length = (flatTargets r ws).length ∧
      d.end_frame ≤ e.start_frame := by
  obtain ⟨path, _, hadm, hlen, hall⟩ := success_details r hwf ws ws' blank_idx h
  refine ⟨hlen, ?_⟩
  have h1 : i < (flatTargets r ws).length := by
    rw [← hlen]; exact (List.getElem?_eq_some_iff.mp hd).1
  have h2 : i + 1 < (flatTargets r ws).length := by
    rw [← hlen]; exact (List.getElem?_eq_some_iff.mp he).1
  obtain ⟨d', hd', hsd, hned⟩ := hall i _ (List.getElem?_eq_getElem h1)
  obtain ⟨e', he', hse, hnee⟩ := hall (i + 1) _ (List.getElem?_eq_getElem h2)
  rw [hd] at hd'
  rw [he] at he'
  have e1 : d = d' := by simpa using hd'
  have e2 : e = e' := by simpa using he'
  subst e1; subst e2
  obtain ⟨_, _, hend, _⟩ := hsd.some hned
  obtain ⟨_, hstart, _, _⟩ := hse.some hnee
  obtain ⟨a0, a1, a2⟩ := (mem_framesBefore _ _ _ _).mp hend
  obtain ⟨b0, b1, b2⟩ := (mem_framesBefore _ _ _ _).mp hstart
  by_contra hc
  have := hadm.mono e.start_frame d.end_frame b0 (by omega) a1
  rw [a2, b2] at this
  push_cast at this
  omega

/-- Witness of C7 on `sampleRunner`: the details of `a` and `b` lie in different words. -/
theorem calculateGOP_spans_ordered_witness :
    sampleRunner.WellFormed ∧
      calculateGOP sampleRunner sampleWords 0 = some (true, sampleResult) ∧
      ((sampleResult.map (fun w => w.details)).flatten)[0]? =
        some (PhonemeDetail.mk "a" 1 (-1) true 0 1) ∧
      ((sampleResult.map (fun w => w.details)).flatten)[0 + 1]? =
        some (PhonemeDetail.mk "b" 2 (-1) true 2 4) ∧
      ((sampleResult.map (fun w => w.details)).flatten).length =
        (flatTargets sampleRunner sampleWords).length ∧
      (PhonemeDetail.mk "a" 1 (-1) true 0 1).end_frame ≤
        (PhonemeDetail.mk "b" 2 (-1) true 2 4).start_frame :=
  ⟨by decide, by decide!, by decide, by decide,
    calculateGOP_spans_ordered sampleRunner sampleWords sampleResult 0 (by decide) (by decide!) 0
      (PhonemeDetail.mk "a" 1 (-1) true 0 1) (PhonemeDetail.mk "b" 2 (-1) true 2 4) (by decide)
      (by decide)⟩

/-- C8 (repeated labels are separated by a blank).  Whenever `calculateGOP` succeeds and
the adjacent flat targets `i` and `i+1` have the same token id, the decoded path spends at
least one frame in the blank state `2i+2`, and it never takes the skip-blank transition
from state `2i+1` to state `2i+3`. -/
theorem calculateGOP_repeated_label (r : ModelRunner) (ws ws' : List WordAnalysis)
    (blank_idx : Int) (path : List Int) (hwf : r.WellFormed)
    (h : calculateGOP r ws blank_idx = some (true, ws'))
    (hpath : alignPath r (flatTargets r ws) blank_idx = some (some path))
    (i : Nat) (tg1 tg2 : TargetMap) (h1 : (flatTargets r ws)[i]? = some tg1)
    (h2 : (flatTargets r ws)[i + 1]? = some tg2) (heq : tg1.token_id = tg2.token_id) :
    (∃ t : Int, 0 ≤ t ∧ t < r.time_steps ∧ pathAt path t = 2 * i + 2) ∧
      ∀ t : Int, 1 ≤ t → t < r.time_steps →
        ¬ (pathAt path (t - 1) = 2 * i + 1 ∧ pathAt path t = 2 * i + 3) := by
  obtain ⟨path', tab, cur0, hp, _, hT, _, inv, hspec, hm1, hm2, hadm⟩ :=
    success_facts r hwf ws ws' blank_idx h
  have e : path' = path := by rw [hp] at hpath; simpa using hpath
  subst e
  have g1 : vecGet (flatTargets r ws) (i : Int) = some tg1 := by simpa [vecGet] using h1
  have g2 : vecGet (flatTargets r ws) ((i : Int) + 1) = some tg2 := by
    have e : ((i : Int) + 1).toNat = i + 1 := by omega
    simp only [vecGet, e]
    rw [if_neg (by omega)]
    exact h2
  exact admissible_hits_blank _ blank_idx _ path' hadm hT i tg1 tg2 g1 g2 heq

/-- Witness of C8: reference `[a, a]`, states `[0,1,0,1,0]`, decoded path `[1,2,3]`. -/
theorem calculateGOP_repeated_label_witness :
    repeatRunner.WellFormed ∧
      calculateGOP repeatRunner repeatWords 0 = some (true, repeatResult) ∧
      buildExtendedStates (flatTargets repeatRunner repeatWords) 0 = [0, 1, 0, 1, 0] ∧
      alignPath repeatRunner (flatTargets repeatRunner repeatWords) 0 = some (some [1, 2, 3]) ∧
      (flatTargets repeatRunner repeatWords)[0]? = some (TargetMap.mk 0 0 1 "a") ∧
      (flatTargets repeatRunner repeatWords)[0 + 1]? = some (TargetMap.mk 0 1 1 "a") ∧
      (∃ t : Int, 0 ≤ t ∧ t < repeatRunner.time_steps ∧
        pathAt [1, 2, 3] t = 2 * ((0 : Nat) : Int) + 2) ∧
      ∀ t : Int, 1 ≤ t → t < repeatRunner.time_steps →
        ¬ (pathAt [1, 2, 3] (t - 1) = 2 * ((0 : Nat) : Int) + 1 ∧
          pathAt [1, 2, 3] t = 2 * ((0 : Nat) : Int) + 3) :=
  ⟨by decide, by decide!, by decide, by decide!, by decide, by decide,
    calculateGOP_repeated_label repeatRunner repeatWords repeatResult 0 [1, 2, 3] (by decide)
      (by decide!) (by decide!) 0 (TargetMap.mk 0 0 1 "a") (TargetMap.mk 0 1 1 "a") (by decide)
      (by decide) (by decide)⟩

/-- C9, as amended (detail frames).  After a successful `calculateGOP` every produced
detail, whatever its score (`> -9.0` or `≤ -9.0`), carries the span of its target state:
`0 ≤ start_frame ≤ end_frame ≤ T-1`, both frames lie in the state `2i+1` of the flat target
`i` the detail belongs to, every frame the decoded path spends in that state lies between
them, the score is the mean log-probability over those frames, and neither frame is
`-1`. -/
theorem calculateGOP_detail_frames (r : ModelRunner) (ws ws' : List WordAnalysis)
    (blank_idx : Int) (hwf : r.WellFormed)
    (h : calculateGOP r ws blank_idx = some (true, ws'))
    (w : WordAnalysis) (hw : w ∈ ws') (d : PhonemeDetail) (hd : d ∈ w.details) :
    0 ≤ d.start_frame ∧ d.start_frame ≤ d.end_frame ∧ d.end_frame ≤ r.time_steps - 1 ∧
      d.start_frame ≠ -1 ∧ d.end_frame ≠ -1 ∧
      ∃ path, alignPath r (flatTargets r ws) blank_idx = some (some path) ∧
        ∃ (i : Nat) (tg : TargetMap), (flatTargets r ws)[i]? = some tg ∧
          pathAt path d.start_frame = 2 * (i : Int) + 1 ∧
          pathAt path d.end_frame = 2 * (i : Int) + 1 ∧
          (∀ u : Int, 0 ≤ u → u < r.time_steps → pathAt path u = 2 * (i : Int) + 1 →
            d.start_frame ≤ u ∧ u ≤ d.end_frame) ∧
          d.score =
            (∑ t in framesBefore path (2 * (i : Int) + 1) r.time_steps,
                logProb r t tg.token_id) /
              ((framesBefore path (2 * (i : Int) + 1) r.time_steps).card : ℚ) := by
  obtain ⟨path, hp, i, tg, hi, hs, hne⟩ :=
    success_detail_of_mem r hwf ws ws' blank_idx h w hw d hd
  have e : (i : Int) * 2 + 1 = 2 * (i : Int) + 1 := by ring
  have hsome := hs.some
  rw [e] at hsome hne
  obtain ⟨h1, h2, h3, h4⟩ := hsome hne
  have a := (mem_framesBefore _ _ _ _).mp h2
  have b := (mem_framesBefore _ _ _ _).mp h3
  refine ⟨a.1, le_trans (h4 _ h2).1 (h4 _ h2).2, by omega, by omega, by omega,
    path, hp, i, tg, hi, a.2.2, b.2.2, ?_, h1⟩
  intro u hu0 hu1 hu2
  exact h4 u ((mem_framesBefore _ _ _ _).mpr ⟨hu0, hu1, hu2⟩)

/-- Witness of the amended C9 on `lowRunner`, whose only detail has score `-10 ≤ -9.0` and
keeps the frames `0, 0` of its span. -/
theorem calculateGOP_detail_frames_witness :
    lowRunner.WellFormed ∧ calculateGOP lowRunner lowWords 0 = some (true, lowResult) ∧
      WordAnalysis.mk "a" "a" "a" ["a"] [PhonemeDetail.mk "a" 1 (-10) false 0 0] (-10) ∈
        lowResult ∧
      (PhonemeDetail.mk "a" 1 (-10) false 0 0).score ≤ -9 ∧
      (0 ≤ (PhonemeDetail.mk "a" 1 (-10) false 0 0).start_frame ∧
        (PhonemeDetail.mk "a" 1 (-10) false 0 0).start_frame ≤
          (PhonemeDetail.mk "a" 1 (-10) false 0 0).end_frame ∧
        (PhonemeDetail.mk "a" 1 (-10) false 0 0).end_frame ≤ lowRunner.time_steps - 1 ∧
        (PhonemeDetail.mk "a" 1 (-10) false 0 0).start_frame ≠ -1 ∧
        (PhonemeDetail.mk "a" 1 (-10) false 0 0).end_frame ≠ -1 ∧
        ∃ path, alignPath lowRunner (flatTargets lowRunner lowWords) 0 = some (some path) ∧
          ∃ (i : Nat) (tg : TargetMap), (flatTargets lowRunner lowWords)[i]? = some tg ∧
            pathAt path (PhonemeDetail.mk "a" 1 (-10) false 0 0).start_frame =
              2 * (i : Int) + 1 ∧
            pathAt path (PhonemeDetail.mk "a" 1 (-10) false 0 0).end_frame =
              2 * (i : Int) + 1 ∧
            (∀ u : Int, 0 ≤ u → u < lowRunner.time_steps →
              pathAt path u = 2 * (i : Int) + 1 →
              (PhonemeDetail.mk "a" 1 (-10) false 0 0).start_frame ≤ u ∧
                u ≤ (PhonemeDetail.mk "a" 1 (-10) false 0 0).end_frame) ∧
            (PhonemeDetail.mk "a" 1 (-10) false 0 0).score =
              (∑ t in framesBefore path (2 * (i : Int) + 1) lowRunner.time_steps,
                  logProb lowRunner t tg.token_id) /
                ((framesBefore path (2 * (i : Int) + 1) lowRunner.time_steps).card : ℚ)) :=
  ⟨by decide, by decide!, by decide, by decide!,
    calculateGOP_detail_frames lowRunner lowWords lowResult 0 (by decide) (by decide!)
      (WordAnalysis.mk "a" "a" "a" ["a"] [PhonemeDetail.mk "a" 1 (-10) false 0 0] (-10))
      (by decide) (PhonemeDetail.mk "a" 1 (-10) false 0 0) (by decide)⟩

/-- C9 as stated fails: on `lowRunner` the only detail has score `-10 ≤ -9.0` and frames
`0, 0`, not `-1, -1`. -/
theorem detail_invariant_counterexample :
    lowRunner.WellFormed ∧ calculateGOP lowRunner lowWords 0 = some (true, lowResult) ∧
      ¬ (∀ w ∈ lowResult, ∀ d ∈ w.details,
        (d.score > -9 → d.start_frame ≤ d.end_frame) ∧
          (d.score ≤ -9 → d.start_frame = -1 ∧ d.end_frame = -1)) :=
  ⟨by decide, by decide!, by decide!⟩

/-- C10, as amended (no degenerate duration).  Whenever `calculateGOP` succeeds, the decoded
path spends at least one frame in every target state `2i+1`, and no produced detail carries
the zero-duration frames: `start_frame` and `end_frame` are never `-1`. -/
theorem calculateGOP_no_zero_duration (r : ModelRunner) (ws ws' : List WordAnalysis)
    (blank_idx : Int) (path : List Int) (hwf : r.WellFormed)
    (h : calculateGOP r ws blank_idx = some (true, ws'))
    (hpath : alignPath r (flatTargets r ws) blank_idx = some (some path)) :
    (∀ i : Nat, i < (flatTargets r ws).length →
        ∃ t : Int, 0 ≤ t ∧ t < r.time_steps ∧ pathAt path t = 2 * i + 1) ∧
      ∀ w ∈ ws', ∀ d ∈ w.details, d.start_frame ≠ -1 ∧ d.end_frame ≠ -1 := by
  constructor
  · obtain ⟨path', tab, cur0, hp, _, hT, _, _, _, _, _, hadm⟩ :=
      success_facts r hwf ws ws' blank_idx h
    have e : path' = path := by rw [hp] at hpath; simpa using hpath
    subst e
    exact fun i hi => admissible_hits_target _ blank_idx _ path' hadm hT i (by omega) (by omega)
  · intro w hw d hd
    obtain ⟨path', _, i, tg, _, hs, hne⟩ :=
      success_detail_of_mem r hwf ws ws' blank_idx h w hw d hd
    obtain ⟨_, h1, h2, _⟩ := hs.some hne
    have a := (mem_framesBefore _ _ _ _).mp h1
    have b := (mem_framesBefore _ _ _ _).mp h2
    omega

/-- Witness of the amended C10 on `sampleRunner`. -/
theorem calculateGOP_no_zero_duration_witness :
    sampleRunner.WellFormed ∧
      calculateGOP sampleRunner sampleWords 0 = some (true, sampleResult) ∧
      alignPath sampleRunner (flatTargets sampleRunner sampleWords) 0 =
        some (some [1, 1, 3, 3, 3]) ∧
      (∀ i : Nat, i < (flatTargets sampleRunner sampleWords).length →
        ∃ t : Int, 0 ≤ t ∧ t < sampleRunner.time_steps ∧
          pathAt [1, 1, 3, 3, 3] t = 2 * i + 1) ∧
      ∀ w ∈ sampleResult, ∀ d ∈ w.details, d.start_frame ≠ -1 ∧ d.end_frame ≠ -1 :=
  ⟨by decide, by decide!, by decide!,
    calculateGOP_no_zero_duration sampleRunner sampleWords sampleResult 0 [1, 1, 3, 3, 3]
      (by decide) (by decide!) (by decide!)⟩

/-- C10 as stated fails: no well-formed emission, vocabulary and reference make
`calculateGOP` succeed with a decoded path that spends zero frames on a target state. -/
theorem degenerate_duration_impossible :
    ¬ ∃ (r : ModelRunner) (ws ws' : List WordAnalysis) (blank_idx : Int) (path : List Int)
        (i : Nat),
      r.WellFormed ∧ calculateGOP r ws blank_idx = some (true, ws') ∧
        alignPath r (flatTargets r ws) blank_idx = some (some path) ∧
        i < (flatTargets r ws).length ∧
        ∀ t : Int, 0 ≤ t → t < r.time_steps → pathAt path t ≠ 2 * i + 1 := by
  rintro ⟨r, ws, ws', blank_idx, path, i, hwf, h, hp, hi, hnone⟩
  obtain ⟨path', tab, cur0, hp', _, hT, _, _, _, _, _, hadm⟩ :=
    success_facts r hwf ws ws' blank_idx h
  have e : path' = path := by rw [hp'] at hp; simpa using hp
  subst e
  obtain ⟨t, h0, h1, h2⟩ :=
    admissible_hits_target _ blank_idx _ path' hadm hT i (by omega) (by omega)
  exact hnone t h0 h1 h2

/-- C11, as amended (`T = S`).  For a reference and an emission with `T = S = 2*|flat|+1` on
which `calculateGOP` succeeds, the decoded path satisfies `path[t] = t` for every `t`
exactly when it spends a frame in every state `0..S-1`; the lattice does not force that,
since a path may start in state 1, end in state `S-2` and skip blanks. -/
theorem calculateGOP_square_path (r : ModelRunner) (ws ws' : List WordAnalysis)
    (blank_idx : Int) (path : List Int) (hwf : r.WellFormed)
    (h : calculateGOP r ws blank_idx = some (true, ws'))
    (hpath : alignPath r (flatTargets r ws) blank_idx = some (some path))
    (hTS : r.time_steps = 2 * (flatTargets r ws).length + 1) :
    (∀ t : Int, 0 ≤ t → t < r.time_steps → pathAt path t = t) ↔
      (∀ s : Int, 0 ≤ s → s < r.time_steps →
        ∃ t : Int, 0 ≤ t ∧ t < r.time_steps ∧ pathAt path t = s) := by
  obtain ⟨path', tab, cur0, hp, _, hT, _, inv, hspec, hm1, hm2, hadm⟩ :=
    success_facts r hwf ws ws' blank_idx h
  have e : path' = path := by rw [hp] at hpath; simpa using hpath
  subst e
  constructor
  · intro hid s hs0 hs
    exact ⟨s, hs0, hs, hid s hs0 hs⟩
  · intro hsurj
    have hmono := fun a b => hadm.mono a b
    have hnoskip : ∀ t, 1 ≤ t → t < r.time_steps →
        pathAt path' t ≤ pathAt path' (t - 1) + 1 := by
      intro t ht1 ht
      by_contra hc
      have hle := move_le _ _ _ _ (hadm.move t ht1 ht)
      have hr := hadm.range (t - 1) (by omega) (by omega)
      have hr' := hadm.range t (by omega) ht
      obtain ⟨u, hu0, hu1, hu2⟩ := hsurj (pathAt path' (t - 1) + 1) (by omega) (by omega)
      by_cases hut : u ≤ t - 1
      · have := hmono u (t - 1) hu0 hut (by omega)
        omega
      · have := hmono t u (by omega) (by omega) hu1
        omega
    have h0 : pathAt path' 0 = 0 := by
      obtain ⟨u, hu0, hu1, hu2⟩ := hsurj 0 (le_refl _) (by omega)
      have := hmono 0 u (le_refl _) hu0 hu1
      have := hadm.range 0 (le_refl _) (by omega)
      omega
    have hlast : pathAt path' (r.time_steps - 1) = r.time_steps - 1 := by
      obtain ⟨u, hu0, hu1, hu2⟩ := hsurj (r.time_steps - 1) (by omega) (by omega)
      have := hmono u (r.time_steps - 1) hu0 (by omega) (by omega)
      have := hadm.range (r.time_steps - 1) (by omega) (by omega)
      omega
    have hg : ∀ t, 1 ≤ t → t < r.time_steps →
        (t - 1) - pathAt path' (t - 1) ≤ t - pathAt path' t := by
      intro t ht1 ht
      have := hnoskip t ht1 ht
      omega
    intro t ht0 ht
    have g1 := path_mono (fun u => u - pathAt path' u) r.time_steps 0 t hg (le_refl _) ht0 ht
    have g2 := path_mono (fun u => u - pathAt path' u) r.time_steps t (r.time_steps - 1) hg ht0
      (by omega) (by omega)
    simp only at g1 g2
    omega

/-- Witness of the amended C11 on `squareRunner`, whose decoded path is `[0,1,2,3,4]`. -/
theorem calculateGOP_square_path_witness :
    squareRunner.WellFormed ∧
      calculateGOP squareRunner repeatWords 0 = some (true, squareResult) ∧
      alignPath squareRunner (flatTargets squareRunner repeatWords) 0 =
        some (some [0, 1, 2, 3, 4]) ∧
      squareRunner.time_steps = 2 * (flatTargets squareRunner repeatWords).length + 1 ∧
      ((∀ t : Int, 0 ≤ t → t < squareRunner.time_steps → pathAt [0, 1, 2, 3, 4] t = t) ↔
        (∀ s : Int, 0 ≤ s → s < squareRunner.time_steps →
          ∃ t : Int, 0 ≤ t ∧ t < squareRunner.time_steps ∧ pathAt [0, 1, 2, 3, 4] t = s)) :=
  ⟨by decide, by decide!, by decide!, by decide,
    calculateGOP_square_path squareRunner repeatWords squareResult 0 [0, 1, 2, 3, 4] (by decide)
      (by decide!) (by decide!) (by decide)⟩

/-- C11 as stated fails: on `sampleRunner` the call succeeds with `T = S = 5` and the
decoded path `[1,1,3,3,3]` starts in state 1 and skips the blanks. -/
theorem square_path_counterexample :
    sampleRunner.WellFormed ∧
      calculateGOP sampleRunner sampleWords 0 = some (true, sampleResult) ∧
      sampleRunner.time_steps = 2 * (flatTargets sampleRunner sampleWords).length + 1 ∧
      alignPath sampleRunner (flatTargets sampleRunner sampleWords) 0 =
        some (some [1, 1, 3, 3, 3]) ∧
      ¬ (∀ t : Int, 0 ≤ t → t < sampleRunner.time_steps → pathAt [1, 1, 3, 3, 3] t = t) :=
  ⟨by decide, by decide!, by decide, by decide!, fun hc => absurd (hc 0 (by decide) (by decide))
    (by decide)⟩

/-- C18 (`getLogProb` bounds contract).  `getLogProb` returns `-1e9` when `time_step < 0`,
`time_step ≥ T`, `token_id < 0` or `token_id ≥ V`; otherwise it reads
`output_log_probs[time_step * V + token_id]`, an entry the `T x V` matrix holds. -/
theorem getLogProb_contract (r : ModelRunner) (hwf : r.WellFormed) (time_step token_id : Int) :
    ((time_step < 0 ∨ time_step ≥ r.time_steps ∨ token_id < 0 ∨ token_id ≥ r.vocab_size) →
        r.getLogProb time_step token_id = some NEG_INF) ∧
      (¬ (time_step < 0 ∨ time_step ≥ r.time_steps ∨ token_id < 0 ∨ token_id ≥ r.vocab_size) →
        ∃ x, r.output_log_probs[(time_step * r.vocab_size + token_id).toNat]? = some x ∧
          0 ≤ time_step * r.vocab_size + token_id ∧
          r.getLogProb time_step token_id = some x) := by
  constructor
  · intro hoob
    simp [ModelRunner.getLogProb, hoob]
  · intro hin
    have hin' := hin
    push_neg at hin
    obtain ⟨h1, h2, h3, h4⟩ := hin
    have hb := flat_bounds r.time_steps r.vocab_size time_step token_id h1 h2 h3 h4
    unfold ModelRunner.WellFormed at hwf
    obtain ⟨x, hx⟩ := vecGet_isSome r.output_log_probs (time_step * r.vocab_size + token_id)
      hb.1 (by omega)
    refine ⟨x, ?_, hb.1, ?_⟩
    · unfold vecGet at hx
      rw [if_neg (by omega)] at hx
      exact hx
    · simp [ModelRunner.getLogProb, hin', hx]

/-- Witness of C18 on `sampleRunner`: frame 2, token 2 is entry 8 of the matrix. -/
theorem getLogProb_contract_witness :
    sampleRunner.WellFormed ∧
      ((((2 : Int) < 0 ∨ (2 : Int) ≥ sampleRunner.time_steps ∨ (2 : Int) < 0 ∨
          (2 : Int) ≥ sampleRunner.vocab_size) →
        sampleRunner.getLogProb 2 2 = some NEG_INF) ∧
      (¬ ((2 : Int) < 0 ∨ (2 : Int) ≥ sampleRunner.time_steps ∨ (2 : Int) < 0 ∨
          (2 : Int) ≥ sampleRunner.vocab_size) →
        ∃ x, sampleRunner.output_log_probs[((2 : Int) * sampleRunner.vocab_size + 2).toNat]? =
            some x ∧
          0 ≤ (2 : Int) * sampleRunner.vocab_size + 2 ∧
          sampleRunner.getLogProb 2 2 = some x)) :=
  ⟨by decide, getLogProb_contract sampleRunner (by decide) 2 2⟩

/-- C19 (overall score).  For every list of scored words, the overall score is the
arithmetic mean of the `word_score` values that are `> -10.0`, and `-10.0` when no
`word_score` is `> -10.0`. -/
theorem overallScore_eq (ws : List WordAnalysis) :
    overallScore ws =
      if ws.filter (fun w => decide (w.word_score > -10)) = [] then -10
      else ((ws.filter (fun w => decide (w.word_score > -10))).map (fun w => w.word_score)).sum /
        ((ws.filter (fun w => decide (w.word_score > -10))).length : ℚ) := by
  unfold overallScore
  simp only [overall_foldl, zero_add]
  by_cases h1 : ws.filter (fun w => decide (w.word_score > -10)) = []
  · simp [h1]
  · have hpos : ((ws.filter (fun w => decide (w.word_score > -10))).length : Int) > 0 := by
      have := List.length_pos.mpr h1
      omega
    rw [if_pos hpos, if_neg h1]
    simp

/-- C20 (tie-break order).  In the table a forward pass returns, for `t ≥ 1` and a state `s`
with some allowed predecessor `q` of finite score, `back[t][s]` is an allowed predecessor
of finite score that attains the maximum of `dp[t-1][.]` over the allowed finite
predecessors, and among those that attain it it is the earliest in the order stay (`s`),
step (`s-1`), skip-blank (`s-2`): every maximiser `q` has `q ≤ back[t][s]`.  In particular,
when stay is a finite maximiser, `back[t][s] = s`. -/
theorem viterbiForward_tie_break (r : ModelRunner) (ext : List Int) (blank_idx T S : Int)
    (tab : List ℚ × List Int) (hwf : r.WellFormed) (hS : (ext.length : Int) = S)
    (hS2 : 2 ≤ S) (hT : 1 ≤ T) (h : viterbiForward r ext blank_idx T S = some tab)
    (t s q : Int) (ht1 : 1 ≤ t) (ht : t < T) (hs0 : 0 ≤ s) (hs : s < S) (hq0 : 0 ≤ q)
    (hmv : Move ext blank_idx q s) (hfin : dpAt tab.1 S (t - 1) q > NEG_INF) :
    0 ≤ backAt tab.2 S t s ∧ Move ext blank_idx (backAt tab.2 S t s) s ∧
      dpAt tab.1 S (t - 1) (backAt tab.2 S t s) > NEG_INF ∧
      dpAt tab.1 S (t - 1) q ≤ dpAt tab.1 S (t - 1) (backAt tab.2 S t s) ∧
      (dpAt tab.1 S (t - 1) q = dpAt tab.1 S (t - 1) (backAt tab.2 S t s) →
        q ≤ backAt tab.2 S t s) ∧
      (dpAt tab.1 S (t - 1) s > NEG_INF →
        dpAt tab.1 S (t - 1) (backAt tab.2 S t s) ≤ dpAt tab.1 S (t - 1) s →
        backAt tab.2 S t s = s) := by
  obtain ⟨tab', h', inv⟩ := viterbiForward_spec r hwf ext blank_idx T S hS hS2 hT
  rw [h] at h'
  have e : tab = tab' := by simpa using h'
  subst e
  obtain ⟨hd, hb⟩ := inv.done t s ht1 hs0 hs (Or.inl ht)
  obtain ⟨⟨_, hok⟩, hmax⟩ := bestPrev_spec ext blank_idx (fun p => dpAt tab.1 S (t - 1) p) s hs0
  have hle : dpAt tab.1 S (t - 1) q ≤ _ := hmax q hq0 hmv hfin
  rcases hok with ⟨_, h2⟩ | ⟨h1, h2, h3, h4⟩
  · rw [h2] at hle
    exact absurd hfin (not_lt.mpr hle)
  · rw [← hb] at h1 h2 h3 h4
    simp only at h3 h4
    have hmaxq : dpAt tab.1 S (t - 1) q ≤ dpAt tab.1 S (t - 1) (backAt tab.2 S t s) := by
      rw [← h3]; exact hle
    refine ⟨h1, h2, h4, hmaxq, ?_, ?_⟩
    · intro heq
      exact fwd_tie r ext blank_idx T S t s q tab inv ht1 ht hs0 hs hq0 hmv hfin heq
    · intro hsfin hsle
      have hles : dpAt tab.1 S (t - 1) s ≤ dpAt tab.1 S (t - 1) (backAt tab.2 S t s) := by
        rw [← h3]; exact hmax s hs0 (Or.inl rfl) hsfin
      have := fwd_tie r ext blank_idx T S t s s tab inv ht1 ht hs0 hs hs0 (Or.inl rfl) hsfin
        (le_antisymm hles hsle)
      have := (move_le ext blank_idx _ _ h2).1
      omega

/-- Witness of C20: with all emissions `-1`, stay and step into state 1 tie at frame 1 and
`back[1][1] = 1`, the stay predecessor. -/
theorem viterbiForward_tie_break_witness :
    repeatRunner.WellFormed ∧ viterbiForward repeatRunner [0, 1, 0] 0 2 3 = some tieTable ∧
      Move [0, 1, 0] 0 0 1 ∧ dpAt tieTable.1 3 (1 - 1) 0 > NEG_INF ∧
      dpAt tieTable.1 3 (1 - 1) 0 = dpAt tieTable.1 3 (1 - 1) 1 ∧
      (0 ≤ backAt tieTable.2 3 1 1 ∧ Move [0, 1, 0] 0 (backAt tieTable.2 3 1 1) 1 ∧
        dpAt tieTable.1 3 (1 - 1) (backAt tieTable.2 3 1 1) > NEG_INF ∧
        dpAt tieTable.1 3 (1 - 1) 0 ≤ dpAt tieTable.1 3 (1 - 1) (backAt tieTable.2 3 1 1) ∧
        (dpAt tieTable.1 3 (1 - 1) 0 = dpAt tieTable.1 3 (1 - 1) (backAt tieTable.2 3 1 1) →
          0 ≤ backAt tieTable.2 3 1 1) ∧
        (dpAt tieTable.1 3 (1 - 1) 1 > NEG_INF →
          dpAt tieTable.1 3 (1 - 1) (backAt tieTable.2 3 1 1) ≤ dpAt tieTable.1 3 (1 - 1) 1 →
          backAt tieTable.2 3 1 1 = 1)) :=
  ⟨by decide, by decide!, by decide, by decide!, by decide!,
    viterbiForward_tie_break repeatRunner [0, 1, 0] 0 2 3 tieTable (by decide) (by decide)
      (by decide) (by decide) (by decide!) 1 1 0 (by decide) (by decide) (by decide) (by decide)
      (by decide) (by decide) (by decide!)⟩

/-- C12: for every vocabulary and every input byte string, `cleanAndTokenizeIPA` returns a
token list, and every token in it is a key of the vocabulary. -/
theorem cleanAndTokenizeIPA_in_vocab (vocab : List (List Nat × Int)) (raw_ipa : List Nat) :
    ∃ tokens, cleanAndTokenizeIPA vocab raw_ipa = some tokens ∧
      ∀ tk ∈ tokens, ∃ id, (tk, id) ∈ vocab := by
  obtain ⟨clean_str, hc⟩ := cleanIPA_total raw_ipa
  obtain ⟨out, ho, hk⟩ := tokenizeLoop_total vocab clean_str clean_str.length 0 []
    (by omega) (by simp)
  refine ⟨out, ?_, ?_⟩
  · simp [cleanAndTokenizeIPA, hc, ho]
  · intro tk htk
    obtain ⟨id, hid⟩ := Option.isSome_iff_exists.1 (hk tk htk)
    exact ⟨id, lookup_mem _ _ _ hid⟩

/-- C14: in an iteration of the greatest-match loop at an offset `i` where some vocabulary
key of 1 to 8 bytes is a prefix of the rest of the cleaned string, the loop emits the
longest such key `k` and continues at offset `i + k.length`: the run from `i` is the run
from `i + k.length` with `k` put in front of its tokens. -/
theorem tokenizeLoop_greedy (vocab : List (List Nat × Int)) (clean_str : List Nat)
    (fuel i : Nat) (tokens : List (List Nat))
    (hex : ∃ k, (vocab.lookup k).isSome = true ∧ 1 ≤ k.length ∧ k.length ≤ 8 ∧
      k <+: clean_str.drop i) :
    ∃ k, (vocab.lookup k).isSome = true ∧ 1 ≤ k.length ∧ k.length ≤ 8 ∧
      k <+: clean_str.drop i ∧
      (∀ k', (vocab.lookup k').isSome = true → 1 ≤ k'.length → k'.length ≤ 8 →
        k' <+: clean_str.drop i → k'.length ≤ k.length) ∧
      tokenizeLoop vocab clean_str (fuel + 1) i tokens =
        tokenizeLoop vocab clean_str fuel (i + k.length) (tokens ++ [k]) ∧
      tokenizeLoop vocab clean_str (fuel + 1) i tokens =
        (tokenizeLoop vocab clean_str fuel (i + k.length) []).map
          (fun rest => tokens ++ k :: rest) := by
  obtain ⟨k, hk, h1, h8, hp, hmax, hf, hsub⟩ := findMatch_longest vocab clean_str i hex
  have hi : i < clean_str.length := by
    have := hp.length_le
    simp at this; omega
  have hstep := tokenizeLoop_step_some vocab clean_str fuel i k.length tokens hi hf
  rw [hsub] at hstep
  refine ⟨k, hk, h1, h8, hp, hmax, hstep, ?_⟩
  rw [hstep, tokenizeLoop_acc]
  cases tokenizeLoop vocab clean_str fuel (i + k.length) [] <;> simp

/-- C14 on the spec's example: with the keys "e", "ɪ" and "eɪ", the input "eɪ" is
tokenized to the single token "eɪ". -/
theorem tokenizeLoop_greedy_witness :
    (∃ k, (diphthongVocab.lookup k).isSome = true ∧ 1 ≤ k.length ∧ k.length ≤ 8 ∧
      k <+: [0x65, 0xC9, 0xAA].drop 0) ∧
    cleanAndTokenizeIPA diphthongVocab [0x65, 0xC9, 0xAA] = some [[0x65, 0xC9, 0xAA]] ∧
    ∃ k, (diphthongVocab.lookup k).isSome = true ∧ 1 ≤ k.length ∧ k.length ≤ 8 ∧
      k <+: [0x65, 0xC9, 0xAA].drop 0 ∧
      (∀ k', (diphthongVocab.lookup k').isSome = true → 1 ≤ k'.length → k'.length ≤ 8 →
        k' <+: [0x65, 0xC9, 0xAA].drop 0 → k'.length ≤ k.length) ∧
      tokenizeLoop diphthongVocab [0x65, 0xC9, 0xAA] (2 + 1) 0 [] =
        tokenizeLoop diphthongVocab [0x65, 0xC9, 0xAA] 2 (0 + k.length) ([] ++ [k]) ∧
      tokenizeLoop diphthongVocab [0x65, 0xC9, 0xAA] (2 + 1) 0 [] =
        (tokenizeLoop diphthongVocab [0x65, 0xC9, 0xAA] 2 (0 + k.length) []).map
          (fun rest => [] ++ k :: rest) :=
  ⟨⟨[0x65], by decide⟩, by decide,
    tokenizeLoop_greedy diphthongVocab [0x65, 0xC9, 0xAA] 2 0 [] ⟨[0x65], by decide⟩⟩

/-- C15: on the UTF-8 encoding of any code-point sequence `s`, the pre-cleaning step
returns the UTF-8 encoding of `s` with the code points U+02C8, U+02CC, U+0020, U+005F and
U+00A0 removed and all other code points kept in order. -/
theorem cleanIPA_removes_ignored (s : List Char) :
    cleanIPA (utf8Encode s) = some (utf8Encode (s.filter (fun c =>
      !(c.toNat = 0x2C8 || c.toNat = 0x2CC || c.toNat = 0x20 || c.toNat = 0x5F
        || c.toNat = 0xA0)))) :=
  cleanIPA_utf8 s

/-- C13 (amended): a sequence of vocabulary keys that are UTF-8 encodings of code-point
strings without ignored code points, each 1 to 8 bytes long, and without ambiguous
prefixes, is returned unchanged by `cleanAndTokenizeIPA` on its concatenation. -/
theorem cleanAndTokenizeIPA_round_trip (vocab : List (List Nat × Int))
    (css : List (List Char))
    (hkeys : ∀ cs ∈ css, (vocab.lookup (utf8Encode cs)).isSome = true)
    (hclean : ∀ cs ∈ css, ∀ c ∈ cs, isIgnoredCodepoint c = false)
    (hlen : ∀ cs ∈ css, 1 ≤ (utf8Encode cs).length ∧ (utf8Encode cs).length ≤ 8)
    (hamb : NoAmbiguousPrefix vocab (css.map utf8Encode)) :
    cleanAndTokenizeIPA vocab (css.map utf8Encode).flatten = some (css.map utf8Encode) := by
  have hc : cleanIPA (css.map utf8Encode).flatten = some (css.map utf8Encode).flatten := by
    rw [flatten_map_utf8Encode, cleanIPA_utf8]
    congr 2
    apply List.filter_eq_self.2
    intro c hc
    obtain ⟨cs, hcs, hmem⟩ := List.mem_flatten.1 hc
    simp [hclean cs hcs c hmem]
  have ht := tokenizeLoop_round_trip vocab (css.map utf8Encode) [] []
    (css.map utf8Encode).flatten.length
    (by
      intro k hk
      obtain ⟨cs, hcs, rfl⟩ := List.mem_map.1 hk
      exact ⟨hkeys cs hcs, hlen cs hcs⟩)
    hamb (le_refl _)
  simp only [List.nil_append, List.length_nil] at ht
  rw [cleanAndTokenizeIPA, hc]
  exact ht

/-- C13 (amended) on the keys "eɪ", "e" of a vocabulary that also holds "ɪ". -/
theorem cleanAndTokenizeIPA_round_trip_witness :
    (∀ cs ∈ [[Char.ofNat 0x65, Char.ofNat 0x26A], [Char.ofNat 0x65]],
      (diphthongVocab.lookup (utf8Encode cs)).isSome = true) ∧
    NoAmbiguousPrefix diphthongVocab
      ([[Char.ofNat 0x65, Char.ofNat 0x26A], [Char.ofNat 0x65]].map utf8Encode) ∧
    cleanAndTokenizeIPA diphthongVocab [0x65, 0xC9, 0xAA, 0x65] =
      some [[0x65, 0xC9, 0xAA], [0x65]] :=
  ⟨by decide, by decide,
    cleanAndTokenizeIPA_round_trip diphthongVocab
      [[Char.ofNat 0x65, Char.ofNat 0x26A], [Char.ofNat 0x65]]
      (by decide) (by decide) (by decide) (by decide)⟩

/-- C13 as stated fails: "ˈ" and "a" are vocabulary keys, the sequence "ˈ", "a" has no
ambiguous prefix, and the tokenizer returns only "a" on "ˈa". -/
theorem round_trip_counterexample :
    (∀ k ∈ [[0xCB, 0x88], [0x61]], (stressVocab.lookup k).isSome = true) ∧
    NoAmbiguousPrefix stressVocab [[0xCB, 0x88], [0x61]] ∧
    cleanAndTokenizeIPA stressVocab [[0xCB, 0x88], [0x61]].flatten = some [[0x61]] ∧
    cleanAndTokenizeIPA stressVocab [[0xCB, 0x88], [0x61]].flatten ≠
      some [[0xCB, 0x88], [0x61]] := by
  decide

/-- C16: for an interleaved buffer of `frames ≥ 1` frames with `channels > 1` channels,
`mixToMono` called with the frame count yields the `frames` per-frame means, but the
downmix step of `loadAudio` as called by both branches of `Analyze` reads past the end of
`audio`: neither call yields the buffer of per-frame means. -/
theorem loadAudio_downmix_out_of_bounds (input : List ℚ) (channels frames : Nat)
    (hC : 1 < channels) (hN : 0 < frames) (hlen : input.length = frames * channels) :
    mixToMono input channels frames = some (frameMeans input channels frames) ∧
    (frameMeans input channels frames).length = frames ∧
    analyzeRawLoad input channels = none ∧ analyzeWavLoad input channels frames = none := by
  have hlt : frames < frames * channels := by
    calc frames = frames * 1 := (Nat.mul_one _).symm
      _ < frames * channels := Nat.mul_lt_mul_of_pos_left hC hN |>.trans_le (le_refl _)
  refine ⟨mixToMono_frames input channels frames hC hlen, frameMeans_length _ _ _, ?_, ?_⟩
  · unfold analyzeRawLoad loadAudio
    rw [if_pos (le_refl _), List.take_length]
    cases h : mixToMono input channels input.length with
    | none => rfl
    | some out =>
      have := mixToMono_some_bound _ _ _ _ hC (by rw [hlen]; omega) h
      rw [hlen] at this
      have h3 : frames * channels * channels > frames * channels * 1 :=
        Nat.mul_lt_mul_of_pos_left hC (by omega)
      omega
  · unfold analyzeWavLoad loadAudio
    rw [if_pos (by omega)]
    cases h : mixToMono (input.take frames) channels frames with
    | none => rfl
    | some out =>
      have := mixToMono_some_bound _ _ _ _ hC hN h
      rw [List.length_take] at this
      omega

/-- C16 on two stereo frames `[1, 3 | 5, 7]`: `mixToMono` with the frame count 2 gives
`[2, 6]`, and both calls of `Analyze` read past the end of `audio`. -/
theorem loadAudio_downmix_out_of_bounds_witness :
    frameMeans [1, 3, 5, 7] 2 2 = [2, 6] ∧
    (mixToMono [1, 3, 5, 7] 2 2 = some (frameMeans [1, 3, 5, 7] 2 2) ∧
    (frameMeans [1, 3, 5, 7] 2 2).length = 2 ∧
    analyzeRawLoad [1, 3, 5, 7] 2 = none ∧ analyzeWavLoad [1, 3, 5, 7] 2 2 = none) :=
  ⟨by decide!, loadAudio_downmix_out_of_bounds [1, 3, 5, 7] 2 2 (by decide) (by decide)
    (by decide)⟩

/-- C17: over the real numbers, for a matrix given by its frames `rows`, each with
`vocab_size ≥ 1` entries, `computeLogSoftmax` returns the matrix in which every entry `x`
of a frame is replaced by `(x - m) - log (Σ_j exp (x_j - m))` with `m` the maximum of the
frame, and in every frame of the result the values `exp` of the entries sum to 1. -/
theorem computeLogSoftmax_normalised (rows : List (List ℝ)) (vocab_size : Int)
    (hV : 1 ≤ vocab_size) (hrows : ∀ row ∈ rows, (row.length : Int) = vocab_size) :
    computeLogSoftmax Real.exp Real.log rows.flatten rows.length vocab_size
      = some (rows.map (logSoftmaxRow Real.exp Real.log)).flatten ∧
    ∀ row ∈ rows, (rowMax row ∈ row ∧ ∀ x ∈ row, x ≤ rowMax row) ∧
      ((logSoftmaxRow Real.exp Real.log row).map Real.exp).sum = 1 := by
  refine ⟨computeLogSoftmax_eq _ _ rows vocab_size hV hrows, fun row hrow => ?_⟩
  have hne : row ≠ [] := by
    intro h
    have := hrows row hrow
    rw [h] at this
    simp at this; omega
  exact ⟨rowMax_spec row hne, logSoftmaxRow_sum_exp row hne⟩

/-- C17 on the two frames `[0, 0]` and `[1, 2]`. -/
theorem computeLogSoftmax_normalised_witness :
    (∀ row ∈ [[(0 : ℝ), 0], [1, 2]], (row.length : Int) = 2) ∧
    (computeLogSoftmax Real.exp Real.log [[(0 : ℝ), 0], [1, 2]].flatten
        ([[(0 : ℝ), 0], [1, 2]].length : Nat) 2
      = some ([[(0 : ℝ), 0], [1, 2]].map (logSoftmaxRow Real.exp Real.log)).flatten ∧
    ∀ row ∈ [[(0 : ℝ), 0], [1, 2]], (rowMax row ∈ row ∧ ∀ x ∈ row, x ≤ rowMax row) ∧
      ((logSoftmaxRow Real.exp Real.log row).map Real.exp).sum = 1) :=
  ⟨by simp, computeLogSoftmax_normalised [[0, 0], [1, 2]] 2 (by decide) (by simp)⟩

/-- C21 (path endpoints).  Whenever `calculateGOP` succeeds, the decoded path has one state
per frame, starts in state 0 or 1 and ends in state `S-2` or `S-1`, with
`S = 2*|flat| + 1`. -/
theorem calculateGOP_path_endpoints (r : ModelRunner) (ws ws' : List WordAnalysis)
    (blank_idx : Int) (path : List Int) (hwf : r.WellFormed)
    (h : calculateGOP r ws blank_idx = some (true, ws'))
    (hpath : alignPath r (flatTargets r ws) blank_idx = some (some path)) :
    (path.length : Int) = r.time_steps ∧ 1 ≤ r.time_steps ∧
      (pathAt path 0 = 0 ∨ pathAt path 0 = 1) ∧
      (pathAt path (r.time_steps - 1) = (2 * (flatTargets r ws).length + 1) - 2 ∨
        pathAt path (r.time_steps - 1) = (2 * (flatTargets r ws).length + 1) - 1) := by
  obtain ⟨path', tab, cur0, hp, _, hT, _, _, _, _, _, hadm⟩ :=
    success_facts r hwf ws ws' blank_idx h
  have e : path' = path := by rw [hp] at hpath; simpa using hpath
  subst e
  exact ⟨hadm.len, hT, hadm.start, hadm.finish⟩

/-- Witness of C21 on `sampleRunner`: the decoded path `[1,1,3,3,3]` starts in state 1 and
ends in state `3 = S-2`. -/
theorem calculateGOP_path_endpoints_witness :
    sampleRunner.WellFormed ∧
      calculateGOP sampleRunner sampleWords 0 = some (true, sampleResult) ∧
      alignPath sampleRunner (flatTargets sampleRunner sampleWords) 0 =
        some (some [1, 1, 3, 3, 3]) ∧
      (([1, 1, 3, 3, 3] : List Int).length : Int) = sampleRunner.time_steps ∧
      1 ≤ sampleRunner.time_steps ∧
      (pathAt [1, 1, 3, 3, 3] 0 = 0 ∨ pathAt [1, 1, 3, 3, 3] 0 = 1) ∧
      (pathAt [1, 1, 3, 3, 3] (sampleRunner.time_steps - 1) =
          (2 * (flatTargets sampleRunner sampleWords).length + 1) - 2 ∨
        pathAt [1, 1, 3, 3, 3] (sampleRunner.time_steps - 1) =
          (2 * (flatTargets sampleRunner sampleWords).length + 1) - 1) :=
  ⟨by decide, by decide!, by decide!,
    calculateGOP_path_endpoints sampleRunner sampleWords sampleResult 0 [1, 1, 3, 3, 3]
      (by decide) (by decide!) (by decide!)⟩

/-- C23 (short audio).  For a reference with a non-empty flat target list and a well-formed
emission with `T ≥ 1` frames, in particular when `T < S = 2*|flat| + 1`, `calculateGOP`
runs to completion with every table access inside its bounds: the forward pass fills tables
of `T*S` entries, and the call either returns `false` (broken alignment) or returns `true`
with a decoded path of `T` states.  With `T = 0` frames, which is also `< S`, the tables
are empty, the unguarded initialisation `dp[0] = ...` writes outside them, and the call
does not run to completion. -/
theorem calculateGOP_short_audio (r : ModelRunner) (ws : List WordAnalysis) (blank_idx : Int)
    (hwf : r.WellFormed) (hflat : flatTargets r ws ≠ []) :
    (1 ≤ r.time_steps →
      ∃ tab, viterbiForward r (buildExtendedStates (flatTargets r ws) blank_idx) blank_idx
          r.time_steps (2 * (flatTargets r ws).length + 1) = some tab ∧
        (tab.1.length : Int) = r.time_steps * (2 * (flatTargets r ws).length + 1) ∧
        (tab.2.length : Int) = r.time_steps * (2 * (flatTargets r ws).length + 1) ∧
        ((alignPath r (flatTargets r ws) blank_idx = some none ∧
            calculateGOP r ws blank_idx = some (false, clearedWords ws)) ∨
          ∃ path, alignPath r (flatTargets r ws) blank_idx = some (some path) ∧
            (path.length : Int) = r.time_steps ∧
            calculateGOP r ws blank_idx =
              some (true, (filledWords r path r.time_steps ws 0 0).map scoreWord))) ∧
      (r.time_steps = 0 →
        (∀ x : ℚ, vecSet (List.replicate
            (r.time_steps * (2 * (flatTargets r ws).length + 1)).toNat NEG_INF) 0 x = none) ∧
          calculateGOP r ws blank_idx = none) := by
  refine ⟨fun hT => ?_, fun hT => calculateGOP_no_frames r ws blank_idx hflat hT⟩
  have hws : ws ≠ [] := by
    intro e; rw [e] at hflat; exact hflat (flatTargets_nil r)
  obtain ⟨tab, hfw, inv, hcase⟩ := alignPath_spec r hwf (flatTargets r ws) blank_idx hT hflat
  refine ⟨tab, hfw, inv.len_dp, inv.len_bt, ?_⟩
  rw [calculateGOP_eq, if_neg hws, if_neg hflat]
  rcases hcase with ⟨_, _, hn⟩ | ⟨path, cur0, hp, _, _, _, hspec⟩
  · left
    rw [hn]
    exact ⟨rfl, rfl⟩
  · right
    refine ⟨path, hp, hspec.len, ?_⟩
    rw [hp]
    have hfill := fill_spec r hwf path r.time_steps hspec.len ws [] 0
    simp only [List.length_nil, Nat.cast_zero, List.nil_append] at hfill
    have hfill' : fillDetails r path r.time_steps (flatTargets r ws) 0 (clearedWords ws) =
        some (filledWords r path r.time_steps ws 0 0) := hfill
    simp only [Option.some_bind, hfill']

/-- C23 on the failing input `emptyRunner` (`T = 0 < S = 3`, reference `[a]`), where the
call does not run to completion, and on `pairRunner` (`T = 2 < S = 3`), where it returns
`true`. -/
theorem calculateGOP_short_audio_witness :
    emptyRunner.WellFormed ∧ flatTargets emptyRunner lowWords ≠ [] ∧
      emptyRunner.time_steps = 0 ∧
      emptyRunner.time_steps < 2 * (flatTargets emptyRunner lowWords).length + 1 ∧
      ((∀ x : ℚ, vecSet (List.replicate
          (emptyRunner.time_steps * (2 * (flatTargets emptyRunner lowWords).length + 1)).toNat
          NEG_INF) 0 x = none) ∧
        calculateGOP emptyRunner lowWords 0 = none) ∧
      pairRunner.WellFormed ∧ flatTargets pairRunner lowWords ≠ [] ∧
      1 ≤ pairRunner.time_steps ∧
      pairRunner.time_steps < 2 * (flatTargets pairRunner lowWords).length + 1 ∧
      calculateGOP pairRunner lowWords 0 = some (true, pairResult) ∧
      ∃ tab, viterbiForward pairRunner (buildExtendedStates (flatTargets pairRunner lowWords) 0)
          0 pairRunner.time_steps (2 * (flatTargets pairRunner lowWords).length + 1) =
            some tab ∧
        (tab.1.length : Int) =
          pairRunner.time_steps * (2 * (flatTargets pairRunner lowWords).length + 1) ∧
        (tab.2.length : Int) =
          pairRunner.time_steps * (2 * (flatTargets pairRunner lowWords).length + 1) ∧
        ((alignPath pairRunner (flatTargets pairRunner lowWords) 0 = some none ∧
            calculateGOP pairRunner lowWords 0 = some (false, clearedWords lowWords)) ∨
          ∃ path, alignPath pairRunner (flatTargets pairRunner lowWords) 0 =
              some (some path) ∧
            (path.length : Int) = pairRunner.time_steps ∧
            calculateGOP pairRunner lowWords 0 =
              some (true, (filledWords pairRunner path pairRunner.time_steps lowWords 0 0).map
                scoreWord)) :=
  ⟨by decide, by decide, by decide, by decide,
    (calculateGOP_short_audio emptyRunner lowWords 0 (by decide) (by decide)).2 (by decide),
    by decide, by decide, by decide, by decide, by decide!,
    (calculateGOP_short_audio pairRunner lowWords 0 (by decide) (by decide)).1 (by decide)⟩

/-- C24 (every target receives a frame).  Whenever `calculateGOP` succeeds, the decoded path
spends at least one frame in the state `2i+1` of every flat target `i`, and the detail of
that target has `0 ≤ start_frame ≤ end_frame ≤ T-1`, both frames lying in state `2i+1`;
its score is the mean of `log_prob(t, token_id)` over the non-empty set of frames of the
state, and its frames are not the zero-duration value `-1`. -/
theorem calculateGOP_target_frames (r : ModelRunner) (ws ws' : List WordAnalysis)
    (blank_idx : Int) (path : List Int) (hwf : r.WellFormed)
    (h : calculateGOP r ws blank_idx = some (true, ws'))
    (hpath : alignPath r (flatTargets r ws) blank_idx = some (some path))
    (i : Nat) (tg : TargetMap) (hi : (flatTargets r ws)[i]? = some tg) :
    (∃ t : Int, 0 ≤ t ∧ t < r.time_steps ∧ pathAt path t = 2 * (i : Int) + 1) ∧
      ∃ d, ((ws'.map (fun w => w.details)).flatten)[i]? = some d ∧
        0 ≤ d.start_frame ∧ d.start_frame ≤ d.end_frame ∧ d.end_frame ≤ r.time_steps - 1 ∧
        pathAt path d.start_frame = 2 * (i : Int) + 1 ∧
        pathAt path d.end_frame = 2 * (i : Int) + 1 ∧
        d.start_frame ≠ -1 ∧ d.end_frame ≠ -1 ∧
        1 ≤ (framesBefore path (2 * (i : Int) + 1) r.time_steps).card ∧
        d.score =
          (∑ t in framesBefore path (2 * (i : Int) + 1) r.time_steps,
              logProb r t tg.token_id) /
            ((framesBefore path (2 * (i : Int) + 1) r.time_steps).card : ℚ) := by
  obtain ⟨path', hp, _, _, hall⟩ := success_details r hwf ws ws' blank_idx h
  have e : path' = path := by rw [hp] at hpath; simpa using hpath
  subst e
  obtain ⟨d, hd, hs, hne⟩ := hall i tg hi
  have e : (i : Int) * 2 + 1 = 2 * (i : Int) + 1 := by ring
  have hsome := hs.some
  rw [e] at hsome hne
  obtain ⟨h1, h2, h3, h4⟩ := hsome hne
  have a := (mem_framesBefore _ _ _ _).mp h2
  have b := (mem_framesBefore _ _ _ _).mp h3
  obtain ⟨t, ht⟩ := hne
  have c := (mem_framesBefore _ _ _ _).mp ht
  refine ⟨⟨t, c.1, c.2.1, c.2.2⟩, d, hd, a.1, le_trans (h4 _ h2).1 (h4 _ h2).2, by omega,
    a.2.2, b.2.2, by omega, by omega, Finset.card_pos.2 ⟨t, ht⟩, h1⟩

/-- Witness of C24 on `sampleRunner`: target `a` (flat index 0) holds frames 0 and 1. -/
theorem calculateGOP_target_frames_witness :
    sampleRunner.WellFormed ∧
      calculateGOP sampleRunner sampleWords 0 = some (true, sampleResult) ∧
      alignPath sampleRunner (flatTargets sampleRunner sampleWords) 0 =
        some (some [1, 1, 3, 3, 3]) ∧
      (flatTargets sampleRunner sampleWords)[0]? = some (TargetMap.mk 0 0 1 "a") ∧
      ((∃ t : Int, 0 ≤ t ∧ t < sampleRunner.time_steps ∧
          pathAt [1, 1, 3, 3, 3] t = 2 * ((0 : Nat) : Int) + 1) ∧
        ∃ d, ((sampleResult.map (fun w => w.details)).flatten)[0]? = some d ∧
          0 ≤ d.start_frame ∧ d.start_frame ≤ d.end_frame ∧
          d.end_frame ≤ sampleRunner.time_steps - 1 ∧
          pathAt [1, 1, 3, 3, 3] d.start_frame = 2 * ((0 : Nat) : Int) + 1 ∧
          pathAt [1, 1, 3, 3, 3] d.end_frame = 2 * ((0 : Nat) : Int) + 1 ∧
          d.start_frame ≠ -1 ∧ d.end_frame ≠ -1 ∧
          1 ≤ (framesBefore [1, 1, 3, 3, 3] (2 * ((0 : Nat) : Int) + 1)
            sampleRunner.time_steps).card ∧
          d.score =
            (∑ t in framesBefore [1, 1, 3, 3, 3] (2 * ((0 : Nat) : Int) + 1)
                sampleRunner.time_steps,
                logProb sampleRunner t (TargetMap.mk 0 0 1 "a").token_id) /
              ((framesBefore [1, 1, 3, 3, 3] (2 * ((0 : Nat) : Int) + 1)
                sampleRunner.time_steps).card : ℚ)) :=
  ⟨by decide, by decide!, by decide!, by decide,
    calculateGOP_target_frames sampleRunner sampleWords sampleResult 0 [1, 1, 3, 3, 3]
      (by decide) (by decide!) (by decide!) 0 (TargetMap.mk 0 0 1 "a") (by decide)⟩

/-- C25 (too few frames).  For a well-formed emission with `1 ≤ T < n` frames, `n` the
number of flat targets, both terminal scores `dp[T-1][S-1]` and `dp[T-1][S-2]` stay at
`-1e9` and `calculateGOP` returns `false`, whatever the emission values; the words are left
with cleared details. -/
theorem calculateGOP_too_few_frames (r : ModelRunner) (ws : List WordAnalysis)
    (blank_idx : Int) (hwf : r.WellFormed) (hT : 1 ≤ r.time_steps)
    (hTn : r.time_steps < (flatTargets r ws).length) :
    calculateGOP r ws blank_idx = some (false, clearedWords ws) ∧
      ∃ tab, viterbiForward r (buildExtendedStates (flatTargets r ws) blank_idx) blank_idx
          r.time_steps (2 * (flatTargets r ws).length + 1) = some tab ∧
        dpAt tab.1 (2 * (flatTargets r ws).length + 1) (r.time_steps - 1)
          (2 * (flatTargets r ws).length + 1 - 1) ≤ NEG_INF ∧
        dpAt tab.1 (2 * (flatTargets r ws).length + 1) (r.time_steps - 1)
          (2 * (flatTargets r ws).length + 1 - 2) ≤ NEG_INF := by
  obtain ⟨hn, tab, hfw, ha, hb⟩ := alignPath_short r hwf (flatTargets r ws) blank_idx hT hTn
  have hflat : flatTargets r ws ≠ [] := by
    intro e; rw [e] at hTn; simp at hTn; omega
  have hws : ws ≠ [] := by
    intro e; rw [e] at hflat; exact hflat (flatTargets_nil r)
  have e1 : (2 * ((flatTargets r ws).length : Int) + 1 - 1) = 2 * (flatTargets r ws).length := by
    ring
  have e2 : (2 * ((flatTargets r ws).length : Int) + 1 - 2) =
      2 * (flatTargets r ws).length - 1 := by ring
  rw [e1, e2]
  refine ⟨?_, tab, hfw, ha, hb⟩
  rw [calculateGOP_eq, if_neg hws, if_neg hflat, hn]
  rfl

/-- Witness of C25 on `lowRunner` with the reference `[a, a]`: `T = 1 < n = 2`. -/
theorem calculateGOP_too_few_frames_witness :
    lowRunner.WellFormed ∧ 1 ≤ lowRunner.time_steps ∧
      lowRunner.time_steps < (flatTargets lowRunner repeatWords).length ∧
      (calculateGOP lowRunner repeatWords 0 = some (false, clearedWords repeatWords) ∧
        ∃ tab, viterbiForward lowRunner
            (buildExtendedStates (flatTargets lowRunner repeatWords) 0) 0
            lowRunner.time_steps (2 * (flatTargets lowRunner repeatWords).length + 1) =
              some tab ∧
          dpAt tab.1 (2 * (flatTargets lowRunner repeatWords).length + 1)
            (lowRunner.time_steps - 1)
            (2 * (flatTargets lowRunner repeatWords).length + 1 - 1) ≤ NEG_INF ∧
          dpAt tab.1 (2 * (flatTargets lowRunner repeatWords).length + 1)
            (lowRunner.time_steps - 1)
            (2 * (flatTargets lowRunner repeatWords).length + 1 - 2) ≤ NEG_INF) :=
  ⟨by decide, by decide, by decide,
    calculateGOP_too_few_frames lowRunner repeatWords 0 (by decide) (by decide) (by decide)⟩

/-- C26 (frame effect).  Whatever `calculateGOP` returns, `true` or `false`, the word list
it leaves has the same length as on entry and, position by position, the same `word`,
`clean_word`, `raw_ipa` and `phonemes`. -/
theorem calculateGOP_frame (r : ModelRunner) (ws ws' : List WordAnalysis) (blank_idx : Int)
    (flag : Bool) (h : calculateGOP r ws blank_idx = some (flag, ws')) :
    ws'.length = ws.length ∧
      ws'.map (fun w => (w.word, w.clean_word, w.raw_ipa, w.phonemes)) =
        ws.map (fun w => (w.word, w.clean_word, w.raw_ipa, w.phonemes)) := by
  have key : ws'.map (fun w => (w.word, w.clean_word, w.raw_ipa, w.phonemes)) =
      ws.map (fun w => (w.word, w.clean_word, w.raw_ipa, w.phonemes)) := by
    rw [calculateGOP_eq] at h
    by_cases h1 : ws = []
    · rw [if_pos h1] at h
      have e : ws' = ws := by
        have := Option.some.inj h
        exact (congrArg Prod.snd this).symm
      rw [e]
    · rw [if_neg h1] at h
      by_cases h2 : flatTargets r ws = []
      · rw [if_pos h2] at h
        have e : ws' = clearedWords ws := by
          have := Option.some.inj h
          exact (congrArg Prod.snd this).symm
        rw [e, clearedWords_frame]
      · rw [if_neg h2] at h
        obtain ⟨res, hres, h3⟩ := Option.bind_eq_some.1 h
        cases res with
        | none =>
          have e : ws' = clearedWords ws := by
            have := Option.some.inj h3
            exact (congrArg Prod.snd this).symm
          rw [e, clearedWords_frame]
        | some path =>
          obtain ⟨wsd, hfill, h4⟩ := Option.bind_eq_some.1 h3
          have e : ws' = wsd.map scoreWord := by
            have := Option.some.inj h4
            exact (congrArg Prod.snd this).symm
          rw [e, scoreWord_frame, fillDetails_frame _ _ _ _ _ _ _ hfill, clearedWords_frame]
  refine ⟨?_, key⟩
  have := congrArg List.length key
  simpa using this

/-- Witness of C26 on a `true` return (`sampleRunner`, where the first word enters with a
stale detail) and on a `false` return (`lowRunner` with the reference `[a, a]`). -/
theorem calculateGOP_frame_witness :
    calculateGOP sampleRunner sampleWords 0 = some (true, sampleResult) ∧
      (sampleResult.length = sampleWords.length ∧
        sampleResult.map (fun w => (w.word, w.clean_word, w.raw_ipa, w.phonemes)) =
          sampleWords.map (fun w => (w.word, w.clean_word, w.raw_ipa, w.phonemes))) ∧
      calculateGOP lowRunner repeatWords 0 = some (false, clearedWords repeatWords) ∧
      ((clearedWords repeatWords).length = repeatWords.length ∧
        (clearedWords repeatWords).map
            (fun w => (w.word, w.clean_word, w.raw_ipa, w.phonemes)) =
          repeatWords.map (fun w => (w.word, w.clean_word, w.raw_ipa, w.phonemes))) :=
  ⟨by decide!, calculateGOP_frame sampleRunner sampleWords sampleResult 0 true (by decide!),
    by decide!,
    calculateGOP_frame lowRunner repeatWords (clearedWords repeatWords) 0 false (by decide!)⟩

/-- C27 (tokenizer termination).  For every byte string and vocabulary, the pre-cleaning
loop ends within `len(raw_ipa)` iterations and the greatest-match loop within
`len(cleaned)` iterations (more fuel does not change the result), so `cleanAndTokenizeIPA`
returns; the cleaned string is no longer than the input, at most `len(cleaned)` tokens are
emitted, and every iteration of the greatest-match loop moves the offset forward by at
least one byte and emits at most one token. -/
theorem cleanAndTokenizeIPA_terminates (vocab : List (List Nat × Int)) (raw_ipa : List Nat) :
    ∃ clean_str tokens,
      (∀ fuel, raw_ipa.length ≤ fuel → preCleanLoop raw_ipa fuel 0 [] = some clean_str) ∧
      (∀ fuel, clean_str.length ≤ fuel →
        tokenizeLoop vocab clean_str fuel 0 [] = some tokens) ∧
      cleanAndTokenizeIPA vocab raw_ipa = some tokens ∧
      clean_str.length ≤ raw_ipa.length ∧ tokens.length ≤ clean_str.length ∧
      ∀ i, i < clean_str.length →
        i < (tokenizeStep vocab clean_str i).1 ∧
        (tokenizeStep vocab clean_str i).2.length ≤ 1 ∧
        ∀ fuel toks, tokenizeLoop vocab clean_str (fuel + 1) i toks =
          tokenizeLoop vocab clean_str fuel (tokenizeStep vocab clean_str i).1
            (toks ++ (tokenizeStep vocab clean_str i).2) := by
  obtain ⟨clean_str, hc⟩ := cleanIPA_total raw_ipa
  obtain ⟨tokens, ht, _⟩ := tokenizeLoop_total vocab clean_str clean_str.length 0 []
    (by omega) (by simp)
  refine ⟨clean_str, tokens, ?_, ?_, ?_, ?_, ?_, ?_⟩
  · intro fuel hf
    rw [preCleanLoop_fuel raw_ipa fuel raw_ipa.length 0 [] (by omega) (by omega)]
    exact hc
  · intro fuel hf
    rw [tokenizeLoop_fuel vocab clean_str fuel clean_str.length 0 [] (by omega) (by omega)]
    exact ht
  · rw [cleanAndTokenizeIPA, hc]
    exact ht
  · have := preCleanLoop_length raw_ipa _ _ _ _ hc
    simpa using this
  · have := tokenizeLoop_count vocab clean_str _ _ _ _ ht
    simpa using this
  · intro i hi
    obtain ⟨h1, h2⟩ := tokenizeStep_advances vocab clean_str i
    exact ⟨h1, h2, fun fuel toks => tokenizeLoop_step vocab clean_str fuel i toks hi⟩

/-- C22 (codepoint boundaries).  For an input that is the UTF-8 encoding of a code-point
sequence `s` and a vocabulary whose keys are UTF-8 encodings of code-point sequences, the
cleaned string is the encoding of the kept code points `cs`, and every value taken by the
scan offset of the greatest-match loop, the final one included, is a codepoint boundary of
the cleaned string; the loop ends exactly at the end of the cleaned string. -/
theorem tokenizer_codepoint_boundaries (vocab : List (List Nat × Int)) (s : List Char)
    (hkeys : ∀ kv ∈ vocab, ∃ ks : List Char, kv.1 = utf8Encode ks) :
    cleanIPA (utf8Encode s) =
        some (utf8Encode (s.filter (fun c => !isIgnoredCodepoint c))) ∧
      (∀ o ∈ scanOffsets vocab (utf8Encode (s.filter (fun c => !isIgnoredCodepoint c)))
          (utf8Encode (s.filter (fun c => !isIgnoredCodepoint c))).length 0,
        IsBoundary (s.filter (fun c => !isIgnoredCodepoint c)) o ∧
          o ≤ (utf8Encode (s.filter (fun c => !isIgnoredCodepoint c))).length) ∧
      (scanOffsets vocab (utf8Encode (s.filter (fun c => !isIgnoredCodepoint c)))
          (utf8Encode (s.filter (fun c => !isIgnoredCodepoint c))).length 0).getLast? =
        some (utf8Encode (s.filter (fun c => !isIgnoredCodepoint c))).length := by
  have hall : ∀ o ∈ scanOffsets vocab (utf8Encode (s.filter (fun c => !isIgnoredCodepoint c)))
      (utf8Encode (s.filter (fun c => !isIgnoredCodepoint c))).length 0,
      IsBoundary (s.filter (fun c => !isIgnoredCodepoint c)) o ∧
        o ≤ (utf8Encode (s.filter (fun c => !isIgnoredCodepoint c))).length := by
    intro o ho
    have hb := scanOffsets_boundary vocab (s.filter (fun c => !isIgnoredCodepoint c)) hkeys
      (utf8Encode (s.filter (fun c => !isIgnoredCodepoint c))).length 0 (by omega) o
      (by simpa [utf8Encode] using ho)
    refine ⟨hb, ?_⟩
    obtain ⟨n, hn, rfl⟩ := hb
    conv_rhs => rw [← List.take_append_drop n (s.filter (fun c => !isIgnoredCodepoint c))]
    rw [utf8Encode_append, List.length_append]
    omega
  refine ⟨cleanIPA_utf8 s, hall, ?_⟩
  obtain ⟨j, hj, hl, hge⟩ := scanOffsets_last vocab
    (utf8Encode (s.filter (fun c => !isIgnoredCodepoint c)))
    (utf8Encode (s.filter (fun c => !isIgnoredCodepoint c))).length 0 (by omega)
  have := (hall j hj).2
  rw [hl]
  congr 1
  omega

/-- Witness of C22 on the keys "e", "ɪ", "eɪ" and the input "ˈeɪʃ": the cleaned string is
"eɪʃ" (5 bytes), "eɪ" is matched, the unknown "ʃ" is skipped, and the offsets are 0, 3, 5. -/
theorem tokenizer_codepoint_boundaries_witness :
    (∀ kv ∈ diphthongVocab, ∃ ks : List Char, kv.1 = utf8Encode ks) ∧
      utf8Encode [Char.ofNat 0x2C8, Char.ofNat 0x65, Char.ofNat 0x26A, Char.ofNat 0x283] =
        [0xCB, 0x88, 0x65, 0xC9, 0xAA, 0xCA, 0x83] ∧
      utf8Encode ([Char.ofNat 0x2C8, Char.ofNat 0x65, Char.ofNat 0x26A,
          Char.ofNat 0x283].filter (fun c => !isIgnoredCodepoint c)) =
        [0x65, 0xC9, 0xAA, 0xCA, 0x83] ∧
      scanOffsets diphthongVocab [0x65, 0xC9, 0xAA, 0xCA, 0x83] 5 0 = [0, 3, 5] ∧
      (cleanIPA (utf8Encode [Char.ofNat 0x2C8, Char.ofNat 0x65, Char.ofNat 0x26A,
          Char.ofNat 0x283]) =
          some (utf8Encode ([Char.ofNat 0x2C8, Char.ofNat 0x65, Char.ofNat 0x26A,
            Char.ofNat 0x283].filter (fun c => !isIgnoredCodepoint c))) ∧
        (∀ o ∈ scanOffsets diphthongVocab
            (utf8Encode ([Char.ofNat 0x2C8, Char.ofNat 0x65, Char.ofNat 0x26A,
              Char.ofNat 0x283].filter (fun c => !isIgnoredCodepoint c)))
            (utf8Encode ([Char.ofNat 0x2C8, Char.ofNat 0x65, Char.ofNat 0x26A,
              Char.ofNat 0x283].filter (fun c => !isIgnoredCodepoint c))).length 0,
          IsBoundary ([Char.ofNat 0x2C8, Char.ofNat 0x65, Char.ofNat 0x26A,
              Char.ofNat 0x283].filter (fun c => !isIgnoredCodepoint c)) o ∧
            o ≤ (utf8Encode ([Char.ofNat 0x2C8, Char.ofNat 0x65, Char.ofNat 0x26A,
              Char.ofNat 0x283].filter (fun c => !isIgnoredCodepoint c))).length) ∧
        (scanOffsets diphthongVocab
            (utf8Encode ([Char.ofNat 0x2C8, Char.ofNat 0x65, Char.ofNat 0x26A,
              Char.ofNat 0x283].filter (fun c => !isIgnoredCodepoint c)))
            (utf8Encode ([Char.ofNat 0x2C8, Char.ofNat 0x65, Char.ofNat 0x26A,
              Char.ofNat 0x283].filter (fun c => !isIgnoredCodepoint c))).length 0).getLast? =
          some (utf8Encode ([Char.ofNat 0x2C8, Char.ofNat 0x65, Char.ofNat 0x26A,
              Char.ofNat 0x283].filter (fun c => !isIgnoredCodepoint c))).length) := by
  have hk : ∀ kv ∈ diphthongVocab, ∃ ks : List Char, kv.1 = utf8Encode ks := by
    intro kv hkv
    simp only [diphthongVocab, List.mem_cons, List.mem_singleton, List.not_mem_nil,
      or_false] at hkv
    rcases hkv with rfl | rfl | rfl
    · exact ⟨[Char.ofNat 0x65], by decide⟩
    · exact ⟨[Char.ofNat 0x26A], by decide⟩
    · exact ⟨[Char.ofNat 0x65, Char.ofNat 0x26A], by decide⟩
  exact ⟨hk, by decide, by decide, by decide,
    tokenizer_codepoint_boundaries diphthongVocab
      [Char.ofNat 0x2C8, Char.ofNat 0x65, Char.ofNat 0x26A, Char.ofNat 0x283] hk⟩

end SpeechTrain
